import Mathlib

/-!
# Shallow embedding of taucs_multilu.c (TAUCS MULTILU unsymmetric multifrontal LU)

This file embeds, in Lean 4, the parts of `src/taucs/src/taucs_multilu.c` that the
frozen claims talk about, and proves or refutes each claim.

Modelling conventions, used consistently below:

* C `int` arrays are total functions `Nat → Nat`, `Nat → Option Nat` (when the C
  code stores the sentinel `-1` = `MULTILU_SYMBOLIC_NONE`, we use `none`), or
  `Nat → Bool` for flag arrays.  Scalar values (`taucs_datatype`) are `ℚ`
  (exact rationals; the numeric claims settled here are index/bookkeeping and
  structural claims, not rounding claims).
* In-place mutation becomes explicit state passing; `upd a i v` is a single
  array store.  C `for` loops over `0..k-1` become `loopN f k s` which applies
  `f 0`, `f 1`, …, `f (k-1)` in that (ascending) order.
* Reads of memory the C code leaves uninitialized are modelled by a fixed junk
  value (noted at each spot); the code never lets such a value influence a
  result we reason about, except where explicitly noted.
* C `assert` is modelled explicitly (as an error value) only in
  `elimination_analysis`, where a claim (C8) is about the assertion itself.
  Everywhere else asserts are modelled as no-ops, matching an `NDEBUG` build.
* Recursions the C code performs with unbounded stack (DFS loop, path
  compression in union-find) take an explicit fuel parameter; callers pass a
  fuel that provably or evidently dominates the recursion depth.
-/

namespace Multilu

/-- Single array store: `upd a i v` is the array `a` with slot `i` set to `v`. -/
def upd {α : Type} (a : Nat → α) (i : Nat) (v : α) : Nat → α :=
  fun k => if k = i then v else a k

/-- `loopN f k s` runs the loop body `f` on indices `0, 1, …, k-1` in ascending
order starting from state `s` (the shape of every `for (i = 0; i < k; i++)`
loop in the C source). -/
def loopN {σ : Type} (f : Nat → σ → σ) : Nat → σ → σ
  | 0, s => s
  | k + 1, s => f k (loopN f k s)

/-! ## Compile-time parameters (taucs_multilu.c lines 75-129) -/

/-- `MULTILU_MAX_SUPERCOL_SIZE = -1` (deactivated). -/
def MULTILU_MAX_SUPERCOL_SIZE : Int := -1

/-- `MULTILU_MAX_OVERFILL_RATIO = 2`. -/
def MULTILU_MAX_OVERFILL_RATIO : Nat := 2

/-- `MULTILU_RELAX_RULE_SIZE = 20`. -/
def MULTILU_RELAX_RULE_SIZE : Nat := 20

/-- `MULTILU_EAN_BUFFER = 2`. -/
def MULTILU_EAN_BUFFER : Nat := 2

/-- `MULTILU_ALIGN_ADD_SMALL = 80`. -/
def MULTILU_ALIGN_ADD_SMALL : Nat := 80

/-! ## Compressed-column sparse matrix (`taucs_ccs_matrix`)

Row indices and values for column `j` live in
`rowind[colptr j .. colptr (j+1))` / `values[…]`. -/

structure CCS where
  m : Nat
  n : Nat
  colptr : Nat → Nat
  rowind : Nat → Nat
  values : Nat → ℚ

/-! ## Union-find (taucs_multilu.c lines 4322-4408, `_UF_UNION_BY_RANK` not defined)

`uf_make_sets n` makes each element its own parent.  `uf_find` does path
compression exactly like the recursive C function: the recursive call runs on
the parent first, then the node is repointed at the returned representative.
The C recursion has no fuel; we add one (callers pass the number of elements,
which dominates the chain length for the forest states the code builds). -/

def uf_make_sets : Nat → Nat := fun x => x

def uf_find (fuel : Nat) (sets : Nat → Nat) (x : Nat) : (Nat → Nat) × Nat :=
  match fuel with
  | 0 => (sets, x)
  | fuel + 1 =>
    if sets x = x then (sets, x)
    else
      let r := uf_find fuel sets (sets x)
      (upd r.1 x r.2, r.2)

/-- `uf_union` (without union-by-rank): `sets[x] = y; return y`. -/
def uf_union (sets : Nat → Nat) (x y : Nat) : (Nat → Nat) × Nat :=
  (upd sets x y, y)

/-! ## garbage_collect (taucs_multilu.c lines 1134-1167)

Compacts the live (non-cleared) row patterns of the workspace to the front, in
ascending order of their current start, and rewrites their starts.  The C code
sorts `(el_start, el_number)` pairs with `qsort` on `el_start`; we use a
deterministic insertion sort on the same key (ties can only involve
zero-length patterns, for which the result does not depend on their order). -/

def insertByStart (p : Nat × Nat) : List (Nat × Nat) → List (Nat × Nat)
  | [] => [p]
  | q :: t => if p.1 < q.1 then p :: q :: t else q :: insertByStart p t

def sortByStart : List (Nat × Nat) → List (Nat × Nat)
  | [] => []
  | p :: t => insertByStart p (sortByStart t)

/-- One `memcpy(workspace + loc, workspace + src, sz * sizeof(int))`. -/
def gcMove (ws : Nat → Nat) (loc src sz : Nat) : Nat → Nat :=
  fun k => if loc ≤ k ∧ k < loc + sz then ws (src + (k - loc)) else ws k

/-- `garbage_collect(workspace, el_start, el_size, el_cleared, el_num)`:
returns the compacted workspace, the corrected `el_start`, and the new free
pointer `loc`. -/
def garbage_collect (ws : Nat → Nat) (el_start el_size : Nat → Nat)
    (el_cleared : Nat → Bool) (el_num : Nat) : (Nat → Nat) × (Nat → Nat) × Nat :=
  let live : List (Nat × Nat) :=
    ((List.range el_num).filter (fun i => !el_cleared i)).map (fun i => (el_start i, i))
  let sorted := sortByStart live
  -- defragment pass, recording the new start of each element
  let res := sorted.foldl
    (fun (st : (Nat → Nat) × List (Nat × Nat) × Nat) p =>
      let (w, acc, loc) := st
      (gcMove w loc p.1 (el_size p.2), (p.2, loc) :: acc, loc + el_size p.2))
    (ws, [], 0)
  -- location-correction pass
  let el_start2 := res.2.1.foldl (fun es q => upd es q.1 q.2) el_start
  (res.1, el_start2, res.2.2)

/-! ## elimination_analysis (taucs_multilu.c lines 521-714)

Gilbert–Ng row-merge simulation producing, per pivot step `col`, the column
etree `parent` (sentinel `A.n` = root), and the fill bounds `l_size`,
`u_size`.  The two C `assert`s in the column loop are modelled as explicit
error values because claim C8 is about the first of them. -/

inductive EAErr where
  /-- `assert(A->colptr[org_col + 1] > A->colptr[org_col])`: empty input column. -/
  | emptyColumn : EAErr
  /-- `assert(row_size > 0)`: the merged row pattern came out empty. -/
  | emptyRowPattern : EAErr
deriving DecidableEq

structure EAState where
  firstcol : Nat → Nat
  root : Nat → Nat
  rdegs : Nat → Nat
  rnums : Nat → Nat
  sets : Nat → Nat
  col_cleared : Nat → Bool
  row_cleared : Nat → Bool
  col_mmb : Nat → Bool
  row_workspace : Nat → Nat
  rows_start : Nat → Nat
  rows_size : Nat → Nat
  next_row : Nat
  parent : Nat → Nat
  l_size : Nat → Nat
  u_size : Nat → Nat
  err : Option EAErr

/-- The twice-occurring inner loop of `elimination_analysis` that appends the
live columns of the stored row pattern `src` (a `rows_start`/`rows_size`
entry) to the row being assembled at `row_start`, skipping columns already
cleared or already members.  Returns the updated state and the new
`row_size`. -/
def appendRowPattern (src : Nat) (row_start : Nat) (st : EAState) (row_size : Nat) :
    EAState × Nat :=
  let start := st.rows_start src
  loopN
    (fun j (p : EAState × Nat) =>
      let st := p.1
      let rsz := p.2
      let colx := st.row_workspace (start + j)
      if !st.col_cleared colx && !st.col_mmb colx then
        ({ st with
            row_workspace := upd st.row_workspace (row_start + rsz) colx,
            col_mmb := upd st.col_mmb colx true }, rsz + 1)
      else p)
    (st.rows_size src) (st, row_size)

/-- Body of the per-nonzero loop of `elimination_analysis` (lines 608-673).
State is `(st, cset, row_size)`; `row_start` and the column being processed
are fixed. -/
def eaNonzero (A : CCS) (col row_start : Nat) (org_col : Nat) (i : Nat)
    (p : EAState × Nat × Nat) : EAState × Nat × Nat :=
  let st := p.1
  let cset := p.2.1
  let row_size := p.2.2
  let row := A.rowind (A.colptr org_col + i)
  let fcol := st.firstcol row
  if fcol = A.n then
    -- first appearance of this row
    let st := { st with
        firstcol := upd st.firstcol row col,
        rdegs := upd st.rdegs cset (st.rdegs cset + 1) }
    let q := appendRowPattern row row_start st row_size
    ({ q.1 with row_cleared := upd q.1.row_cleared row true }, cset, q.2)
  else
    let fr := uf_find A.n st.sets fcol
    let st := { st with sets := fr.1 }
    let rset := fr.2
    let rroot := st.root rset
    if rroot = col then (st, cset, row_size)
    else
      let rnum := st.rnums rset
      let q := appendRowPattern rnum row_start st row_size
      let st := q.1
      let row_size := q.2
      let st := { st with
          row_cleared := upd st.row_cleared rnum true,
          parent := upd st.parent rroot col }
      let cset_old := cset
      let u := uf_union st.sets cset rset
      let st := { st with sets := u.1 }
      let cset := u.2
      let st := { st with
          rdegs := upd st.rdegs cset (st.rdegs cset_old + st.rdegs rset) }
      let st := { st with root := upd st.root cset col }
      (st, cset, row_size)

/-- The post-garbage-collection part of the per-column loop of
`elimination_analysis` (lines 587-698). -/
def eaColumnBody (A : CCS) (column_order : Nat → Nat) (col : Nat) (st : EAState) : EAState :=
    let row_start := st.next_row
    let org_col := column_order col
    -- assert(A->colptr[org_col + 1] > A->colptr[org_col])
    if ¬ A.colptr org_col < A.colptr (org_col + 1) then
      { st with err := some EAErr.emptyColumn }
    else
      let nnz_column := A.colptr (org_col + 1) - A.colptr org_col
      let st := { st with
          root := upd st.root col col,
          parent := upd st.parent col A.n,
          rdegs := upd st.rdegs col 0 }
      let r := loopN (eaNonzero A col row_start org_col) nnz_column (st, col, 0)
      let st := r.1
      let cset := r.2.1
      let row_size := r.2.2
      let st := { st with l_size := upd st.l_size col (st.rdegs cset) }
      -- assert(row_size > 0)
      if row_size = 0 then { st with err := some EAErr.emptyRowPattern }
      else
        let st := { st with
            u_size := upd st.u_size col row_size,
            rdegs := upd st.rdegs cset (st.rdegs cset - 1) }
        let rn := A.rowind (A.colptr org_col)
        let st := { st with
            rnums := upd st.rnums cset rn,
            rows_start := upd st.rows_start rn row_start,
            rows_size := upd st.rows_size rn row_size,
            row_cleared := upd st.row_cleared rn false }
        let st := loopN
          (fun j t => { t with
              col_mmb := upd t.col_mmb (t.row_workspace (row_start + j)) false })
          row_size st
        { st with
            next_row := row_start + row_size,
            col_cleared := upd st.col_cleared org_col true }

/-- Body of the per-column loop of `elimination_analysis` (lines 577-698): a
fired assertion ends the run, then garbage collection when the workspace
would overflow, then `eaColumnBody`. -/
def eaColumn (A : CCS) (column_order : Nat → Nat) (col : Nat) (st : EAState) : EAState :=
  if st.err.isSome then st
  else
    let st :=
      if A.colptr A.n + MULTILU_EAN_BUFFER * A.n < st.next_row + (A.n - col) then
        let g := garbage_collect st.row_workspace st.rows_start st.rows_size
          st.row_cleared A.m
        { st with row_workspace := g.1, rows_start := g.2.1, next_row := g.2.2 }
      else st
    eaColumnBody A column_order col st

/-- Initial state of `elimination_analysis` (lines 552-574).  Arrays the C code
leaves uninitialized (`root`, `rdegs`, `rnums`, `rows_start` beyond the prefix
sums, `parent`, `l_size`, `u_size`) start as the junk value `0`; the code
writes them before reading. -/
def eaInit (A : CCS) : EAState :=
  -- rows_size[r] = number of nonzeros in row r
  let rows_size :=
    loopN (fun i rs => upd rs (A.rowind i) (rs (A.rowind i) + 1)) (A.colptr A.n)
      (fun _ => 0)
  -- prefix sums: rows_start[0] = 0; rows_start[i] = rows_start[i-1] + rows_size[i-1]
  let rows_start :=
    loopN (fun i rs => upd rs (i + 1) (rs i + rows_size i)) (A.m - 1) (fun _ => 0)
  -- fill the row-major pattern, using rows_size as a running cursor
  let fill :=
    loopN
      (fun i (p : (Nat → Nat) × (Nat → Nat)) =>
        loopN
          (fun jj q =>
            let j := A.colptr i + jj
            let row := A.rowind j
            let index := rows_start row + q.2 row
            (upd q.1 index i, upd q.2 row (q.2 row + 1)))
          (A.colptr (i + 1) - A.colptr i) p)
      A.n ((fun _ => 0), (fun _ => 0))
  { firstcol := fun _ => A.n
    root := fun _ => 0
    rdegs := fun _ => 0
    rnums := fun _ => 0
    sets := uf_make_sets A.n
    col_cleared := fun _ => false
    row_cleared := fun _ => false
    col_mmb := fun _ => false
    row_workspace := fill.1
    rows_start := rows_start
    rows_size := fill.2
    next_row := A.colptr A.n
    parent := fun _ => 0
    l_size := fun _ => 0
    u_size := fun _ => 0
    err := none }

/-- `elimination_analysis(A, column_order, parent, l_size, u_size)`. -/
def elimination_analysis (A : CCS) (column_order : Nat → Nat) : EAState :=
  loopN (eaColumn A column_order) A.n (eaInit A)

/-! ## Child lists and depth-first postorder

`taucs_ccs_factor_lu_symbolic` (lines 384-397) builds the `first_child` /
`next_child` form of the column etree by walking `i = n-1 … 0`;
`df_postorder` (lines 724-780) then produces the postorder and per-vertex
descendant counts with an explicit stack.  The `while (depth >= 0)` loop gets
a fuel; `2*(root+1) + 4` iterations dominate any run (each iteration either
pushes or pops, and each of the `root+1` vertices is pushed at most once). -/

/-- Builds `(first_child, next_child)` from a parent array with sentinel-`n`
roots attached under the virtual super-root `n` (lines 387-397). -/
def buildChildren (n : Nat) (parent : Nat → Nat) : (Nat → Option Nat) × (Nat → Option Nat) :=
  loopN
    (fun k (p : (Nat → Option Nat) × (Nat → Option Nat)) =>
      let i := n - 1 - k
      let pa := parent i
      (upd p.1 pa (some i), upd p.2 i (p.1 pa)))
    n ((fun _ => none), (fun _ => none))

/-- The children of `v`, in `first_child`/`next_child` order, chain-chased
with fuel. -/
def childChain (next_child : Nat → Option Nat) : Nat → Option Nat → List Nat
  | 0, _ => []
  | _, none => []
  | f + 1, some c => c :: childChain next_child f (next_child c)

def childList (first_child next_child : Nat → Option Nat) (fuel v : Nat) : List Nat :=
  childChain next_child fuel (first_child v)

structure DFState where
  stack_vertex : Nat → Nat
  stack_child : Nat → Option Nat
  depth : Nat
  postnum : Nat
  postorder : Nat → Nat
  desc_count : Nat → Nat
  dfDone : Bool

/-- One iteration of the `df_postorder` stack loop. -/
def dfStep (first_child next_child : Nat → Option Nat) (root : Nat) (st : DFState) : DFState :=
  if st.dfDone then st
  else
    match st.stack_child st.depth with
    | some c =>
      { st with
          stack_vertex := upd st.stack_vertex (st.depth + 1) c,
          stack_child := upd st.stack_child (st.depth + 1) (first_child c),
          depth := st.depth + 1 }
    | none =>
      let st :=
        if st.stack_vertex st.depth ≠ root then
          let v := st.stack_vertex st.depth
          let dc := 1 + ((childList first_child next_child (root + 1) v).map
            st.desc_count).sum
          { st with
              postorder := upd st.postorder st.postnum v,
              desc_count := upd st.desc_count v dc,
              postnum := st.postnum + 1 }
        else st
      if st.depth = 0 then { st with dfDone := true }
      else
        let d := st.depth - 1
        let st := { st with depth := d }
        { st with
            stack_child := upd st.stack_child d
              (match st.stack_child d with
               | some c => next_child c
               | none => none) }

/-- `df_postorder(first_child, next_child, root, postorder, desc_count)`. -/
def df_postorder (first_child next_child : Nat → Option Nat) (root : Nat) : DFState :=
  let init : DFState :=
    { stack_vertex := upd (fun _ => 0) 0 root
      stack_child := upd (fun _ => none) 0 (first_child root)
      depth := 0
      postnum := 0
      postorder := fun _ => 0
      desc_count := fun _ => 0
      dfDone := false }
  loopN (fun _ st => dfStep first_child next_child root st) (2 * (root + 1) + 4) init

/-! ## detect_supercol (taucs_multilu.c lines 790-969)

Replays the row-merge process over the postordered columns, grouping columns
into fundamental supercolumns, then runs the relaxation pass
(`MULTILU_RELAX_RULE_SIZE > 1`, so the `#if` block at lines 926-955 is
compiled in).  `fsc` models the C variable `fsc_num` which starts at `-1`
(`none` here).  The read `sc_size[fsc_num]` with `fsc_num == -1` (reachable
only when `one_child[0]` is true, which the symbolic driver never produces)
is an out-of-bounds junk read in C; we return junk `0` for it — the value is
only compared against `MULTILU_MAX_SUPERCOL_SIZE = -1`, which no `Nat` can
equal. -/

/-- Number of fundamental supercolumns opened so far, as a function of the
`fsc` register (`fsc_num + 1` in the C indexing, where `fsc_num` starts at
`-1`). -/
def fscN (o : Option Nat) : Nat :=
  match o with
  | none => 0
  | some f => f + 1

structure DSState where
  firstcol : Nat → Nat
  sets : Nat → Nat
  root : Nat → Nat
  map_col_supercol : Nat → Nat
  lastcol : Nat → Nat
  sc_parent : Nat → Option Nat
  fsc : Option Nat
  sc_size : Nat → Nat
  max_lsize : Nat
  max_usize : Nat
  sc_lsize : Nat
  sc_usize : Nat

/-- Body of the per-nonzero loop of `detect_supercol` (lines 851-875). -/
def dsNonzero (A : CCS) (col org_col : Nat) (i : Nat) (p : DSState × Nat) : DSState × Nat :=
  let st := p.1
  let cset := p.2
  let row := A.rowind (A.colptr org_col + i)
  let fcol := st.firstcol row
  if fcol = A.n then
    ({ st with firstcol := upd st.firstcol row col }, cset)
  else
    let fr := uf_find A.n st.sets fcol
    let st := { st with sets := fr.1 }
    let rset := fr.2
    let rroot := st.root rset
    if rroot = col then (st, cset)
    else
      let st := { st with
          sc_parent := upd st.sc_parent (st.map_col_supercol rroot) (some col) }
      let u := uf_union st.sets cset rset
      let st := { st with sets := u.1 }
      let cset := u.2
      let st := { st with root := upd st.root cset col }
      (st, cset)

/-- The in-a-chain overfill re-check of the per-column loop (lines 877-891):
if the supercolumn is not already being broken, update the running size
bounds and possibly break it after all. -/
def dsOverfill (l_size u_size postorder : Nat → Nat) (col : Nat)
    (p : DSState × Bool) : DSState × Bool :=
  if p.2 then p
  else
    let st := p.1
    let f := (match st.fsc with | none => 0 | some f => f)
    let inc_sc_size := st.sc_size f + 1
    let st := { st with
        max_lsize := st.max_lsize + l_size (postorder col),
        max_usize := st.max_usize + u_size (postorder col) }
    let st := { st with
        sc_lsize := max st.sc_lsize (l_size (postorder col) + st.sc_size f),
        sc_usize := max st.sc_usize (u_size (postorder col) + st.sc_size f) }
    if MULTILU_MAX_OVERFILL_RATIO * st.max_lsize < st.sc_lsize * inc_sc_size ||
       MULTILU_MAX_OVERFILL_RATIO * st.max_usize < st.sc_usize * inc_sc_size then
      (st, true)
    else (st, false)

/-- The close-or-extend epilogue of the per-column loop (lines 893-909):
either open a new fundamental supercolumn for `col` or extend the current
one. -/
def dsClose (l_size u_size postorder : Nat → Nat) (col : Nat)
    (p : DSState × Bool) : DSState :=
  let st := p.1
  if p.2 then
    let f := fscN st.fsc
    { st with
        fsc := some f
        sc_size := upd st.sc_size f 1
        lastcol := upd st.lastcol f col
        map_col_supercol := upd st.map_col_supercol col f
        max_lsize := l_size (postorder col)
        max_usize := u_size (postorder col)
        sc_lsize := l_size (postorder col)
        sc_usize := u_size (postorder col) }
  else
    let f := (match st.fsc with | none => 0 | some f => f)
    { st with
        sc_size := upd st.sc_size f (st.sc_size f + 1)
        lastcol := upd st.lastcol f col
        map_col_supercol := upd st.map_col_supercol col f }

/-- Body of the per-column loop of `detect_supercol` (lines 827-909). -/
def dsColumn (A : CCS) (column_order : Nat → Nat) (one_child : Nat → Bool)
    (l_size u_size postorder : Nat → Nat) (col : Nat) (st : DSState) : DSState :=
  let org_col := column_order col
  let cset := col
  -- sc_size[fsc_num] is junk when fsc_num = -1; see the section comment
  let scRead : Nat := match st.fsc with | none => 0 | some f => st.sc_size f
  let new_supercol :=
    !(one_child col) || decide ((scRead : Int) = MULTILU_MAX_SUPERCOL_SIZE)
  let nnz_column := A.colptr (org_col + 1) - A.colptr org_col
  let st := { st with root := upd st.root cset col }
  let r := loopN (dsNonzero A col org_col) nnz_column (st, cset)
  dsClose l_size u_size postorder col
    (dsOverfill l_size u_size postorder col (r.1, new_supercol))

/-- State of the relaxation pass (lines 926-955).  `map` is the C
`map_fsc_rsc`, which aliases `map_col_supercol`; `lastcol` is reused in
place. -/
structure RelaxState where
  map : Nat → Nat
  lastcol : Nat → Nat
  sc_size : Nat → Nat
  sc_parent : Nat → Option Nat
  sc_num : Nat
  cscs : Nat

/-- Body of the relaxation loop (lines 930-941). -/
def relaxBody (desc_count : Nat → Nat) (i : Nat) (st : RelaxState) : RelaxState :=
  let cscs := st.cscs + st.sc_size i
  let map2 := upd st.map i st.sc_num
  let last2 := upd st.lastcol st.sc_num i
  let closes :=
    match st.sc_parent i with
    | none => false
    | some p => decide (MULTILU_RELAX_RULE_SIZE ≤ desc_count (last2 p))
  if closes then
    { st with
        map := map2, lastcol := last2,
        sc_size := upd st.sc_size st.sc_num cscs,
        sc_num := st.sc_num + 1, cscs := 0 }
  else
    { st with map := map2, lastcol := last2, cscs := cscs }

/-- The relaxation pass: loop, closing of the final cluster, and the parent
recorrection loop (lines 926-955). -/
def relaxPass (desc_count : Nat → Nat) (fsc_num : Nat) (sc_size : Nat → Nat)
    (sc_parent : Nat → Option Nat) (map lastcol : Nat → Nat) : RelaxState :=
  let st0 : RelaxState :=
    { map := map, lastcol := lastcol, sc_size := sc_size, sc_parent := sc_parent
      sc_num := 0, cscs := 0 }
  let st := loopN (relaxBody desc_count) fsc_num st0
  let st := { st with
      sc_size := upd st.sc_size st.sc_num st.cscs,
      sc_num := st.sc_num + 1 }
  -- correct parent again
  loopN
    (fun i t =>
      let op := t.sc_parent (t.lastcol i)
      let v : Option Nat := match op with | none => none | some p => some (t.map p)
      { t with sc_parent := upd t.sc_parent i v })
    st.sc_num st

/-- Result of `detect_supercol`: `sc_num` supercolumns, their sizes, and the
supercolumn etree parents. -/
structure DetectResult where
  sc_num : Nat
  sc_size : Nat → Nat
  sc_parent : Nat → Option Nat

/-- The state of `detect_supercol` after its per-column loop but before the
parent correction and relaxation passes (split out so that the loop invariants
for claims C5 and C7 can name it). -/
def detectLoop (A : CCS) (column_order : Nat → Nat) (one_child : Nat → Bool)
    (l_size u_size postorder : Nat → Nat) : DSState :=
  let init : DSState :=
    { firstcol := fun _ => A.n
      sets := uf_make_sets A.n
      root := fun _ => 0          -- uninitialized in C
      map_col_supercol := fun _ => 0  -- uninitialized in C
      lastcol := fun _ => 0       -- uninitialized in C
      sc_parent := fun _ => none
      fsc := none
      sc_size := fun _ => 0
      max_lsize := 0, max_usize := 0, sc_lsize := 0, sc_usize := 0 }
  loopN (dsColumn A column_order one_child l_size u_size postorder) A.n init

/-- The parent-correction loop of `detect_supercol` (lines 915-923), mapping
column-level parents to supercolumn indices and turning self-parents into
roots. -/
def correctParents (map_col_supercol : Nat → Nat) (fsc_num : Nat)
    (sc_parent : Nat → Option Nat) : Nat → Option Nat :=
  loopN
    (fun i sp =>
      match sp i with
      | none => sp
      | some c =>
        let p := map_col_supercol c
        upd sp i (if p = i then none else some p))
    fsc_num sc_parent

/-- `detect_supercol(A, column_order, one_child, desc_count, l_size, u_size,
postorder, &sc_num, sc_size, sc_parent)`. -/
def detect_supercol (A : CCS) (column_order : Nat → Nat) (one_child : Nat → Bool)
    (desc_count l_size u_size postorder : Nat → Nat) : DetectResult :=
  let st := detectLoop A column_order one_child l_size u_size postorder
  -- close last supercolumn: fsc_num++
  let fsc_num := fscN st.fsc
  -- correct mapping of sc_parent from columns to supercolumns (lines 915-923)
  let sc_parent := correctParents st.map_col_supercol fsc_num st.sc_parent
  -- relaxation (MULTILU_RELAX_RULE_SIZE > 1)
  let r := relaxPass desc_count fsc_num st.sc_size sc_parent st.map_col_supercol st.lastcol
  { sc_num := r.sc_num, sc_size := r.sc_size, sc_parent := r.sc_parent }

/-! ## Symbolic result and complete_symbolic (taucs_multilu.c lines 979-1062)

`complete_symbolic` fills supercolumn start/end positions, the child lists and
root list of the supercolumn etree, the descendant index ranges
`first_desc_index` / `last_desc_index`, and the covered-column counts. -/

structure Symbolic where
  n : Nat
  columns : Nat → Nat
  number_supercolumns : Nat
  start_supercolumn : Nat → Nat
  end_supercolumn : Nat → Nat
  supercolumn_size : Nat → Nat
  supercolumn_covered_columns : Nat → Nat
  l_size : Nat → Nat
  u_size : Nat → Nat
  first_root : Option Nat
  parent : Nat → Option Nat
  first_child : Nat → Option Nat
  next_child : Nat → Option Nat
  first_desc_index : Nat → Option Nat
  last_desc_index : Nat → Option Nat

/-- The descendant-range pass of `complete_symbolic` (lines 1034-1050), kept
as a standalone function because claim C6 is about it.  The two sequential
`if`s of the C body are reproduced verbatim; after a write to
`first_desc_index[parent]` by the first one, the second one's guard is
false. -/
def descStep (parent : Nat → Option Nat) (i : Nat)
    (st : (Nat → Option Nat) × (Nat → Option Nat)) :
    (Nat → Option Nat) × (Nat → Option Nat) :=
  let fdi := st.1
  let ldi := if (fdi i).isSome then upd st.2 i (some (i - 1)) else st.2
  match parent i with
  | none => (fdi, ldi)
  | some p =>
    let fdi := if fdi p = none ∧ fdi i = none then upd fdi p (some i) else fdi
    let fdi := if fdi p = none ∧ fdi i ≠ none then upd fdi p (fdi i) else fdi
    (fdi, ldi)

/-- The `first_desc_index` / `last_desc_index` arrays computed by
`complete_symbolic` for `s` supercolumns with the given parent array. -/
def descPass (parent : Nat → Option Nat) (s : Nat) :
    (Nat → Option Nat) × (Nat → Option Nat) :=
  loopN (descStep parent) s ((fun _ => none), (fun _ => none))

/-- `complete_symbolic(symbolic)`: takes the symbolic structure with `n`,
`columns`, `number_supercolumns`, `supercolumn_size`, `l_size`, `u_size` and
the supercolumn `parent` already filled in, and completes the rest. -/
def complete_symbolic (sym : Symbolic) : Symbolic :=
  let s := sym.number_supercolumns
  -- supercolumn start and end (lines 987-993)
  let se :=
    loopN
      (fun k (p : (Nat → Nat) × (Nat → Nat)) =>
        let i := k + 1
        let st := p.2 (i - 1) + 1
        (upd p.1 i st, upd p.2 i (st + sym.supercolumn_size i - 1)))
      (s - 1)
      (upd (fun _ => 0) 0 0, upd (fun _ => 0) 0 (sym.supercolumn_size 0 - 1))
  -- child lists and root list (lines 1000-1026)
  let ch :=
    loopN
      (fun i (p : Option Nat × (Nat → Option Nat) × (Nat → Option Nat)) =>
        let (fr, fc, nc) := p
        match sym.parent i with
        | none => (some i, fc, upd nc i fr)
        | some pa => (fr, upd fc pa (some i), upd nc i (fc pa)))
      s (none, (fun _ => none), (fun _ => none))
  -- descendant index ranges (lines 1034-1050)
  let d := descPass sym.parent s
  -- covered columns (lines 1053-1061)
  let cov :=
    loopN
      (fun i c =>
        let c := upd c i (c i + sym.supercolumn_size i)
        match sym.parent i with
        | none => c
        | some pa => upd c pa (c pa + c i))
      s (fun _ => 0)
  { sym with
      start_supercolumn := se.1
      end_supercolumn := se.2
      first_root := ch.1
      first_child := ch.2.1
      next_child := ch.2.2
      first_desc_index := d.1
      last_desc_index := d.2
      supercolumn_covered_columns := cov }

/-- `taucs_ccs_factor_lu_symbolic(A, column_order)` (lines 344-473), with
memory allocation always succeeding.  Returns `none` exactly when
`elimination_analysis` failed (an assertion fired in our model — the C
FAILURE path is out-of-memory, which we model as never happening). -/
def taucs_ccs_factor_lu_symbolic (A : CCS) (column_order : Nat → Nat) :
    Option Symbolic :=
  let ea := elimination_analysis A column_order
  if ea.err.isSome then none
  else
    let cn := buildChildren A.n ea.parent
    let first_child := cn.1
    let next_child := cn.2
    let df := df_postorder first_child next_child A.n
    let postorder := df.postorder
    -- one_child[i]: postorder[i] has exactly one child (lines 410-417)
    let one_child : Nat → Bool := fun i =>
      match first_child (postorder i) with
      | none => false
      | some c => (next_child c).isNone
    -- apply the ordering to columns and desc_count (lines 421-425)
    let columns : Nat → Nat := fun i => column_order (postorder i)
    let desc_count : Nat → Nat := fun i => df.desc_count (postorder i)
    let det := detect_supercol A columns one_child desc_count ea.l_size ea.u_size
      postorder
    -- supercolumn l_size and u_size (lines 439-458; the constants make the
    -- `MULTILU_RELAX_RULE_SIZE == 0 && MULTILU_MAX_OVERFILL_RATIO == 1`
    -- branch dead, but it is reproduced faithfully)
    let lu :=
      loopN
        (fun i (p : (Nat → Nat) × (Nat → Nat) × Nat) =>
          let (ls, us, firstcol_ind) := p
          if MULTILU_RELAX_RULE_SIZE = 0 ∧ MULTILU_MAX_OVERFILL_RATIO = 1 then
            (upd ls i (ea.l_size (postorder firstcol_ind)),
             upd us i (ea.u_size (postorder firstcol_ind)),
             firstcol_ind + det.sc_size i)
          else
            let r :=
              loopN
                (fun j (q : Nat × Nat) =>
                  (max q.1 (ea.l_size (postorder (firstcol_ind + j)) + j),
                   max q.2 (ea.u_size (postorder (firstcol_ind + j)) + j)))
                (det.sc_size i) (0, 0)
            (upd ls i r.1, upd us i r.2, firstcol_ind + det.sc_size i))
        det.sc_num ((fun _ => 0), (fun _ => 0), 0)
    let sym : Symbolic :=
      { n := A.n
        columns := columns
        number_supercolumns := det.sc_num
        start_supercolumn := fun _ => 0
        end_supercolumn := fun _ => 0
        supercolumn_size := det.sc_size
        supercolumn_covered_columns := fun _ => 0
        l_size := lu.1
        u_size := lu.2.1
        first_root := none
        parent := det.sc_parent
        first_child := fun _ => none
        next_child := fun _ => none
        first_desc_index := fun _ => none
        last_desc_index := fun _ => none }
    some (complete_symbolic sym)

/-! ## Numeric factorization: data structures (taucs_multilu.c lines 196-300)

The embedding below is of the **sequential** scheduler instantiation
(`nproc = 1`), which is the code path of the driver loop the claims quote
(lines 1721-1751).  Branches guarded by `nproc > 1` in the C source are noted
in comments where they are dropped.

Pointer aliases of the C structures are modelled by explicit offsets:
`non_pivot_rows` is `pivot_rows + np_rows_off` (set to `row_b_size` by
`factorize_l_portion`), `non_pivot_cols` is `pivot_cols + np_cols_off` (set to
the supercolumn size by `allocate_factor_block`), and `L2` is `LU1` at row
offset `L2_off` with the block's leading dimension. -/

structure ContribBlock where
  m : Nat
  n : Nat
  ld : Nat
  columns : Nat → Nat
  col_loc : Nat → Nat
  rows : Nat → Nat
  row_loc : Nat → Nat
  values : Nat → ℚ
  num_cols_in_parent : Nat
  L_member : Bool
  U_member : Bool

structure FactorBlock where
  valid : Bool
  row_pivots_number : Nat
  col_pivots_number : Nat
  non_pivot_rows_number : Nat
  non_pivot_cols_number : Nat
  pivot_rows : Nat → Nat
  pivot_cols : Nat → Nat
  np_rows_off : Nat
  np_cols_off : Nat
  l_size : Nat
  LU1 : Nat → ℚ
  L2_off : Nat
  Ut2 : Nat → ℚ
  contrib_block : Option ContribBlock

def FactorBlock.non_pivot_rows (b : FactorBlock) (i : Nat) : Nat :=
  b.pivot_rows (b.np_rows_off + i)

def FactorBlock.non_pivot_cols (b : FactorBlock) (i : Nat) : Nat :=
  b.pivot_cols (b.np_cols_off + i)

structure Factor where
  num_blocks : Nat
  blocks : Nat → Option FactorBlock
  m : Nat
  n : Nat

/-- The factorization context (taucs_multilu.c lines 1190-1271), sequential
fields only.  `map_rows` and `map_cols` use `none` for the C value `-1`. -/
structure MContext where
  F : Factor
  A : CCS
  At : CCS
  row_cleared : Nat → Bool
  column_cleared : Nat → Bool
  sym : Symbolic
  thresh : ℚ
  map_rows : Nat → Option Nat
  map_cols : Nat → Option Nat

def getBlock (ctx : MContext) (i : Nat) : Option FactorBlock :=
  ctx.F.blocks i

def setBlock (ctx : MContext) (i : Nat) (b : FactorBlock) : MContext :=
  { ctx with F := { ctx.F with blocks := upd ctx.F.blocks i (some b) } }

/-- Outcome of the four buffer allocations of `allocate_factor_block`; the
out-of-memory behaviour of the allocator is an environment input, so the
theorems quantify over a plan `Nat → AllocPlan` (one per supercolumn).
(The C code additionally dereferences `pivot_cols` and `LU1` before checking
them, so in C a failure of those two crashes in `memcpy`/`memset` before
`valid` is computed; the flags still determine `valid` faithfully.) -/
structure AllocPlan where
  pivot_cols_ok : Bool
  pivot_rows_ok : Bool
  LU1_ok : Bool
  Ut2_ok : Bool

/-- `is_member(x, S, n)` returns the first location of `x` in `S[0..n)`, or
`none` (C: `-1`). -/
def is_member (x : Nat) (S : Nat → Nat) (n : Nat) : Option Nat :=
  loopN
    (fun i acc =>
      match acc with
      | some _ => acc
      | none => if S i = x then some i else none)
    n none

/-- `allocate_factor(context, m, n, supercolumns_number, type)`
(lines 2803-2812): all blocks start absent. -/
def allocate_factor (m n supercolumns_number : Nat) : Factor :=
  { num_blocks := supercolumns_number, blocks := fun _ => none, m := m, n := n }

/-- `allocate_factor_block(mcontext, pivot_supercol)` (lines 2372-2405).
`pivot_cols[0..s)` is preloaded with the supercolumn's columns; `LU1` is
zeroed; `valid` records whether every needed buffer allocation succeeded. -/
def allocate_factor_block (ctx : MContext) (pivot_supercol : Nat) (plan : AllocPlan) :
    MContext :=
  let s := ctx.sym.supercolumn_size pivot_supercol
  let mu_size := ctx.sym.u_size pivot_supercol
  let ml_size := ctx.sym.l_size pivot_supercol
  let pivot_cols := fun k =>
    if k < s then ctx.sym.columns (ctx.sym.start_supercolumn pivot_supercol + k) else 0
  let valid :=
    ¬ ((0 < mu_size ∧ ¬ plan.pivot_cols_ok) ∨
       (0 < ml_size ∧ ¬ plan.pivot_rows_ok) ∨
       (0 < ml_size ∧ ¬ plan.LU1_ok) ∨
       (0 < mu_size ∧ ¬ plan.Ut2_ok))
  let b : FactorBlock :=
    { valid := decide valid
      row_pivots_number := 0
      col_pivots_number := 0
      non_pivot_rows_number := 0
      non_pivot_cols_number := 0
      pivot_rows := fun _ => 0
      pivot_cols := pivot_cols
      np_rows_off := 0
      np_cols_off := s
      l_size := 0
      LU1 := fun _ => 0
      L2_off := 0
      Ut2 := fun _ => 0
      contrib_block := none }
  setBlock ctx pivot_supercol b

/-- `allocate_contrib_block(l_size, u_size)` (lines 3346-3377), with
allocation succeeding (the caller in `factorize_supercolumn` dereferences the
result without a null check). -/
def allocate_contrib_block (l_size u_size : Nat) : ContribBlock :=
  { m := l_size, ld := l_size, n := u_size
    columns := fun _ => 0, col_loc := fun _ => 0
    rows := fun _ => 0, row_loc := fun _ => 0
    values := fun _ => 0
    num_cols_in_parent := 0
    L_member := false, U_member := false }

/-! `free_contrib_block` sets `m = n = 0` and frees; its observable effect on
the owner is `contrib_block := none`, handled at each call site. -/

/-! ## Focus (assembly) operations (taucs_multilu.c lines 2414-2741) -/

/-- `focus_supercolumn_from_contrib(context, supercol, contrib)`
(lines 2439-2525): gather the columns of `supercol` out of the contribution
block of descendant `contrib` into `LU1`, growing the pivot-row list through
`map_rows`, shrinking the contribution block column-wise, and marking it a
`U_member`. -/
def focus_supercolumn_from_contrib (ctx : MContext) (supercol contrib : Nat) : MContext :=
  match getBlock ctx contrib with
  | none => ctx   -- unreachable in the driver; C would dereference null
  | some desc_fb =>
    match desc_fb.contrib_block with
    | none => ctx
    | some dcb0 =>
      match getBlock ctx supercol with
      | none => ctx -- unreachable in the driver; C would dereference null
      | some fb0 =>
        let max_size := ctx.sym.l_size supercol
        -- loop state: map_rows, the supercolumn block's pivot_rows/LU1/size,
        -- the descendant's contribution block (or `none` once freed)
        let r :=
          loopN
            (fun col_c
                (st : (Nat → Option Nat) × FactorBlock × Option ContribBlock) =>
              let (mr, fb, odcb) := st
              match odcb with
              | none => st  -- C breaks out of the loop when the block dies
              | some dcb =>
                let column := ctx.sym.columns (ctx.sym.start_supercolumn supercol + col_c)
                match is_member column dcb.columns dcb.n with
                | none => st
                | some loc_arr =>
                  let loc_val := dcb.col_loc loc_arr
                  let inner :=
                    loopN
                      (fun j (q : (Nat → Option Nat) × FactorBlock) =>
                        let (mr, fb) := q
                        let row := dcb.rows j
                        let j_loc := dcb.row_loc j
                        let val := dcb.values (loc_val * dcb.ld + j_loc)
                        match mr row with
                        | some k =>
                          let lu2 := upd fb.LU1 (col_c * max_size + k)
                            (fb.LU1 (col_c * max_size + k) + val)
                          (mr, { fb with LU1 := lu2 })
                        | none =>
                          let size := fb.l_size
                          (upd mr row (some size),
                           { fb with
                              pivot_rows := upd fb.pivot_rows size row,
                              LU1 := upd fb.LU1 (col_c * max_size + size) val,
                              l_size := size + 1 }))
                      dcb.m (mr, fb)
                  let mr := inner.1
                  let fb := inner.2
                  -- shrink the contribution block; kill it if empty
                  if dcb.n - 1 = 0 then (mr, fb, none)
                  else
                    let n2 := dcb.n - 1
                    let dcb := { dcb with
                        n := n2,
                        columns := upd dcb.columns loc_arr (dcb.columns n2),
                        col_loc := upd dcb.col_loc loc_arr (dcb.col_loc n2),
                        U_member := true }
                    (mr, fb, some dcb))
            (ctx.sym.supercolumn_size supercol)
            (ctx.map_rows, fb0, some dcb0)
        let ctx := { ctx with map_rows := r.1 }
        let ctx := setBlock ctx supercol r.2.1
        setBlock ctx contrib { desc_fb with contrib_block := r.2.2 }

/-- `focus_supercolumn_from_child(context, supercol, child)` (lines 2414-2431):
assemble from every contribution block in the child subtree
`[first_desc_index child, child]`. -/
def focus_supercolumn_from_child (ctx : MContext) (supercol child : Nat) : MContext :=
  let ctx :=
    match ctx.sym.first_desc_index child with
    | none => ctx
    | some fd =>
      loopN (fun k c => focus_supercolumn_from_contrib c supercol (fd + k))
        (child - fd) ctx
  focus_supercolumn_from_contrib ctx supercol child

/-- `focus_supercolumn_from_A(context, supercol)` (lines 2533-2587): assemble
the supercolumn's part of the original matrix into `LU1` and mark its columns
cleared. -/
def focus_supercolumn_from_A (ctx : MContext) (supercol : Nat) : MContext :=
  match getBlock ctx supercol with
  | none => ctx -- unreachable in the driver; C would dereference null
  | some fb0 =>
    let max_size := ctx.sym.l_size supercol
    let r :=
      loopN
        (fun col_c (st : MContext × FactorBlock) =>
          let (ctx, fb) := st
          let column := fb.pivot_cols col_c
          let q :=
            loopN
              (fun ii (q : MContext × FactorBlock) =>
                let (ctx, fb) := q
                let i := ctx.A.colptr column + ii
                let row := ctx.A.rowind i
                if ctx.row_cleared row then q
                else
                  match ctx.map_rows row with
                  | some k =>
                    let lu2 := upd fb.LU1 (col_c * max_size + k)
                      (fb.LU1 (col_c * max_size + k) + ctx.A.values i)
                    (ctx, { fb with LU1 := lu2 })
                  | none =>
                    let size := fb.l_size
                    ({ ctx with map_rows := upd ctx.map_rows row (some size) },
                     { fb with
                        pivot_rows := upd fb.pivot_rows size row,
                        LU1 := upd fb.LU1 (col_c * max_size + size) (ctx.A.values i),
                        l_size := size + 1 }))
              (ctx.A.colptr (column + 1) - ctx.A.colptr column) (ctx, fb)
          let (ctx, fb) := q
          ({ ctx with column_cleared := upd ctx.column_cleared column true }, fb))
        (ctx.sym.supercolumn_size supercol) (ctx, fb0)
    setBlock r.1 supercol r.2

/-- State threaded through `focus_rows`: the context (whose factor blocks own
the shrinking contribution blocks and whose `row_cleared` is marked), the
destination index array `ind` (a view of `pivot_cols` starting at
`ind_off`), the destination values `values` (the block's `Ut2`), the column
map, and the running `size`. -/
structure FocusRowsState where
  ctx : MContext
  ind_base : Nat → Nat
  values : Nat → ℚ
  map_cols : Nat → Option Nat
  size : Nat

/-- `focus_rows(context, rows, number, pivot_supercol, ind, values, max_size,
map_cols)` (lines 2602-2741): assemble the U-rows of the supercolumn from the
original matrix (via `At`) and from descendant contribution blocks, building
the non-pivot column list through `map_cols` and shrinking the contribution
blocks row-wise (marking them `L_member`).  The initial
`memset(values, 0, max_size * number)` zeroes the destination. -/
def focus_rows (ctx : MContext) (rows : Nat → Nat) (number pivot_supercol : Nat)
    (ind_base : Nat → Nat) (ind_off : Nat) (values0 : Nat → ℚ) (max_size : Nat)
    (map_cols : Nat → Option Nat) : FocusRowsState :=
  let values : Nat → ℚ := fun k => if k < max_size * number then 0 else values0 k
  -- pass 1: assemble from the matrix transpose (lines 2622-2655)
  let st1 : FocusRowsState :=
    loopN
      (fun row_ind (st : FocusRowsState) =>
        let row := rows row_ind
        let q :=
          loopN
            (fun ii (q : FocusRowsState) =>
              let i := q.ctx.At.colptr row + ii
              let column := q.ctx.At.rowind i
              if q.ctx.column_cleared column then q
              else
                match q.map_cols column with
                | some k =>
                  let v2 := upd q.values (row_ind * max_size + k) (q.ctx.At.values i)
                  { q with values := v2 }
                | none =>
                  { q with
                      ind_base := upd q.ind_base (ind_off + q.size) column,
                      values := upd q.values (row_ind * max_size + q.size)
                        (q.ctx.At.values i),
                      map_cols := upd q.map_cols column (some q.size),
                      size := q.size + 1 })
            (st.ctx.At.colptr (row + 1) - st.ctx.At.colptr row) st
        { q with ctx := { q.ctx with
            row_cleared := upd q.ctx.row_cleared row true } })
      number
      { ctx := ctx, ind_base := ind_base, values := values, map_cols := map_cols
        size := 0 }
  -- pass 2: assemble from descendant contribution blocks (lines 2662-2735)
  match ctx.sym.first_desc_index pivot_supercol with
  | none => st1
  | some fd =>
    loopN
      (fun k (st : FocusRowsState) =>
        let c := fd + k
        match getBlock st.ctx c with
        | none => st  -- unreachable in the driver; C would dereference null
        | some desc_fb =>
          match desc_fb.contrib_block with
          | none => st
          | some dcb0 =>
            let r :=
              loopN
                (fun row_ind (q : FocusRowsState × Option ContribBlock) =>
                  let (st, odcb) := q
                  match odcb with
                  | none => q  -- C breaks out of the row loop
                  | some dcb =>
                    let row := rows row_ind
                    match is_member row dcb.rows dcb.m with
                    | none => q
                    | some loc_arr =>
                      let loc_val := dcb.row_loc loc_arr
                      let st :=
                        loopN
                          (fun i (st : FocusRowsState) =>
                            let col := dcb.columns i
                            let i_loc := dcb.col_loc i
                            let val := dcb.values (i_loc * dcb.ld + loc_val)
                            match st.map_cols col with
                            | some k =>
                              let v2 := upd st.values (row_ind * max_size + k)
                                (st.values (row_ind * max_size + k) + val)
                              { st with values := v2 }
                            | none =>
                              { st with
                                  ind_base := upd st.ind_base (ind_off + st.size) col,
                                  values := upd st.values
                                    (row_ind * max_size + st.size) val,
                                  map_cols := upd st.map_cols col (some st.size),
                                  size := st.size + 1 })
                          dcb.n st
                      if dcb.m - 1 = 0 then (st, none)
                      else
                        let m2 := dcb.m - 1
                        let dcb := { dcb with
                            m := m2,
                            rows := upd dcb.rows loc_arr (dcb.rows m2),
                            row_loc := upd dcb.row_loc loc_arr (dcb.row_loc m2),
                            L_member := true }
                        (st, some dcb))
                number (st, some dcb0)
            let st := r.1
            { st with ctx := setBlock st.ctx c { desc_fb with contrib_block := r.2 } })
      (pivot_supercol - fd) st1

/-- `compress_values_block(values, m, n, ld)` (lines 3452-3476): compress a
column-major `m × n` block of leading dimension `ld` to leading dimension
`m`.  (When `m` or `n` is zero the C code frees the buffer; the contents are
then irrelevant and we keep the array.) -/
def compress_values_block (values : Nat → ℚ) (m n ld : Nat) : Nat → ℚ :=
  loopN
    (fun i1 v =>
      let i := i1 + 1
      -- memcpy(original + i*m, original + i*ld, m)
      fun k => if i * m ≤ k ∧ k < i * m + m then v (i * ld + (k - (i * m))) else v k)
    (n - 1) values

/-! ## Align-add (taucs_multilu.c lines 2832-3338), sequential instantiation

With `nproc = 1` the recursive rectangle subdivision (`nproc > 1` branches) is
dead; the leaf scatter loops are embedded.  `align_add_subtree` recurses over
the child lists of the supercolumn etree; the recursion gets fuel (callers
pass the number of supercolumns, which dominates the tree depth). -/

/-- Scalar loop of `align_add` (LUSon case, lines 3064-3086): every row and
column of `addfrom` appears in `addto`.  Ends by marking `addfrom` empty
(`n = 0`); the caller then frees it. -/
def align_add (map_rows map_cols : Nat → Option Nat) (addto addfrom : ContribBlock) :
    ContribBlock × ContribBlock :=
  let addto :=
    loopN
      (fun j (b : ContribBlock) =>
        let j_from := addfrom.columns j
        let j_loc := addfrom.col_loc j
        let j_to_ind := (map_cols j_from).getD 0
        loopN
          (fun i (b : ContribBlock) =>
            let i_from := addfrom.rows i
            let i_loc := addfrom.row_loc i
            let i_to_ind := (map_rows i_from).getD 0
            let v2 := upd b.values (j_to_ind * b.ld + i_to_ind)
              (b.values (j_to_ind * b.ld + i_to_ind) +
                addfrom.values (j_loc * addfrom.ld + i_loc))
            { b with values := v2 })
          addfrom.m b)
      addfrom.n addto
  (addto, { addfrom with n := 0 })

/-- Scalar loop of `align_add_rows` (Lson case, lines 3184-3213): rows of
`addfrom` may be absent from `addto` (skipped via `map_rows = -1`). -/
def align_add_rows (map_rows map_cols : Nat → Option Nat)
    (addto addfrom : ContribBlock) : ContribBlock :=
  loopN
    (fun i (b : ContribBlock) =>
      let i_from := addfrom.rows i
      let i_loc := addfrom.row_loc i
      match map_rows i_from with
      | none => b
      | some i_to_ind =>
        loopN
          (fun j (b : ContribBlock) =>
            let j_from := addfrom.columns j
            let j_loc := addfrom.col_loc j
            let j_to_ind := (map_cols j_from).getD 0
            let v2 := upd b.values (j_to_ind * b.ld + i_to_ind)
              (b.values (j_to_ind * b.ld + i_to_ind) +
                addfrom.values (j_loc * addfrom.ld + i_loc))
            { b with values := v2 })
          addfrom.n b)
    addfrom.m addto

/-- Scalar loop of `align_add_cols` (Uson case, lines 3312-3337): columns of
`addfrom` may be absent from `addto` (skipped via `map_cols = -1`). -/
def align_add_cols (map_rows map_cols : Nat → Option Nat)
    (addto addfrom : ContribBlock) : ContribBlock :=
  loopN
    (fun j (b : ContribBlock) =>
      let j_from := addfrom.columns j
      let j_loc := addfrom.col_loc j
      match map_cols j_from with
      | none => b
      | some j_to_ind =>
        loopN
          (fun i (b : ContribBlock) =>
            let i_from := addfrom.rows i
            let i_loc := addfrom.row_loc i
            let i_to_ind := (map_rows i_from).getD 0
            let v2 := upd b.values (j_to_ind * b.ld + i_to_ind)
              (b.values (j_to_ind * b.ld + i_to_ind) +
                addfrom.values (j_loc * addfrom.ld + i_loc))
            { b with values := v2 })
          addfrom.m b)
    addfrom.n addto

/-- The row-compaction loop of the Lson case (lines 2921-2930): swap-delete
every row of the contribution block whose `map_rows` entry is live.  The C
loop advances `i` or shrinks `m` each iteration, so `m` initial iterations
always finish it; state is `(i, block)`. -/
def compactContribRows (map_rows : Nat → Option Nat) (dcb : ContribBlock) :
    ContribBlock :=
  (loopN
    (fun _ (st : Nat × ContribBlock) =>
      let (i, d) := st
      if i < d.m then
        if (map_rows (d.rows i)).isSome then
          let m2 := d.m - 1
          (i, { d with
              m := m2,
              rows := upd d.rows i (d.rows m2),
              row_loc := upd d.row_loc i (d.row_loc m2) })
        else (i + 1, d)
      else st)
    dcb.m (0, dcb)).2

/-- The column-compaction loop of the Uson case (lines 2939-2949). -/
def compactContribCols (map_cols : Nat → Option Nat) (dcb : ContribBlock) :
    ContribBlock :=
  (loopN
    (fun _ (st : Nat × ContribBlock) =>
      let (i, d) := st
      if i < d.n then
        if (map_cols (d.columns i)).isSome then
          let n2 := d.n - 1
          (i, { d with
              n := n2,
              columns := upd d.columns i (d.columns n2),
              col_loc := upd d.col_loc i (d.col_loc n2) })
        else (i + 1, d)
      else st)
    dcb.n (0, dcb)).2

/-- `align_add_from(mcontext, addto, desc_factor_block, map_cols)`
(lines 2900-2965): dispatch on LUSon/Lson/Uson, compact the descendant's row
or column lists, then either free the contribution block (when it has no rows
or no columns left) or reset its membership flags.  The descendant block is
addressed by its supercolumn index `desc`. -/
def align_add_from (ctx : MContext) (addto : ContribBlock) (desc : Nat)
    (map_cols : Nat → Option Nat) : MContext × ContribBlock :=
  match getBlock ctx desc with
  | none => (ctx, addto)  -- unreachable in the driver; C would dereference null
  | some desc_fb =>
    match desc_fb.contrib_block with
    | none => (ctx, addto) -- callers guard on a live contribution block
    | some dcb =>
      let (addto, dcb) :=
        if dcb.L_member && dcb.U_member then
          align_add ctx.map_rows map_cols addto dcb
        else if dcb.L_member && !dcb.U_member then
          (align_add_rows ctx.map_rows map_cols addto dcb,
           compactContribRows ctx.map_rows dcb)
        else if !dcb.L_member && dcb.U_member then
          (align_add_cols ctx.map_rows map_cols addto dcb,
           compactContribCols map_cols dcb)
        else (addto, dcb)
      let newContrib : Option ContribBlock :=
        if dcb.n = 0 || dcb.m = 0 then none
        else some { dcb with L_member := false, U_member := false }
      (setBlock ctx desc { desc_fb with contrib_block := newContrib }, addto)

/-- `align_add_subtree(mcontext, addto, subtree_root, map_cols)`
(lines 2832-2892), sequential branch: recurse over the children, then add the
root's own contribution if it is live.  Structural recursion on fuel. -/
def align_add_subtree (ctx : MContext) (addto : ContribBlock)
    (map_cols : Nat → Option Nat) : Nat → Nat → MContext × ContribBlock
  | 0, _ => (ctx, addto)
  | fuel + 1, subtree_root =>
    let r :=
      (childList ctx.sym.first_child ctx.sym.next_child ctx.F.num_blocks
        subtree_root).foldl
        (fun (p : MContext × ContribBlock) child =>
          align_add_subtree p.1 p.2 map_cols fuel child)
        (ctx, addto)
    let (ctx, addto) := r
    match getBlock ctx subtree_root with
    | none => (ctx, addto)
    | some fb =>
      match fb.contrib_block with
      | none => (ctx, addto)
      | some _ => align_add_from ctx addto subtree_root map_cols

/-! ## Dense kernels consumed by the numeric phase

The dense BLAS-like kernels live outside this repository's `src/`
(`taucs_dense.h`); the spec lists them as external collaborators.  The LU
kernel's pivot choice is underdetermined by the spec (threshold test plus a
degree tie-break), so the numeric phase is parameterized over it; the
deterministic kernels are modelled from the spec below. -/

/-- Type of the dense LU kernel `taucs_dtl(S_LU)(LU1, m, n, ld, thresh,
degrees, pivot_rows, scratch)`: it rewrites the `m × n` block `LU1` (leading
dimension `ld`) and permutes `pivot_rows[0..m)`.  Modelled from the spec as an
arbitrary function of its inputs — the spec constrains which row may be chosen
as a pivot but not the resulting values, and no claim settled here depends on
them. -/
def LUKernelT : Type :=
  (Nat → ℚ) → Nat → Nat → Nat → ℚ → (Nat → Nat) → (Nat → Nat) →
    ((Nat → ℚ) × (Nat → Nat))

/-- Modelled from the spec: `UnitLowerRightTriSolve(ru, rb, L, ldL, X, ldX)`
computes `U2 ← L1⁻¹ · U2` where `X` stores `U2` transposed (`X[j*ldX + k]` is
element `(row j, column k)` of `U2`, `j < rb`, `k < ru`): row `j` of `U2` gets
the preceding rows scaled by the unit-lower-triangular `L1` subtracted. -/
def unitLowerRightTriSolve (ru rb : Nat) (L : Nat → ℚ) (ldL : Nat)
    (X : Nat → ℚ) (ldX : Nat) : Nat → ℚ :=
  loopN
    (fun j X =>
      loopN
        (fun k X =>
          let s := (List.range j).foldl
            (fun acc t => acc + L (j + t * ldL) * X (t * ldX + k)) 0
          upd X (j * ldX + k) (X (j * ldX + k) - s))
        ru X)
    rb X

/-- Modelled from the spec: `CaddMABT(m, n, k, A, lda, B, ldb, C, ldc)`
computes `C ← C − A·Bᵀ` on column-major dense blocks. -/
def caddMABT (m n k : Nat) (A : Nat → ℚ) (lda : Nat) (B : Nat → ℚ) (ldb : Nat)
    (C : Nat → ℚ) (ldc : Nat) : Nat → ℚ :=
  loopN
    (fun j C =>
      loopN
        (fun i C =>
          let s := (List.range k).foldl
            (fun acc t => acc + A (i + t * lda) * B (j + t * ldb)) 0
          upd C (i + j * ldc) (C (i + j * ldc) - s))
        m C)
    n C

/-- `prepare_degree_array(context, supercol, rows, size, degrees)`
(lines 3405-3443): per-row fill estimates fed to the LU kernel when
`thresh < 1`. -/
def prepare_degree_array (ctx : MContext) (supercol : Nat) (rows : Nat → Nat)
    (size : Nat) : Nat → Nat :=
  let degrees :=
    loopN
      (fun i d =>
        loopN
          (fun jj d =>
            let j := ctx.At.colptr (rows i) + jj
            if ctx.column_cleared (ctx.At.rowind j) then d else upd d i (d i + 1))
          (ctx.At.colptr (rows i + 1) - ctx.At.colptr (rows i)) d)
      size (fun _ => 0)
  match ctx.sym.first_desc_index supercol with
  | none => degrees
  | some fd =>
    loopN
      (fun k d =>
        match getBlock ctx (fd + k) with
        | none => d
        | some fb =>
          match fb.contrib_block with
          | none => d
          | some dcb =>
            loopN
              (fun j d =>
                let row := dcb.rows j
                match ctx.map_rows row with
                | none => d
                | some loc => upd d loc (d loc + dcb.n))
              dcb.m d)
      (supercol - fd) degrees

/-- `factorize_l_portion(mcontext, pivot_supercol, map_cols, dense_spawn,
one_child)` (lines 2009-2106), sequential instantiation: the
`one_child && nproc > 1` preamble and the scratch (de)allocations are
parallel-only; what remains is the compression of `pivot_rows`/`LU1`, the
degree preparation when `thresh < 1`, and the dense LU kernel call. -/
def factorize_l_portion (lu : LUKernelT) (ctx : MContext) (pivot_supercol : Nat) :
    MContext :=
  match getBlock ctx pivot_supercol with
  | none => ctx -- unreachable in the driver; C would dereference null
  | some fb =>
    if !fb.valid then ctx
    else
      let ml_size := ctx.sym.l_size pivot_supercol
      let l_size := fb.l_size
      let col_b_size := ctx.sym.supercolumn_size pivot_supercol
      let row_b_size := min l_size col_b_size
      if l_size = 0 then ctx
      else
        let fb := { fb with
            np_rows_off := row_b_size,
            LU1 := compress_values_block fb.LU1 l_size col_b_size ml_size,
            L2_off := row_b_size }
        let degrees :=
          if ctx.thresh < 1 then
            prepare_degree_array ctx pivot_supercol fb.pivot_rows l_size
          else fun _ => 0   -- uninitialized scratch in C, unread by the kernel
        let r := lu fb.LU1 l_size col_b_size l_size ctx.thresh degrees fb.pivot_rows
        setBlock ctx pivot_supercol { fb with LU1 := r.1, pivot_rows := r.2 }

/-- Membership-mark removal of `factorize_supercolumn`'s tail
(lines 2313-2326): when no contribution block was produced, reset the
`L_member`/`U_member` flags of every descendant's contribution block. -/
def clearMembership (pivot_supercol : Nat) (fb : FactorBlock) (ctx : MContext) :
    MContext :=
  if fb.non_pivot_rows_number = 0 || fb.non_pivot_cols_number = 0 then
    match ctx.sym.first_desc_index pivot_supercol with
    | none => ctx
    | some fd =>
      loopN
        (fun k c =>
          match getBlock c (fd + k) with
          | none => c
          | some dfb =>
            match dfb.contrib_block with
            | none => c
            | some dcb =>
              let dcb2 := { dcb with L_member := false, U_member := false }
              setBlock c (fd + k) { dfb with contrib_block := some dcb2 })
        (pivot_supercol - fd) ctx
  else ctx

/-- Row-indication clearing of `factorize_supercolumn`'s tail
(lines 2329-2336): reset `map_rows` for the pivot and non-pivot rows. -/
def clearRowIndications (fb : FactorBlock) (ctx : MContext) : MContext :=
  let ctx :=
    loopN
      (fun i c => { c with
          map_rows := upd c.map_rows (fb.pivot_rows i) none })
      fb.row_pivots_number ctx
  loopN
    (fun i c => { c with
        map_rows := upd c.map_rows (fb.pivot_rows (fb.np_rows_off + i)) none })
    fb.non_pivot_rows_number ctx

/-- Column-indication clearing of `factorize_supercolumn`'s tail
(lines 2339-2340): reset `map_cols` for the non-pivot columns recorded in
`pivot_cols[np_cols_off ..]`. -/
def clearColIndications (fb : FactorBlock) (ctx : MContext) : MContext :=
  loopN
    (fun i c => { c with
        map_cols := upd c.map_cols (fb.pivot_cols (fb.np_cols_off + i)) none })
    fb.non_pivot_cols_number ctx

/-- The tail of `factorize_supercolumn` (lines 2306-2364): write the pivot
and non-pivot counts into the factor block, drop membership marks when no
contribution block was produced, clear the row and column indications, and
store the block.  Takes the `(context, block, ru_size)` triple produced by
the U-focus part. -/
def fscEpilogue (col_b_size row_b_size l_size pivot_supercol : Nat)
    (t : MContext × FactorBlock × Nat) : MContext :=
  let fb := { t.2.1 with
      col_pivots_number := col_b_size
      row_pivots_number := row_b_size
      non_pivot_rows_number := l_size - row_b_size
      non_pivot_cols_number := t.2.2 }
  setBlock
    (clearColIndications fb
      (clearRowIndications fb
        (clearMembership pivot_supercol fb t.1)))
    pivot_supercol fb

/-- `factorize_supercolumn(mcontext, pivot_supercol, map_cols)`
(lines 2108-2364), sequential instantiation (`nproc = 1`): the
`only_child`/`parent_has_job` bookkeeping, the postponed child rank-k update,
and `rearrange_non_pivot_cols` are `nproc > 1` branches.  Note that in the
sequential path the C variables `only_child` and `parent_has_job` read at
line 2309 are **uninitialized** (a latent bug); their junk values decide
whether the final Schur rank-k update runs, so they are passed in here as the
parameters `junk_only_child` and `junk_parent_has_job`. -/
def factorize_supercolumn (lu : LUKernelT) (junk_only_child junk_parent_has_job : Bool)
    (ctx : MContext) (pivot_supercol : Nat) : MContext :=
  let ctx := factorize_l_portion lu ctx pivot_supercol
  match getBlock ctx pivot_supercol with
  | none => ctx -- unreachable in the driver; C would dereference null
  | some fb =>
    if !fb.valid then ctx
    else
      let mu_size := ctx.sym.u_size pivot_supercol
      let l_size := fb.l_size
      let col_b_size := ctx.sym.supercolumn_size pivot_supercol
      let row_b_size := min l_size col_b_size
      fscEpilogue col_b_size row_b_size l_size pivot_supercol <|
        if l_size = 0 then (ctx, fb, 0)
        else
          -- focus on the remaining part of the U block
          let fr := focus_rows ctx fb.pivot_rows row_b_size pivot_supercol
            fb.pivot_cols fb.np_cols_off fb.Ut2 mu_size ctx.map_cols
          let ru_size := fr.size
          let ctx := { fr.ctx with map_cols := fr.map_cols }
          let fb := { fb with
              pivot_cols := fr.ind_base,
              Ut2 := compress_values_block fr.values ru_size row_b_size mu_size }
          if ru_size = 0 then (ctx, fb, 0)
          else
            -- apply the pivots: Ut2 ← L1⁻¹ · Ut2
            let fb := { fb with
                Ut2 := unitLowerRightTriSolve ru_size row_b_size fb.LU1 l_size
                  fb.Ut2 ru_size }
            -- correct the row mapping for the non-pivot rows
            let ctx :=
              loopN
                (fun i c => { c with
                    map_rows := upd c.map_rows (fb.pivot_rows (row_b_size + i))
                      (some i) })
                (l_size - row_b_size) ctx
            if l_size - row_b_size = 0 then (ctx, fb, ru_size)
            else
              let ncb0 := allocate_contrib_block (l_size - row_b_size) ru_size
              let ncb := { ncb0 with
                  num_cols_in_parent := 0
                  rows := fun i => if i < l_size - row_b_size then
                    fb.pivot_rows (row_b_size + i) else 0
                  row_loc := fun i => i
                  columns := fun i => if i < ru_size then
                    fb.pivot_cols (fb.np_cols_off + i) else 0
                  col_loc := fun i => i }
              -- add contributions from descendants (sequential branch,
              -- lines 2297-2304: one align_add_subtree per child)
              let r :=
                match ctx.sym.first_desc_index pivot_supercol with
                | none => (ctx, ncb)
                | some _ =>
                  (childList ctx.sym.first_child ctx.sym.next_child
                    ctx.F.num_blocks pivot_supercol).foldl
                    (fun (p : MContext × ContribBlock) desc =>
                      align_add_subtree p.1 p.2 ctx.map_cols ctx.F.num_blocks desc)
                    (ctx, ncb)
              let (ctx, ncb) := r
              -- the current block's own Schur update; guarded in C by the
              -- uninitialized `(!only_child || !parent_has_job)`
              let ncb :=
                if !junk_only_child || !junk_parent_has_job then
                  let v2 := caddMABT ncb.m ncb.n col_b_size
                    (fun k => fb.LU1 (fb.L2_off + k)) l_size
                    fb.Ut2 ru_size ncb.values ncb.m
                  { ncb with values := v2 }
                else ncb
              (ctx, { fb with contrib_block := some ncb }, ru_size)

/-- Modelled from the spec: `taucs_ccs_transpose` (an external collaborator of
the core, outside `src/`): builds `Aᵀ` in compressed-column form by counting
sort — the rows of `A` become the columns of `Aᵀ`, values preserved. -/
def ccsTranspose (A : CCS) : CCS :=
  let counts :=
    loopN (fun i rs => upd rs (A.rowind i) (rs (A.rowind i) + 1)) (A.colptr A.n)
      (fun _ => 0)
  let starts :=
    loopN (fun i rs => upd rs (i + 1) (rs i + counts i)) A.m (fun _ => 0)
  let fill :=
    loopN
      (fun j (p : (Nat → Nat) × (Nat → ℚ) × (Nat → Nat)) =>
        loopN
          (fun jj (q : (Nat → Nat) × (Nat → ℚ) × (Nat → Nat)) =>
            let idx := A.colptr j + jj
            let row := A.rowind idx
            let pos := starts row + q.2.2 row
            (upd q.1 pos j, upd q.2.1 pos (A.values idx), upd q.2.2 row (q.2.2 row + 1)))
          (A.colptr (j + 1) - A.colptr j) p)
      A.n ((fun _ => 0), (fun _ => (0 : ℚ)), (fun _ => 0))
  { m := A.n, n := A.m, colptr := starts, rowind := fill.1, values := fill.2.1 }

/-- `multilu_context_create(A, symbolic, thresh, nproc)` (lines 1306-1380),
sequential fields, with allocation succeeding; the factor skeleton of
`allocate_factor` (called by the driver just after) is included here. -/
def multilu_context_create (A : CCS) (sym : Symbolic) (thresh : ℚ) : MContext :=
  { F := allocate_factor A.m A.n sym.number_supercolumns
    A := A
    At := ccsTranspose A
    row_cleared := fun _ => false
    column_cleared := fun _ => false
    sym := sym
    thresh := thresh
    map_rows := fun _ => none
    map_cols := fun _ => none }

/-- The sequential driver loop of
`taucs_dtl(ccs_factor_lu_numeric_maxdepth)` (lines 1721-1751): for every
supercolumn in postorder index, skip it if `l_size = 0`, otherwise allocate
its factor block, focus from each child and from `A`, and factorize it.
`get_map_cols`/`release_map_cols` are the identity in the sequential mode
(the single shared `map_cols` array lives in the context). -/
def numericDriverLoop (lu : LUKernelT) (allocPlans : Nat → AllocPlan)
    (junk_only_child junk_parent_has_job : Bool) (ctx : MContext) : MContext :=
  loopN
    (fun i ctx =>
      if ctx.sym.l_size i = 0 then ctx
      else
        let ctx := allocate_factor_block ctx i (allocPlans i)
        let ctx :=
          (childList ctx.sym.first_child ctx.sym.next_child ctx.F.num_blocks i).foldl
            (fun c child => focus_supercolumn_from_child c i child) ctx
        let ctx := focus_supercolumn_from_A ctx i
        factorize_supercolumn lu junk_only_child junk_parent_has_job ctx i)
    ctx.sym.number_supercolumns ctx

/-- `taucs_dtl(ccs_factor_lu_numeric_maxdepth)(A, symbolic, thresh, max_depth,
nproc)` (lines 1646-1766) with `nproc = 1`: build the context, run the
sequential driver loop, then scan every block and discard the whole factor if
any block is missing or invalid. -/
def ccs_factor_lu_numeric_maxdepth (lu : LUKernelT) (allocPlans : Nat → AllocPlan)
    (junk_only_child junk_parent_has_job : Bool) (A : CCS)
    (sym : Option Symbolic) (thresh : ℚ) : Option Factor :=
  match sym with
  | none => none
  | some sym =>
    let ctx := multilu_context_create A sym thresh
    let ctx := numericDriverLoop lu allocPlans junk_only_child junk_parent_has_job ctx
    if (List.range ctx.F.num_blocks).all
        (fun i => match ctx.F.blocks i with
                  | none => false
                  | some b => b.valid) then
      some ctx.F
    else none

/-! ## Solve phase (taucs_multilu.c lines 3742-3795, 3899-4005)

Right-hand sides are flat column-major buffers `Nat → ℚ` with explicit leading
dimensions, exactly as in C; the three dense kernels the solve consumes are
external (`taucs_dense.h`) and are modelled from the spec, column by column
(each works on an `m × nrhs` panel one right-hand-side column at a time). -/

/-- Modelled from the spec: `UnitLowerLeftTriSolve(m, n, A, lda, X, ldx)` at
buffer offset `xoff`: in-place forward substitution `X ← L⁻¹·X` with the unit
lower triangle of `A`, independently on each of the `n` columns. -/
def unitLowerLeftTriSolve (m n : Nat) (A : Nat → ℚ) (lda : Nat)
    (xoff : Nat) (X : Nat → ℚ) (ldx : Nat) : Nat → ℚ :=
  loopN
    (fun c X =>
      loopN
        (fun i X =>
          let s := (List.range i).foldl
            (fun acc j => acc + A (i + j * lda) * X (xoff + j + c * ldx)) 0
          upd X (xoff + i + c * ldx) (X (xoff + i + c * ldx) - s))
        m X)
    n X

/-- Modelled from the spec: `UpperLeftTriSolve(m, n, A, lda, X, ldx)` at
buffer offset `xoff`: in-place back substitution `X ← U⁻¹·X` with the upper
triangle of `A` (diagonal divisions), independently on each column.  (A zero
diagonal entry gives `ℚ` division by zero, i.e. `0`; the factors the solver
receives have nonzero pivots.) -/
def upperLeftTriSolve (m n : Nat) (A : Nat → ℚ) (lda : Nat)
    (xoff : Nat) (X : Nat → ℚ) (ldx : Nat) : Nat → ℚ :=
  loopN
    (fun c X =>
      loopN
        (fun k X =>
          let i := m - 1 - k
          let s := (List.range k).foldl
            (fun acc t =>
              let j := m - 1 - t
              acc + A (i + j * lda) * X (xoff + j + c * ldx)) 0
          upd X (xoff + i + c * ldx) ((X (xoff + i + c * ldx) - s) / A (i + i * lda)))
        m X)
    n X

/-- Modelled from the spec: `CaddMAB(m, n, k, A, lda, B, ldb, C, ldc)` with
`B` at offset `boff`: `C ← C − A·B`, column by column. -/
def caddMAB (m n k : Nat) (A : Nat → ℚ) (lda : Nat) (boff : Nat) (B : Nat → ℚ)
    (ldb : Nat) (C : Nat → ℚ) (ldc : Nat) : Nat → ℚ :=
  loopN
    (fun c C =>
      loopN
        (fun i C =>
          let s := (List.range k).foldl
            (fun acc t => acc + A (i + t * lda) * B (boff + t + c * ldb)) 0
          upd C (i + c * ldc) (C (i + c * ldc) - s))
        m C)
    n C

/-- Modelled from the spec: `CaddMATB(m, n, k, A, lda, B, ldb, C, ldc)` with
`C` at offset `coff`: `C ← C − Aᵀ·B`, column by column. -/
def caddMATB (m n k : Nat) (A : Nat → ℚ) (lda : Nat) (B : Nat → ℚ) (ldb : Nat)
    (coff : Nat) (C : Nat → ℚ) (ldc : Nat) : Nat → ℚ :=
  loopN
    (fun c C =>
      loopN
        (fun i C =>
          let s := (List.range k).foldl
            (fun acc t => acc + A (t + i * lda) * B (t + c * ldb)) 0
          upd C (coff + i + c * ldc) (C (coff + i + c * ldc) - s))
        m C)
    n C

/-- The per-block body of `solve_blocked_L` (lines 3907-3948), at output
offset `xoff`: gather the pivot rows of `B` into `X`, forward-solve with
`L1`, then push the `L2` update back into `B` through the scratch `T`.
State is `(X, B, T)`. -/
def solveLBlock (n ld_B ld_X ld_T : Nat) (block : FactorBlock) (xoff : Nat)
    (st : (Nat → ℚ) × (Nat → ℚ) × (Nat → ℚ)) : (Nat → ℚ) × (Nat → ℚ) × (Nat → ℚ) :=
  let (X, B, T) := st
  let rp := block.row_pivots_number
  let npr := block.non_pivot_rows_number
  let ld_L := rp + npr
  -- copy to X the corresponding part of B
  let X :=
    loopN
      (fun c X =>
        loopN
          (fun j X => upd X (xoff + j + c * ld_X) (B (block.pivot_rows j + c * ld_B)))
          rp X)
      n X
  -- solve L1·X0 = B0
  let X := unitLowerLeftTriSolve rp n block.LU1 ld_L xoff X ld_X
  if npr = 0 then (X, B, T)
  else
    -- T := rows of B at the non-pivot rows
    let T :=
      loopN
        (fun c T =>
          loopN
            (fun j T =>
              upd T (j + c * ld_T) (B (block.non_pivot_rows j + c * ld_B)))
            npr T)
        n T
    -- T := T − L2·X
    let T := caddMAB npr n rp (fun k => block.LU1 (block.L2_off + k)) ld_L
      xoff X ld_X T ld_T
    -- scatter T back into B
    let B :=
      loopN
        (fun c B =>
          loopN
            (fun j B =>
              upd B (block.non_pivot_rows j + c * ld_B) (T (j + c * ld_T)))
            npr B)
        n B
    (X, B, T)

/-- `solve_blocked_L(F, X, B, T, n, ld_B, ld_X)` (lines 3899-3949): forward
substitution over the blocks in order, advancing the `X` offset by
`row_pivots_number` per block.  A missing block is skipped (the factors the
solver receives have all blocks present). -/
def solve_blocked_L (F : Factor) (X B T : Nat → ℚ) (n ld_B ld_X : Nat) :
    (Nat → ℚ) × (Nat → ℚ) × (Nat → ℚ) :=
  let ld_T := F.n
  (loopN
    (fun i (st : ((Nat → ℚ) × (Nat → ℚ) × (Nat → ℚ)) × Nat) =>
      match F.blocks i with
      | none => st
      | some block =>
        (solveLBlock n ld_B ld_X ld_T block st.2 st.1,
         st.2 + block.row_pivots_number))
    F.num_blocks ((X, B, T), 0)).1

/-- The per-block body of `solve_blocked_U` (lines 3970-4004), with the
running `B` offset already decremented for this block: pull the already-known
part of the solution out of `X` into `T`, update `B ← B − Ut2ᵀ·T`, back-solve
with `U1`, and scatter the block's part of the solution into `X` at the pivot
columns. -/
def solveUBlock (n ld_B ld_X ld_T : Nat) (block : FactorBlock) (boff : Nat)
    (st : (Nat → ℚ) × (Nat → ℚ) × (Nat → ℚ)) : (Nat → ℚ) × (Nat → ℚ) × (Nat → ℚ) :=
  let (X, B, T) := st
  let cp := block.col_pivots_number
  let npc := block.non_pivot_cols_number
  let ld_L := block.row_pivots_number + block.non_pivot_rows_number
  let (B, T) :=
    if npc = 0 then (B, T)
    else
      let T :=
        loopN
          (fun c T =>
            loopN
              (fun j T =>
                upd T (j + c * ld_T) (X (block.non_pivot_cols j + c * ld_X)))
              npc T)
          n T
      (caddMATB cp n npc block.Ut2 npc T ld_T boff B ld_B, T)
  let B := upperLeftTriSolve cp n block.LU1 ld_L boff B ld_B
  let X :=
    loopN
      (fun c X =>
        loopN
          (fun j X => upd X (block.pivot_cols j + c * ld_X) (B (boff + j + c * ld_B)))
          cp X)
      n X
  (X, B, T)

/-- `solve_blocked_U(F, X, B, T, n, ld_B, ld_X)` (lines 3958-4005): back
substitution over the blocks in reverse order; the running pointer into `B`
starts at `F.n` and is decremented by `col_pivots_number` per block. -/
def solve_blocked_U (F : Factor) (X B T : Nat → ℚ) (n ld_B ld_X : Nat) :
    (Nat → ℚ) × (Nat → ℚ) × (Nat → ℚ) :=
  let ld_T := F.n
  (loopN
    (fun k (st : ((Nat → ℚ) × (Nat → ℚ) × (Nat → ℚ)) × Nat) =>
      let i := F.num_blocks - 1 - k
      match F.blocks i with
      | none => st
      | some block =>
        let boff := st.2 - block.col_pivots_number
        (solveUBlock n ld_B ld_X ld_T block boff st.1, boff))
    F.num_blocks ((X, B, T), F.n)).1

/-- `taucs_dtl(multilu_solve_many)(F, n, X, ld_X, B, ld_B)` (lines 3757-3795):
copy `B` into the internal buffer `B_Copy`, forward-solve into `Y`, back-solve
into `X`.  The freshly `malloc`ed buffers `B_Copy` (beyond the copied
`n * ld_B` prefix), `Y` and `T` hold junk, passed in as `junkBC`, `junkY`,
`junkT`.  The result carries the final contents of the caller's two buffers:
the output `X` and the untouched `B`. -/
def multilu_solve_many (F : Factor) (n : Nat) (X : Nat → ℚ) (ld_X : Nat)
    (B : Nat → ℚ) (ld_B : Nat) (junkBC junkY junkT : Nat → ℚ) :
    (Nat → ℚ) × (Nat → ℚ) :=
  let B_Copy : Nat → ℚ := fun k => if k < n * ld_B then B k else junkBC k
  -- solve L·Y = P·B
  let r1 := solve_blocked_L F junkY B_Copy junkT n ld_B F.n
  let Y := r1.1
  let T := r1.2.2
  -- solve U·inv(Q)·X = Y
  let r2 := solve_blocked_U F X Y T n F.n ld_X
  (r2.1, B)

/-- `taucs_dtl(multilu_solve)(F, x, b)` (lines 3742-3749): a single-RHS solve
is exactly `multilu_solve_many` with `nrhs = 1` and both leading dimensions
`F.m`. -/
def multilu_solve (F : Factor) (x b : Nat → ℚ) (junkBC junkY junkT : Nat → ℚ) :
    (Nat → ℚ) × (Nat → ℚ) :=
  multilu_solve_many F 1 x F.m b F.m junkBC junkY junkT

/-! ## Predicates and auxiliary notions used by the claim statements -/

/-- Every entry of the column map is `-1` (`none`): the state in which the
sequential driver hands `map_cols` to `factorize_supercolumn` and in which
the free-list contract requires it back. -/
def MapColsClear (ctx : MContext) : Prop :=
  ∀ c, ctx.map_cols c = none

/-- `parentIter parent k j` follows the parent chain `k` steps up from `j`
(`none` once a root is passed). -/
def parentIter (parent : Nat → Option Nat) : Nat → Nat → Option Nat
  | 0, j => some j
  | k + 1, j =>
    match parent j with
    | none => none
    | some p => parentIter parent k p

/-- `j` is a proper descendant of `i` in the forest given by `parent`. -/
def IsDesc (parent : Nat → Option Nat) (j i : Nat) : Prop :=
  ∃ k, parentIter parent (k + 1) j = some i

/-- The parent array of a postordered forest on `s` nodes: parents point
strictly upward within range, nodes outside the range are isolated. -/
def ParentRange (s : Nat) (parent : Nat → Option Nat) : Prop :=
  (∀ i p, parent i = some p → i < p ∧ p < s) ∧ (∀ j, s ≤ j → parent j = none)

/-- Contiguity of descendant sets (what the postordering of the columns
guarantees, per the spec): anything between a descendant of `i` and `i`
itself is also a descendant of `i`. -/
def DescContiguous (parent : Nat → Option Nat) : Prop :=
  ∀ i j k, IsDesc parent j i → j ≤ k → k < i → IsDesc parent k i

/-- The relaxation-pass close condition as the code evaluates it for
supercolumn `i` (given post-correction parents and the *fundamental*
`lastcol`): the parent exists and its last column has at least
`MULTILU_RELAX_RULE_SIZE` descendants. -/
def relaxCloses (desc_count lastcol_f : Nat → Nat) (sc_parent : Nat → Option Nat)
    (i : Nat) : Bool :=
  match sc_parent i with
  | none => false
  | some p => decide (MULTILU_RELAX_RULE_SIZE ≤ desc_count (lastcol_f p))

/-- The grouping fold underlying the reference description of the relaxation
pass: process the fundamental supercolumns in order accumulating sizes; a
supercolumn satisfying `closes` ends the current cluster.  Returns
`(closed cluster sizes, size of the still-open cluster)`. -/
def groupFold (closes : Nat → Bool) (sc_size_f : Nat → Nat) (k : Nat) :
    List Nat × Nat :=
  loopN
    (fun i (p : List Nat × Nat) =>
      let acc := p.2 + sc_size_f i
      if closes i then (p.1 ++ [acc], 0) else (p.1, acc))
    k ([], 0)

/-- Reference description of the relaxation pass: the list of relaxed cluster
sizes (the trailing, never-closed cluster included). -/
def relaxClusterSizes (closes : Nat → Bool) (sc_size_f : Nat → Nat)
    (fsc_num : Nat) : List Nat :=
  (groupFold closes sc_size_f fsc_num).1 ++ [(groupFold closes sc_size_f fsc_num).2]

/-- Loop invariant relating the state of the in-place relaxation loop after
`k` iterations to the grouping fold: cluster count and closed-cluster sizes
as in `groupFold`, the open-cluster accumulator in `cscs`, entries of
`sc_size` and `lastcol` not yet written still fundamental, and `sc_parent`
untouched. -/
def RelaxInv (closes : Nat → Bool) (sc_size lastcol : Nat → Nat)
    (sc_parent : Nat → Option Nat) (k : Nat) (st : RelaxState) : Prop :=
  st.sc_num = (groupFold closes sc_size k).1.length ∧
  st.cscs = (groupFold closes sc_size k).2 ∧
  (∀ x, x < st.sc_num → st.sc_size x = (groupFold closes sc_size k).1.getD x 0) ∧
  (∀ x, st.sc_num ≤ x → st.sc_size x = sc_size x) ∧
  (∀ x, k ≤ x → st.lastcol x = lastcol x) ∧
  st.sc_parent = sc_parent ∧ st.sc_num ≤ k

/-- Invariant of `focus_rows`' column-map bookkeeping: every live `map_cols`
entry `col := some v` records a slot `v` below the running `size`, and the
`ind` array records `col` back at that slot (so the final clearing loop of
`factorize_supercolumn`, which walks `ind`, erases exactly the live keys). -/
def FRInv (ind_off : Nat) (st : FocusRowsState) : Prop :=
  ∀ col v, st.map_cols col = some v →
    v < st.size ∧ st.ind_base (ind_off + v) = col

/-- Invariant of the descendant-range pass (`descStep` iterated `k` times):
`first_desc_index` entries are minimal descendants already processed,
a supercolumn's `first_desc_index` is set exactly when one of its children
has been processed, and `last_desc_index[i]` (written at step `i`) is
`i - 1` exactly when `i` has a child. -/
def DescInv (parent : Nat → Option Nat) (k : Nat)
    (st : (Nat → Option Nat) × (Nat → Option Nat)) : Prop :=
  (∀ i v, st.1 i = some v →
    IsDesc parent v i ∧ v < k ∧ ∀ j, IsDesc parent j i → v ≤ j) ∧
  (∀ i c, parent c = some i → c < k → st.1 i ≠ none) ∧
  (∀ i, (∀ c, parent c = some i → ¬ c < k) → st.1 i = none) ∧
  (∀ i, i < k →
    ((∃ c, parent c = some i) → st.2 i = some (i - 1)) ∧
    ((∀ c, parent c = some i → False) → st.2 i = none)) ∧
  (∀ x, k ≤ x → st.2 x = none)

/-- Column `c` of a column-major flat buffer with leading dimension `ld`. -/
def colView (ld c : Nat) (buf : Nat → ℚ) : Nat → ℚ :=
  fun j => buf (j + c * ld)

/-- Index bounds of one factor block, as the blocked solver needs them:
pivot/non-pivot row identities below `F.m`, column identities below `F.n`,
and the non-pivot counts within the scratch height `F.n`. -/
def BlockWF (F : Factor) (b : FactorBlock) : Prop :=
  (∀ j, j < b.row_pivots_number → b.pivot_rows j < F.m) ∧
  (∀ j, j < b.non_pivot_rows_number → b.non_pivot_rows j < F.m) ∧
  (∀ j, j < b.col_pivots_number → b.pivot_cols j < F.n) ∧
  (∀ j, j < b.non_pivot_cols_number → b.non_pivot_cols j < F.n) ∧
  b.non_pivot_rows_number ≤ F.n ∧ b.non_pivot_cols_number ≤ F.n

/-- Sum of `row_pivots_number` over blocks `0..k-1` (the running `X` offset
of the forward solve). -/
def sumRp (F : Factor) (k : Nat) : Nat :=
  (List.range k).foldl
    (fun acc i =>
      match F.blocks i with
      | none => acc
      | some b => acc + b.row_pivots_number) 0

/-- Sum of `col_pivots_number` over blocks `k..num_blocks-1` (what the back
solve's running `B` pointer has been decremented by after processing the
blocks above `k`). -/
def sumCpFrom (F : Factor) (k : Nat) : Nat :=
  (List.range (F.num_blocks - k)).foldl
    (fun acc t =>
      match F.blocks (F.num_blocks - 1 - t) with
      | none => acc
      | some b => acc + b.col_pivots_number) 0

/-- Well-formedness of a factor for the blocked solve with the given leading
dimensions: square, leading dimensions at least the matrix size, every block
present and within bounds, and the pivot-row/pivot-column totals within
`F.n`. -/
def SolveWF (F : Factor) (ld_X ld_B : Nat) : Prop :=
  F.m = F.n ∧ F.n ≤ ld_X ∧ F.m ≤ ld_B ∧
  (∀ i, i < F.num_blocks →
    match F.blocks i with
    | none => False
    | some b => BlockWF F b) ∧
  sumRp F F.num_blocks ≤ F.n ∧ sumCpFrom F 0 ≤ F.n

/-- A concrete one-block factor of a 1x1 matrix (`L = [1]`, `U = [2]`),
well-formed for the blocked solve with unit leading dimensions. -/
def solve1Block : FactorBlock :=
  { valid := true, row_pivots_number := 1, col_pivots_number := 1,
    non_pivot_rows_number := 0, non_pivot_cols_number := 0,
    pivot_rows := fun _ => 0, pivot_cols := fun _ => 0,
    np_rows_off := 1, np_cols_off := 1, l_size := 1,
    LU1 := fun _ => 2, L2_off := 1, Ut2 := fun _ => 0, contrib_block := none }

def solve1Factor : Factor :=
  { num_blocks := 1, blocks := fun i => if i = 0 then some solve1Block else none,
    m := 1, n := 1 }

/-- Agreement of column `c1` of a flat buffer with leading dimension `ld1`
and column `c2` of another with leading dimension `ld2`, on the first `R`
rows. -/
def ColAgree (R ld1 ld2 c1 c2 : Nat) (f g : Nat → ℚ) : Prop :=
  ∀ r, r < R → f (r + c1 * ld1) = g (r + c2 * ld2)

/-- Sum of `col_pivots_number` over the top `k` blocks (blocks
`num_blocks - 1` down to `num_blocks - k`): what the back solve's running
`B` pointer has been decremented by after `k` loop iterations. -/
def sumCpTop (F : Factor) (k : Nat) : Nat :=
  (List.range k).foldl
    (fun acc t =>
      match F.blocks (F.num_blocks - 1 - t) with
      | none => acc
      | some b => acc + b.col_pivots_number) 0

/-- Supercolumn parents strictly increase along the postorder indexing
(claim C7's property of a detect result). -/
def ParentsIncreasing (d : DetectResult) : Prop :=
  ∀ i, i < d.sc_num → ∀ p, d.sc_parent i = some p → i < p

/-- Invariant of `detect_supercol`'s per-column loop after `k` columns: all
`root` entries are columns seen so far (or the initial junk `0`), the
supercolumn assigned to every processed column exists, every `sc_parent`
entry was written by a processed column `c` and points (at supercolumn level)
no lower than the recorded supercolumn of `c`, and at least one supercolumn
is open once a column has been processed. -/
def DsInv (k : Nat) (st : DSState) : Prop :=
  (∀ x, st.root x ≤ k) ∧
  (∀ c, c < k → st.map_col_supercol c < fscN st.fsc) ∧
  (∀ i c, st.sc_parent i = some c →
    c < k ∧ i ≤ st.map_col_supercol c ∧ i < fscN st.fsc) ∧
  (0 < k → st.fsc ≠ none)

/-- Invariant of the per-nonzero loop inside column `k`: `map_col_supercol`
and `fsc` are untouched, `root` entries stay bounded by `k`, and `sc_parent`
entries are either inherited (pointing to an earlier column) or were written
during this column (pointing to `k`). -/
def DsInner (M : Nat → Nat) (F : Option Nat) (k : Nat) (p : DSState × Nat) : Prop :=
  p.1.map_col_supercol = M ∧
  p.1.fsc = F ∧
  (∀ x, p.1.root x ≤ k) ∧
  (∀ i c, p.1.sc_parent i = some c →
    (c < k ∧ i ≤ M c ∧ i < fscN F) ∨ (c = k ∧ i < fscN F))

/-- Parents at the fundamental-supercolumn level after the correction loop:
strictly increasing and in range. -/
def CorrectedOK (fsc_num : Nat) (sp : Nat → Option Nat) : Prop :=
  ∀ i p, sp i = some p → i < p ∧ p < fsc_num

/-- Invariant of the relaxation loop for the parent-monotonicity argument
(claim C7): the fundamental parents are untouched, at most one cluster per
processed supercolumn, unprocessed `lastcol` entries still fundamental,
every closed cluster ends at a processed supercolumn no smaller than its
index with every later processed supercolumn mapped strictly above it, and
after any step the open cluster's `lastcol` is the last processed
supercolumn unless that step closed. -/
def RMInv (closes : Nat → Bool) (lastcol : Nat → Nat)
    (sc_parent : Nat → Option Nat) (k : Nat) (st : RelaxState) : Prop :=
  st.sc_parent = sc_parent ∧
  st.sc_num ≤ k ∧
  (∀ x, k ≤ x → st.lastcol x = lastcol x) ∧
  (∀ i, i < st.sc_num →
    i ≤ st.lastcol i ∧ st.lastcol i < k ∧
    ∀ j, st.lastcol i < j → j < k → i < st.map j) ∧
  (0 < k → closes (k - 1) = true ∨ (st.sc_num < k ∧ st.lastcol st.sc_num = k - 1))

/-! ## Concrete inputs used by counterexamples and witnesses -/

def listFn (l : List Nat) : Nat → Nat :=
  fun k => l.getD k 0

/-- A three-supercolumn postordered etree: supercolumns 0 and 1 are children
of the root 2. -/
def parent3 : Nat → Option Nat :=
  fun i => if i < 2 then some 2 else none

/-- `A = diag(2,3,5,7)` in compressed-column form (end-to-end scenario 1 of
the spec). -/
def diag4 : CCS :=
  { m := 4, n := 4
    colptr := listFn [0, 1, 2, 3, 4]
    rowind := listFn [0, 1, 2, 3]
    values := fun k => ([2, 3, 5, 7] : List ℚ).getD k 0 }

/-- A placeholder symbolic record (only used to strip the `Option`). -/
def dummySymbolic : Symbolic :=
  { n := 0, columns := fun _ => 0, number_supercolumns := 0
    start_supercolumn := fun _ => 0, end_supercolumn := fun _ => 0
    supercolumn_size := fun _ => 0, supercolumn_covered_columns := fun _ => 0
    l_size := fun _ => 0, u_size := fun _ => 0
    first_root := none, parent := fun _ => none
    first_child := fun _ => none, next_child := fun _ => none
    first_desc_index := fun _ => none, last_desc_index := fun _ => none }

/-- A symbolic structure carrying the `parent3` etree, as `complete_symbolic`
receives it (only `number_supercolumns` and `parent` matter to the
descendant-range pass). -/
def sym3c : Symbolic :=
  { dummySymbolic with n := 3, number_supercolumns := 3, parent := parent3 }

/-- The symbolic analysis of `diag4` with the identity column preordering. -/
def diag4sym : Symbolic :=
  (taucs_ccs_factor_lu_symbolic diag4 (fun i => i)).getD dummySymbolic

/-- A `1 × 1` matrix whose single column is entirely empty. -/
def emptyCol1 : CCS :=
  { m := 1, n := 1, colptr := listFn [0, 0], rowind := listFn [], values := fun _ => 0 }

/-- An LU kernel that changes nothing (one admissible instantiation of the
external dense kernel, used by witnesses). -/
def trivLU : LUKernelT :=
  fun v _ _ _ _ _ pr => (v, pr)

/-- Allocation always succeeds. -/
def allocAllOk : Nat → AllocPlan :=
  fun _ => ⟨true, true, true, true⟩

/-- Allocation of the `Ut2` buffer fails for supercolumn 0. -/
def allocUt2Fail0 : Nat → AllocPlan :=
  fun i => if i = 0 then ⟨true, true, true, false⟩ else ⟨true, true, true, true⟩

/-- A two-row factor with one block that has a non-pivot row, so that the
forward solve performs a scatter-back update into the buffer passed to it as
`B` (`L2 = (3)`); used to show that the internal copy of `B` is what shields
the caller's array. -/
def scatterFactor : Factor :=
  { num_blocks := 1
    m := 2, n := 2
    blocks := fun i =>
      if i = 0 then
        some
          { valid := true
            row_pivots_number := 1, col_pivots_number := 1
            non_pivot_rows_number := 1, non_pivot_cols_number := 0
            pivot_rows := listFn [0, 1], pivot_cols := listFn [0]
            np_rows_off := 1, np_cols_off := 1
            l_size := 2
            LU1 := fun k => if k = 1 then 3 else 1
            L2_off := 1
            Ut2 := fun _ => 0
            contrib_block := none }
      else none }

/-- The right-hand side `(1, 0)` as a flat buffer. -/
def b10 : Nat → ℚ :=
  fun k => if k = 0 then 1 else 0

/-- A well-formed one-block factor of the `1 × 1` matrix `(2)`:
`L = (1)`, `U = (2)`. -/
def oneBlockFactor : Factor :=
  { num_blocks := 1
    m := 1, n := 1
    blocks := fun i =>
      if i = 0 then
        some
          { valid := true
            row_pivots_number := 1, col_pivots_number := 1
            non_pivot_rows_number := 0, non_pivot_cols_number := 0
            pivot_rows := fun _ => 0, pivot_cols := fun _ => 0
            np_rows_off := 1, np_cols_off := 1
            l_size := 1
            LU1 := fun k => if k = 0 then 2 else 0
            L2_off := 1
            Ut2 := fun _ => 0
            contrib_block := none }
      else none }

/-!
# Theorems and claim resolutions
-/

theorem upd_self {α : Type} (a : Nat → α) (i : Nat) (v : α) : upd a i v i = v := by
  simp [upd]

theorem upd_other {α : Type} (a : Nat → α) (i : Nat) (v : α) {k : Nat} (h : k ≠ i) :
    upd a i v k = a k := by
  simp [upd, h]

theorem upd_read {α : Type} (a : Nat → α) (i : Nat) (v : α) (k : Nat) :
    upd a i v k = if k = i then v else a k := rfl

theorem loopN_zero {σ : Type} (f : Nat → σ → σ) (s : σ) : loopN f 0 s = s := rfl

theorem loopN_succ {σ : Type} (f : Nat → σ → σ) (k : Nat) (s : σ) :
    loopN f (k + 1) s = f k (loopN f k s) := rfl

/-- Generic invariant preservation for `loopN`. -/
theorem loopN_inv {σ : Type} (P : Nat → σ → Prop) (f : Nat → σ → σ) (k : Nat) (s : σ)
    (h0 : P 0 s) (hstep : ∀ i t, i < k → P i t → P (i + 1) (f i t)) :
    P k (loopN f k s) := by
  induction k with
  | zero => exact h0
  | succ k ih =>
    exact hstep k _ (Nat.lt_succ_self k)
      (ih (fun i t hi => hstep i t (Nat.lt_succ_of_lt hi)))

/-! ## Claim C4: diag(2,3,5,7) symbolic supercolumn structure -/

/-- Claim C4 (counterexample): for `A = diag(2,3,5,7)` with the identity
column preordering, symbolic factorization does **not** produce 4
supercolumns.  (The relaxation pass merges the four singleton fundamental
supercolumns into one cluster: none of them has a parent, so the close
condition `sc_parent[i] != NONE && desc_count[...] >= MULTILU_RELAX_RULE_SIZE`
never fires and the single running cluster absorbs all four.) -/
theorem C4_counterexample :
    ¬ (taucs_ccs_factor_lu_symbolic diag4 (fun i => i)).map
        Symbolic.number_supercolumns = some 4 := by
  decide

/-- Claim C4 (amended): for `A = diag(2,3,5,7)` with the identity column
preordering, symbolic factorization produces `S = 1` supercolumn of size 4
(the relaxation pass amalgamates the four singleton fundamental
supercolumns, which are all roots, into a single relaxed supercolumn). -/
theorem C4_amended :
    (taucs_ccs_factor_lu_symbolic diag4 (fun i => i)).map
      (fun s => (s.number_supercolumns, s.supercolumn_size 0)) = some (1, 4) := by
  decide

/-! ## Claim C8: the empty-column assertion of elimination_analysis -/

theorem appendRowPattern_err (src row_start : Nat) (st : EAState) (rs : Nat) :
    (appendRowPattern src row_start st rs).1.err = st.err := by
  unfold appendRowPattern
  refine loopN_inv (fun _ (p : EAState × Nat) => p.1.err = st.err) _ _ _ rfl ?_
  intro i t _ ht
  dsimp only
  split
  · exact ht
  · exact ht

theorem eaNonzero_err (A : CCS) (col row_start org_col i : Nat)
    (p : EAState × Nat × Nat) :
    (eaNonzero A col row_start org_col i p).1.err = p.1.err := by
  unfold eaNonzero
  dsimp only
  split
  · rw [appendRowPattern_err]
  · split
    · rfl
    · rw [appendRowPattern_err]

theorem eaNonzeroLoop_err (A : CCS) (col row_start org_col n : Nat)
    (p : EAState × Nat × Nat) :
    (loopN (eaNonzero A col row_start org_col) n p).1.err = p.1.err := by
  refine loopN_inv (fun _ (q : EAState × Nat × Nat) => q.1.err = p.1.err) _ _ _ rfl ?_
  intro i t _ ht
  rw [eaNonzero_err]
  exact ht

theorem clearColMmbLoop_err (row_start n : Nat) (st : EAState) :
    (loopN
      (fun j t => { t with
          col_mmb := upd t.col_mmb (t.row_workspace (row_start + j)) false })
      n st).err = st.err := by
  refine loopN_inv (fun _ (t : EAState) => t.err = st.err) _ _ _ rfl ?_
  intro i t _ ht
  exact ht

theorem eaColumnBody_err_ne_emptyColumn (A : CCS) (column_order : Nat → Nat)
    (col : Nat) (st : EAState) (h : st.err ≠ some EAErr.emptyColumn)
    (hcol : A.colptr (column_order col) < A.colptr (column_order col + 1)) :
    (eaColumnBody A column_order col st).err ≠ some EAErr.emptyColumn := by
  unfold eaColumnBody
  dsimp only
  split
  · next hc => exact absurd hcol hc
  · next hc =>
    split
    · simp
    · rw [clearColMmbLoop_err]
      dsimp only
      rw [eaNonzeroLoop_err]
      exact h

theorem eaColumn_err_ne_emptyColumn (A : CCS) (column_order : Nat → Nat) (col : Nat)
    (st : EAState) (h : st.err ≠ some EAErr.emptyColumn)
    (hcol : A.colptr (column_order col) < A.colptr (column_order col + 1)) :
    (eaColumn A column_order col st).err ≠ some EAErr.emptyColumn := by
  unfold eaColumn
  dsimp only
  split
  · exact h
  · split
    · exact eaColumnBody_err_ne_emptyColumn A column_order col _ h hcol
    · exact eaColumnBody_err_ne_emptyColumn A column_order col _ h hcol

/-- Claim C8: elimination analysis assumes `A` has no all-zero columns.  For
every input matrix in which every column has at least one stored nonzero (and
any in-range column preordering), the per-column assertion
`colptr[org_col + 1] > colptr[org_col]` holds at every pivot step — the
assertion-failure branch is unreachable; and an entirely empty column does
cause that assertion failure (concretely, on the `1 × 1` all-zero matrix). -/
theorem C8_empty_column_assumption :
    (∀ (A : CCS) (column_order : Nat → Nat),
        (∀ c, c < A.n → A.colptr c < A.colptr (c + 1)) →
        (∀ i, i < A.n → column_order i < A.n) →
        (elimination_analysis A column_order).err ≠ some EAErr.emptyColumn) ∧
    (elimination_analysis emptyCol1 (fun i => i)).err = some EAErr.emptyColumn := by
  constructor
  · intro A column_order hcols hord
    unfold elimination_analysis
    refine loopN_inv (fun _ (t : EAState) => t.err ≠ some EAErr.emptyColumn) _ _ _
      (by simp [eaInit]) ?_
    intro i t hi ht
    exact eaColumn_err_ne_emptyColumn A column_order i t ht
      (hcols (column_order i) (hord i hi))
  · decide

/-- Witness for C8: the nonempty-columns half applied to the concrete matrix
`diag(2,3,5,7)`, whose columns all have a stored nonzero. -/
theorem C8_witness :
    (elimination_analysis diag4 (fun i => i)).err ≠ some EAErr.emptyColumn :=
  C8_empty_column_assumption.1 diag4 (fun i => i)
    (by decide) (by decide)

/-! ## Claim C10: the multi-RHS solve never modifies the caller's B -/

/-- Claim C10: for every factor, every `nrhs` and every right-hand-side
buffer `B`, `multilu_solve_many` leaves the caller's `B` unchanged — the code
copies `B` into the internal `B_Copy` and performs the forward-substitution
scatter-back updates only on that copy.  The second conjunct shows the copy
is load-bearing: the forward solve does write through the `B` argument it is
handed (here the entry at row 1 becomes `0 - 3·1 = -3`), so without the copy
the caller's array would change. -/
theorem C10_solve_many_preserves_B :
    (∀ (F : Factor) (n : Nat) (X : Nat → ℚ) (ld_X : Nat) (B : Nat → ℚ)
        (ld_B : Nat) (junkBC junkY junkT : Nat → ℚ),
        (multilu_solve_many F n X ld_X B ld_B junkBC junkY junkT).2 = B) ∧
    (solve_blocked_L scatterFactor (fun _ => 0) b10 (fun _ => 0) 1 2 2).2.1 1 ≠ b10 1 := by
  constructor
  · intro F n X ld_X B ld_B junkBC junkY junkT
    rfl
  · norm_num [solve_blocked_L, solveLBlock, unitLowerLeftTriSolve, caddMAB, loopN, upd,
      b10, scatterFactor, listFn, List.range_succ, List.range_zero, List.foldl_nil,
      List.foldl_cons, FactorBlock.non_pivot_rows]

/-! ## Claim C5: the relaxation merge rule -/

/-- Claim C5 (counterexample): two fundamental supercolumns, the first with
parent 1 whose last column has 0 descendants (< RELAX_RULE_SIZE), the second
a root.  The claim says a supercolumn whose parent's last column has fewer
than `RELAX_RULE_SIZE` descendants is **not** merged, which would leave the
two supercolumns separate (`sc_num = 2`); the relaxation pass in fact merges
them into a single cluster (`sc_num = 1`) — the close condition
`desc_count[lastcol[sc_parent[i]]] >= MULTILU_RELAX_RULE_SIZE` never fires,
and a supercolumn that does not close the cluster is merged. -/
theorem C5_counterexample :
    (relaxPass (fun _ => 0) 2 (listFn [1, 1])
        (fun i => if i = 0 then some 1 else none) (fun _ => 0) (listFn [0, 1])).sc_num = 1 ∧
    (∀ i, i < 2 →
      relaxCloses (fun _ => 0) (listFn [0, 1])
        (fun i => if i = 0 then some 1 else none) i = false) ∧
    (1 : Nat) ≠ 2 := by
  decide

/-- The parent-recorrection loop at the end of `relaxPass` only rewrites
`sc_parent`. -/
theorem relaxCorrection_sc_num_size (n : Nat) (st : RelaxState) :
    (loopN
      (fun i t =>
        let op := t.sc_parent (t.lastcol i)
        let v : Option Nat := match op with | none => none | some p => some (t.map p)
        { t with sc_parent := upd t.sc_parent i v })
      n st).sc_num = st.sc_num ∧
    (loopN
      (fun i t =>
        let op := t.sc_parent (t.lastcol i)
        let v : Option Nat := match op with | none => none | some p => some (t.map p)
        { t with sc_parent := upd t.sc_parent i v })
      n st).sc_size = st.sc_size := by
  refine loopN_inv
    (fun _ (t : RelaxState) => t.sc_num = st.sc_num ∧ t.sc_size = st.sc_size) _ _ _
    ⟨rfl, rfl⟩ ?_
  intro i t _ ht
  exact ht

/-- One step of the relaxation loop preserves `RelaxInv` (with the close flag
the in-place body evaluates shown equal to the fundamental close flag). -/
theorem relaxBody_inv (desc_count : Nat → Nat) (fsc_num : Nat)
    (sc_size lastcol : Nat → Nat) (sc_parent : Nat → Option Nat)
    (hpar : ∀ i p, i < fsc_num → sc_parent i = some p → i < p)
    (i : Nat) (st : RelaxState) (hi : i < fsc_num)
    (h : RelaxInv (relaxCloses desc_count lastcol sc_parent) sc_size lastcol
      sc_parent i st) :
    RelaxInv (relaxCloses desc_count lastcol sc_parent) sc_size lastcol sc_parent
      (i + 1) (relaxBody desc_count i st) := by
  obtain ⟨h1, h2, h3, h4, h5, h6, h7⟩ := h
  have hsize_i : st.sc_size i = sc_size i := h4 i h7
  have hflag :
      (match st.sc_parent i with
        | none => false
        | some p =>
          decide (MULTILU_RELAX_RULE_SIZE ≤
            desc_count (upd st.lastcol st.sc_num i p)))
      = relaxCloses desc_count lastcol sc_parent i := by
    rw [h6]
    unfold relaxCloses
    cases hsp : sc_parent i with
    | none => rfl
    | some p =>
      have hip : i < p := hpar i p hi hsp
      have hne : p ≠ st.sc_num := fun he => absurd (he ▸ hip) (Nat.not_lt.mpr h7)
      dsimp only
      rw [upd_other _ _ _ hne, h5 p (Nat.le_of_lt hip)]
  have hGsucc :
      groupFold (relaxCloses desc_count lastcol sc_parent) sc_size (i + 1)
      = (if relaxCloses desc_count lastcol sc_parent i then
          ((groupFold (relaxCloses desc_count lastcol sc_parent) sc_size i).1 ++
            [(groupFold (relaxCloses desc_count lastcol sc_parent) sc_size i).2 +
              sc_size i], 0)
        else
          ((groupFold (relaxCloses desc_count lastcol sc_parent) sc_size i).1,
            (groupFold (relaxCloses desc_count lastcol sc_parent) sc_size i).2 +
              sc_size i)) := rfl
  unfold relaxBody
  dsimp only
  rw [hflag]
  cases hcl : relaxCloses desc_count lastcol sc_parent i with
  | true =>
    rw [if_pos rfl]
    rw [hcl] at hGsucc
    rw [if_pos rfl] at hGsucc
    refine ⟨?_, ?_, ?_, ?_, ?_, h6, ?_⟩
    · show st.sc_num + 1 = _
      rw [hGsucc]
      simp [h1]
    · show (0 : Nat) = _
      rw [hGsucc]
    · intro x hx
      show upd st.sc_size st.sc_num (st.cscs + st.sc_size i) x = _
      rw [hGsucc]
      dsimp only
      rcases Nat.lt_or_ge x st.sc_num with hlt | hge
      · rw [upd_other _ _ _ (Nat.ne_of_lt hlt), h3 x hlt,
          List.getD_append _ _ _ _ (h1 ▸ hlt)]
      · have hx' : x = st.sc_num :=
          Nat.le_antisymm (Nat.lt_succ_iff.mp hx) hge
        subst hx'
        rw [upd_self, h2, hsize_i, h1,
          List.getD_append_right _ _ _ _ (Nat.le_refl _)]
        simp
    · intro x hx
      have hne : x ≠ st.sc_num := by
        intro he
        rw [he] at hx
        exact absurd hx (Nat.not_succ_le_self st.sc_num)
      show upd st.sc_size st.sc_num (st.cscs + st.sc_size i) x = _
      rw [upd_other _ _ _ hne]
      exact h4 x (Nat.le_of_succ_le hx)
    · intro x hx
      have hxi : i + 1 ≤ x := hx
      have hne : x ≠ st.sc_num := by
        intro he
        exact absurd (he ▸ Nat.lt_of_le_of_lt h7 (Nat.lt_of_succ_le hxi))
          (Nat.lt_irrefl _)
      show upd st.lastcol st.sc_num i x = _
      rw [upd_other _ _ _ hne]
      exact h5 x (Nat.le_of_succ_le hxi)
    · show st.sc_num + 1 ≤ i + 1
      exact Nat.succ_le_succ h7
  | false =>
    rw [if_neg (by simp)]
    rw [hcl] at hGsucc
    rw [if_neg (by simp)] at hGsucc
    refine ⟨?_, ?_, ?_, ?_, ?_, h6, ?_⟩
    · show st.sc_num = _
      rw [hGsucc]
      exact h1
    · show st.cscs + st.sc_size i = _
      rw [hGsucc]
      dsimp only
      rw [h2, hsize_i]
    · intro x hx
      show st.sc_size x = _
      rw [hGsucc]
      exact h3 x hx
    · intro x hx
      exact h4 x hx
    · intro x hx
      have hxi : i + 1 ≤ x := hx
      have hne : x ≠ st.sc_num := by
        intro he
        exact absurd (he ▸ Nat.lt_of_le_of_lt h7 (Nat.lt_of_succ_le hxi))
          (Nat.lt_irrefl _)
      show upd st.lastcol st.sc_num i x = _
      rw [upd_other _ _ _ hne]
      exact h5 x (Nat.le_of_succ_le hxi)
    · exact Nat.le_succ_of_le h7

/-- Claim C5 (amended): in the relaxation pass, fundamental supercolumn `i`
**closes** the current relaxed cluster exactly when its parent exists and the
parent's last column has at least `MULTILU_RELAX_RULE_SIZE` descendants;
otherwise (root, or fewer descendants) it is merged together with the
following supercolumn into the same cluster.  Formally: the relaxed
supercolumns are exactly the groups of consecutive fundamental supercolumns
delimited by the close condition — their number and sizes equal
`relaxClusterSizes`.  (The hypothesis `i < sc_parent i`, which
`detect_supercol`'s column loop guarantees — claim C7 — makes the in-place
reads of `lastcol` hit the fundamental values.) -/
theorem C5_amended_relaxation_rule (desc_count : Nat → Nat) (fsc_num : Nat)
    (sc_size : Nat → Nat) (sc_parent : Nat → Option Nat) (map0 lastcol : Nat → Nat)
    (hpar : ∀ i p, i < fsc_num → sc_parent i = some p → i < p) :
    (relaxPass desc_count fsc_num sc_size sc_parent map0 lastcol).sc_num
        = (relaxClusterSizes (relaxCloses desc_count lastcol sc_parent) sc_size
            fsc_num).length ∧
    (∀ j, j < (relaxClusterSizes (relaxCloses desc_count lastcol sc_parent) sc_size
            fsc_num).length →
      (relaxPass desc_count fsc_num sc_size sc_parent map0 lastcol).sc_size j
        = (relaxClusterSizes (relaxCloses desc_count lastcol sc_parent) sc_size
            fsc_num).getD j 0) := by
  have base : RelaxInv (relaxCloses desc_count lastcol sc_parent) sc_size lastcol
      sc_parent 0
      { map := map0, lastcol := lastcol, sc_size := sc_size,
        sc_parent := sc_parent, sc_num := 0, cscs := 0 } :=
    ⟨rfl, rfl, fun x hx => absurd hx (Nat.not_lt_zero x), fun x _ => rfl,
      fun x _ => rfl, rfl, Nat.le_refl 0⟩
  have main := loopN_inv
    (RelaxInv (relaxCloses desc_count lastcol sc_parent) sc_size lastcol sc_parent)
    (relaxBody desc_count) fsc_num
    { map := map0, lastcol := lastcol, sc_size := sc_size,
      sc_parent := sc_parent, sc_num := 0, cscs := 0 }
    base
    (fun i t hi ht =>
      relaxBody_inv desc_count fsc_num sc_size lastcol sc_parent hpar i t hi ht)
  obtain ⟨h1, h2, h3, h4, h5, h6, h7⟩ := main
  unfold relaxPass
  dsimp only
  rw [(relaxCorrection_sc_num_size _ _).1, (relaxCorrection_sc_num_size _ _).2]
  dsimp only
  unfold relaxClusterSizes
  constructor
  · rw [h1]
    simp
  · intro j hj
    rcases Nat.lt_or_ge j (groupFold (relaxCloses desc_count lastcol sc_parent)
        sc_size fsc_num).1.length with hlt | hge
    · have hne : j ≠ (loopN (relaxBody desc_count) fsc_num
          { map := map0, lastcol := lastcol, sc_size := sc_size,
            sc_parent := sc_parent, sc_num := 0, cscs := 0 }).sc_num := by
        rw [h1]
        exact Nat.ne_of_lt hlt
      rw [upd_other _ _ _ hne, h3 j (h1 ▸ hlt),
        List.getD_append _ _ _ _ hlt]
    · have hlen : ((groupFold (relaxCloses desc_count lastcol sc_parent) sc_size
          fsc_num).1 ++ [(groupFold (relaxCloses desc_count lastcol sc_parent)
          sc_size fsc_num).2]).length
          = (groupFold (relaxCloses desc_count lastcol sc_parent) sc_size
            fsc_num).1.length + 1 := by simp
      have hj' : j = (groupFold (relaxCloses desc_count lastcol sc_parent) sc_size
          fsc_num).1.length := by
        rw [hlen] at hj
        exact Nat.le_antisymm (Nat.lt_succ_iff.mp hj) hge
      subst hj'
      rw [← h1, upd_self, h2, h1,
        List.getD_append_right _ _ _ _ (Nat.le_refl _)]
      simp

/-- Concrete instance of the amended relaxation rule: two singleton fundamental
supercolumns, both roots, so neither closes and they merge into one relaxed
cluster of size 2. -/
theorem C5_amended_witness :
    (∀ i p, i < 2 → (fun _ => (none : Option Nat)) i = some p → i < p) ∧
    ((relaxPass (fun _ => 0) 2 (listFn [1, 1]) (fun _ => none) (fun _ => 0)
        (listFn [0, 1])).sc_num
      = (relaxClusterSizes
          (relaxCloses (fun _ => 0) (listFn [0, 1]) (fun _ => none))
          (listFn [1, 1]) 2).length ∧
     (∀ j, j < (relaxClusterSizes
          (relaxCloses (fun _ => 0) (listFn [0, 1]) (fun _ => none))
          (listFn [1, 1]) 2).length →
       (relaxPass (fun _ => 0) 2 (listFn [1, 1]) (fun _ => none) (fun _ => 0)
          (listFn [0, 1])).sc_size j
        = (relaxClusterSizes
            (relaxCloses (fun _ => 0) (listFn [0, 1]) (fun _ => none))
            (listFn [1, 1]) 2).getD j 0)) :=
  ⟨fun _ _ _ h => Option.noConfusion h,
   C5_amended_relaxation_rule (fun _ => 0) 2 (listFn [1, 1]) (fun _ => none)
     (fun _ => 0) (listFn [0, 1]) (fun _ _ _ h => Option.noConfusion h)⟩

/-! ## Claim C7: supercolumn parents strictly increase -/

/-- Pointwise bound preserved by a single store. -/
theorem upd_le {a : Nat → Nat} {i v k : Nat} (ha : ∀ x, a x ≤ k) (hv : v ≤ k) :
    ∀ x, upd a i v x ≤ k := by
  intro x
  unfold upd
  split
  · exact hv
  · exact ha x

/-- The per-nonzero loop body preserves `DsInner`. -/
theorem dsNonzero_inv (A : CCS) (org_col k : Nat) (M : Nat → Nat) (F : Option Nat)
    (hb : ∀ c, c < k → M c < fscN F) (i : Nat) (p : DSState × Nat)
    (h : DsInner M F k p) : DsInner M F k (dsNonzero A k org_col i p) := by
  obtain ⟨h1, h2, h3, h4⟩ := h
  unfold dsNonzero
  dsimp only
  split
  · exact ⟨h1, h2, h3, h4⟩
  · split
    · exact ⟨h1, h2, h3, h4⟩
    · next hr =>
      refine ⟨h1, h2, upd_le h3 (Nat.le_refl k), ?_⟩
      intro i2 c hc
      dsimp only at hc
      by_cases hi2 :
        i2 = p.1.map_col_supercol
          (p.1.root (uf_find A.n p.1.sets
            (p.1.firstcol (A.rowind (A.colptr org_col + i)))).2)
      · rw [hi2, upd_self] at hc
        have hck : c = k := (Option.some.inj hc).symm
        have hrk :
            p.1.root (uf_find A.n p.1.sets
              (p.1.firstcol (A.rowind (A.colptr org_col + i)))).2 < k :=
          Nat.lt_of_le_of_ne (h3 _) hr
        refine Or.inr ⟨hck, ?_⟩
        rw [hi2, h1]
        exact hb _ hrk
      · rw [upd_other _ _ _ hi2] at hc
        exact h4 i2 c hc

/-- `dsOverfill` only touches the size-bound registers and the break flag,
and never clears the flag. -/
theorem dsOverfill_proj (l u po : Nat → Nat) (c : Nat) (p : DSState × Bool) :
    (dsOverfill l u po c p).1.root = p.1.root ∧
    (dsOverfill l u po c p).1.map_col_supercol = p.1.map_col_supercol ∧
    (dsOverfill l u po c p).1.fsc = p.1.fsc ∧
    (dsOverfill l u po c p).1.sc_parent = p.1.sc_parent ∧
    (p.2 = true → (dsOverfill l u po c p).2 = true) := by
  unfold dsOverfill
  split
  · next hp => exact ⟨rfl, rfl, rfl, rfl, fun _ => hp⟩
  · next hp =>
    dsimp only
    split
    · exact ⟨rfl, rfl, rfl, rfl, fun hh => absurd hh hp⟩
    · exact ⟨rfl, rfl, rfl, rfl, fun hh => absurd hh hp⟩

/-- The overfill re-check followed by the close/extend epilogue turns the
inner-loop invariant into the outer invariant for `k + 1` columns. -/
theorem dsCloseOverfill_inv (l u po : Nat → Nat) (k : Nat) (M : Nat → Nat)
    (F : Option Nat) (q : DSState × Bool)
    (hq1 : q.1.map_col_supercol = M) (hq2 : q.1.fsc = F)
    (hq3 : ∀ x, q.1.root x ≤ k)
    (hq4 : ∀ i c, q.1.sc_parent i = some c →
      (c < k ∧ i ≤ M c ∧ i < fscN F) ∨ (c = k ∧ i < fscN F))
    (hb : ∀ c, c < k → M c < fscN F)
    (hfalse : q.2 = false → F ≠ none) :
    DsInv (k + 1) (dsClose l u po k (dsOverfill l u po k q)) := by
  obtain ⟨o1, o2, o3, o4, o5⟩ := dsOverfill_proj l u po k q
  have hfsc : (dsOverfill l u po k q).1.fsc = F := by rw [o3, hq2]
  unfold dsClose
  by_cases hf : (dsOverfill l u po k q).2
  · rw [if_pos hf]
    dsimp only
    rw [hfsc, o2, hq1, o1, o4]
    refine ⟨?_, ?_, ?_, ?_⟩
    · intro x
      exact Nat.le_succ_of_le (hq3 x)
    · intro c hck
      dsimp only
      rcases Nat.lt_or_ge c k with hlt | hge
      · rw [upd_other _ _ _ (Nat.ne_of_lt hlt)]
        exact Nat.lt_succ_of_lt (hb c hlt)
      · have hck' : c = k := Nat.le_antisymm (Nat.lt_succ_iff.mp hck) hge
        subst hck'
        rw [upd_self]
        exact Nat.lt_succ_self _
    · intro i c hic
      dsimp only
      rcases hq4 i c hic with ⟨hck, him, hif⟩ | ⟨hck, hif⟩
      · refine ⟨Nat.lt_succ_of_lt hck, ?_, Nat.lt_succ_of_lt hif⟩
        rw [upd_other _ _ _ (Nat.ne_of_lt hck)]
        exact him
      · subst hck
        refine ⟨Nat.lt_succ_self _, ?_, Nat.lt_succ_of_lt hif⟩
        rw [upd_self]
        exact Nat.le_of_lt hif
    · intro _
      exact Option.noConfusion
  · rw [if_neg hf]
    dsimp only
    have hq2f : q.2 = false := by
      cases hqq : q.2 with
      | false => rfl
      | true => exact absurd (o5 hqq) hf
    obtain ⟨f0, hF⟩ : ∃ f0, F = some f0 := by
      cases hFc : F with
      | none => exact absurd hFc (hfalse hq2f)
      | some f0 => exact ⟨f0, rfl⟩
    rw [hfsc, hF, o2, hq1, o1, o4]
    dsimp only
    have hfscN : fscN (some f0) = f0 + 1 := rfl
    refine ⟨?_, ?_, ?_, ?_⟩
    · intro x
      exact Nat.le_succ_of_le (hq3 x)
    · intro c hck
      dsimp only
      rcases Nat.lt_or_ge c k with hlt | hge
      · rw [upd_other _ _ _ (Nat.ne_of_lt hlt), hfscN]
        have := hb c hlt
        rw [hF, hfscN] at this
        exact this
      · have hck' : c = k := Nat.le_antisymm (Nat.lt_succ_iff.mp hck) hge
        subst hck'
        rw [upd_self, hfscN]
        exact Nat.lt_succ_self _
    · intro i c hic
      dsimp only
      rcases hq4 i c hic with ⟨hck, him, hif⟩ | ⟨hck, hif⟩
      · rw [hF] at hif
        refine ⟨Nat.lt_succ_of_lt hck, ?_, hif⟩
        rw [upd_other _ _ _ (Nat.ne_of_lt hck)]
        exact him
      · subst hck
        rw [hF, hfscN] at hif
        refine ⟨Nat.lt_succ_self _, ?_, ?_⟩
        · rw [upd_self]
          exact Nat.lt_succ_iff.mp hif
        · rw [hfscN]
          exact hif
    · intro _
      exact Option.noConfusion

/-- The per-column loop body of `detect_supercol` preserves `DsInv`. -/
theorem dsColumn_inv (A : CCS) (column_order : Nat → Nat) (one_child : Nat → Bool)
    (l_size u_size postorder : Nat → Nat) (h1c : one_child 0 = false)
    (k : Nat) (st : DSState) (h : DsInv k st) :
    DsInv (k + 1) (dsColumn A column_order one_child l_size u_size postorder k st) := by
  obtain ⟨ha, hb, hc, hd⟩ := h
  unfold dsColumn
  dsimp only
  have hinner := loopN_inv (fun _ p => DsInner st.map_col_supercol st.fsc k p)
    (dsNonzero A k (column_order k))
    (A.colptr (column_order k + 1) - A.colptr (column_order k))
    ({ st with root := upd st.root k k }, k)
    ⟨rfl, rfl, upd_le ha (Nat.le_refl k), fun i c hic => Or.inl (hc i c hic)⟩
    (fun j t _ ht =>
      dsNonzero_inv A (column_order k) k st.map_col_supercol st.fsc hb j t ht)
  obtain ⟨g1, g2, g3, g4⟩ := hinner
  refine dsCloseOverfill_inv l_size u_size postorder k st.map_col_supercol st.fsc
    _ g1 g2 g3 g4 hb ?_
  intro hns
  have hk : 0 < k := by
    rcases Nat.eq_zero_or_pos k with hk0 | hk
    · subst hk0
      rw [h1c] at hns
      simp at hns
    · exact hk
  exact hd hk

/-- After all columns, `detect_supercol`'s loop state satisfies `DsInv A.n`. -/
theorem detectLoop_inv (A : CCS) (column_order : Nat → Nat) (one_child : Nat → Bool)
    (l_size u_size postorder : Nat → Nat) (h1c : one_child 0 = false) :
    DsInv A.n (detectLoop A column_order one_child l_size u_size postorder) := by
  unfold detectLoop
  refine loopN_inv DsInv _ _ _ ⟨?_, ?_, ?_, ?_⟩ ?_
  · intro x
    exact Nat.le_refl 0
  · intro c hcc
    exact absurd hcc (Nat.not_lt_zero c)
  · intro i c hic
    exact Option.noConfusion hic
  · intro h0
    exact absurd h0 (Nat.lt_irrefl 0)
  · intro i t _ ht
    exact dsColumn_inv A column_order one_child l_size u_size postorder h1c i t ht

/-- The parent-correction loop of `detect_supercol` yields strictly
increasing, in-range supercolumn parents, given the column-loop invariant. -/
theorem correctParents_ok (n : Nat) (M : Nat → Nat) (fsc_num : Nat)
    (sp : Nat → Option Nat)
    (hb : ∀ c, c < n → M c < fsc_num)
    (hc : ∀ i c, sp i = some c → c < n ∧ i ≤ M c ∧ i < fsc_num) :
    CorrectedOK fsc_num (correctParents M fsc_num sp) := by
  unfold correctParents
  have main := loopN_inv
    (fun j t => (∀ x, j ≤ x → t x = sp x) ∧
      (∀ i p, i < j → t i = some p → i < p ∧ p < fsc_num))
    (fun i sp2 =>
      match sp2 i with
      | none => sp2
      | some c =>
        let p := M c
        upd sp2 i (if p = i then none else some p))
    fsc_num sp
    ⟨fun x _ => rfl, fun i p hi _ => absurd hi (Nat.not_lt_zero i)⟩
    ?_
  · intro i p hip
    rcases Nat.lt_or_ge i fsc_num with hlt | hge
    · exact main.2 i p hlt hip
    · rw [main.1 i hge] at hip
      obtain ⟨_, _, hif⟩ := hc i p hip
      exact absurd hif (Nat.not_lt.mpr hge)
  · intro j t hj ht
    obtain ⟨t1, t2⟩ := ht
    have htj : t j = sp j := t1 j (Nat.le_refl j)
    dsimp only
    cases hsp : t j with
    | none =>
      dsimp only
      refine ⟨fun x hx => t1 x (Nat.le_of_succ_le hx), ?_⟩
      intro i p hi hip
      rcases Nat.lt_or_ge i j with hlt | hge
      · exact t2 i p hlt hip
      · have hij : i = j := by omega
        subst hij
        have hip2 : t i = some p := hip
        rw [hsp] at hip2
        exact Option.noConfusion hip2
    | some c =>
      dsimp only
      obtain ⟨hcn, hjm, hjf⟩ := hc j c (htj.symm.trans hsp)
      refine ⟨?_, ?_⟩
      · intro x hx
        rw [upd_other _ _ _ (by omega : x ≠ j)]
        exact t1 x (by omega)
      · intro i p hi hip
        rcases Nat.lt_or_ge i j with hlt | hge
        · rw [upd_other _ _ _ (Nat.ne_of_lt hlt)] at hip
          exact t2 i p hlt hip
        · have hij : i = j := by omega
          subst hij
          rw [upd_self] at hip
          by_cases hMc : M c = i
          · rw [if_pos hMc] at hip
            exact Option.noConfusion hip
          · rw [if_neg hMc] at hip
            have hp : p = M c := (Option.some.inj hip).symm
            subst hp
            exact ⟨Nat.lt_of_le_of_ne hjm (fun he => hMc he.symm), hb c hcn⟩

/-- One step of the relaxation loop preserves the parent-monotonicity
invariant `RMInv`. -/
theorem relaxBody_rm (desc_count : Nat → Nat) (fsc_num : Nat)
    (lastcol : Nat → Nat) (sc_parent : Nat → Option Nat)
    (hpar : ∀ i p, sc_parent i = some p → i < p)
    (i : Nat) (st : RelaxState) (hi : i < fsc_num)
    (h : RMInv (relaxCloses desc_count lastcol sc_parent) lastcol sc_parent i st) :
    RMInv (relaxCloses desc_count lastcol sc_parent) lastcol sc_parent (i + 1)
      (relaxBody desc_count i st) := by
  obtain ⟨m1, m2, m3, m4, m5⟩ := h
  have hflag :
      (match st.sc_parent i with
        | none => false
        | some p =>
          decide (MULTILU_RELAX_RULE_SIZE ≤
            desc_count (upd st.lastcol st.sc_num i p)))
      = relaxCloses desc_count lastcol sc_parent i := by
    rw [m1]
    unfold relaxCloses
    cases hsp : sc_parent i with
    | none => rfl
    | some p =>
      have hip : i < p := hpar i p hsp
      have hne : p ≠ st.sc_num := fun he => absurd (he ▸ hip) (Nat.not_lt.mpr m2)
      dsimp only
      rw [upd_other _ _ _ hne, m3 p (Nat.le_of_lt hip)]
  unfold relaxBody
  dsimp only
  rw [hflag]
  cases hcl : relaxCloses desc_count lastcol sc_parent i with
  | true =>
    rw [if_pos rfl]
    refine ⟨m1, Nat.succ_le_succ m2, ?_, ?_, ?_⟩
    · intro x hx
      dsimp only
      rw [upd_other _ _ _ (by omega : x ≠ st.sc_num)]
      exact m3 x (by omega)
    · intro i2 hi2
      dsimp only
      dsimp only at hi2
      rcases Nat.lt_or_ge i2 st.sc_num with hlt | hge
      · obtain ⟨a1, a2, a3⟩ := m4 i2 hlt
        rw [upd_other _ _ _ (Nat.ne_of_lt hlt)]
        refine ⟨a1, Nat.lt_succ_of_lt a2, ?_⟩
        intro j hj1 hj2
        rcases Nat.lt_or_ge j i with hji | hji
        · rw [upd_other _ _ _ (Nat.ne_of_lt hji)]
          exact a3 j hj1 hji
        · have hj : j = i := by omega
          subst hj
          rw [upd_self]
          exact hlt
      · have hi2e : i2 = st.sc_num := by omega
        subst hi2e
        rw [upd_self]
        refine ⟨m2, Nat.lt_succ_self i, ?_⟩
        intro j hj1 hj2
        exact absurd hj2 (by omega)
    · intro _
      left
      rw [Nat.add_sub_cancel]
      exact hcl
  | false =>
    rw [if_neg (by simp)]
    refine ⟨m1, Nat.le_succ_of_le m2, ?_, ?_, ?_⟩
    · intro x hx
      dsimp only
      rw [upd_other _ _ _ (by omega : x ≠ st.sc_num)]
      exact m3 x (by omega)
    · intro i2 hi2
      dsimp only
      dsimp only at hi2
      obtain ⟨a1, a2, a3⟩ := m4 i2 hi2
      rw [upd_other _ _ _ (Nat.ne_of_lt hi2)]
      refine ⟨a1, Nat.lt_succ_of_lt a2, ?_⟩
      intro j hj1 hj2
      rcases Nat.lt_or_ge j i with hji | hji
      · rw [upd_other _ _ _ (Nat.ne_of_lt hji)]
        exact a3 j hj1 hji
      · have hj : j = i := by omega
        subst hj
        rw [upd_self]
        exact hi2
    · intro _
      right
      dsimp only
      refine ⟨by omega, ?_⟩
      rw [upd_self, Nat.add_sub_cancel]

/-- The full relaxation pass (loop, final close, parent recorrection) yields
strictly increasing relaxed parents, given strictly increasing in-range
fundamental parents. -/
theorem relaxPass_parents (desc_count : Nat → Nat) (fsc_num : Nat)
    (sc_size : Nat → Nat) (sc_parent : Nat → Option Nat) (map0 lastcol : Nat → Nat)
    (hpar : ∀ i p, sc_parent i = some p → i < p ∧ p < fsc_num) :
    ∀ i q, (relaxPass desc_count fsc_num sc_size sc_parent map0 lastcol).sc_parent i
        = some q → i < q := by
  have hpar1 : ∀ i p, sc_parent i = some p → i < p := fun i p h => (hpar i p h).1
  unfold relaxPass
  dsimp only
  set L := loopN (relaxBody desc_count) fsc_num
    { map := map0, lastcol := lastcol, sc_size := sc_size,
      sc_parent := sc_parent, sc_num := 0, cscs := 0 } with hLdef
  have main : RMInv (relaxCloses desc_count lastcol sc_parent) lastcol sc_parent
      fsc_num L := by
    rw [hLdef]
    exact loopN_inv
      (RMInv (relaxCloses desc_count lastcol sc_parent) lastcol sc_parent)
      (relaxBody desc_count) fsc_num
      { map := map0, lastcol := lastcol, sc_size := sc_size,
        sc_parent := sc_parent, sc_num := 0, cscs := 0 }
      ⟨rfl, Nat.le_refl 0, fun x _ => rfl,
        fun i2 hi2 => absurd hi2 (Nat.not_lt_zero i2),
        fun h0 => absurd h0 (Nat.lt_irrefl 0)⟩
      (fun i t hi ht =>
        relaxBody_rm desc_count fsc_num lastcol sc_parent hpar1 i t hi ht)
  obtain ⟨m1, m2, m3, m4, m5⟩ := main
  have hclast : 0 < fsc_num →
      relaxCloses desc_count lastcol sc_parent (fsc_num - 1) = false := by
    intro h0
    unfold relaxCloses
    cases hsp : sc_parent (fsc_num - 1) with
    | none => rfl
    | some p =>
      obtain ⟨hp1, hp2⟩ := hpar _ p hsp
      exact absurd hp2 (by omega)
  have hLlast : 0 < fsc_num →
      L.sc_num < fsc_num ∧ L.lastcol L.sc_num = fsc_num - 1 := by
    intro h0
    rcases m5 h0 with hcl | hok2
    · rw [hclast h0] at hcl
      exact absurd hcl (by simp)
    · exact hok2
  have hrec := loopN_inv
    (fun r t => t.lastcol = L.lastcol ∧ t.map = L.map ∧
      (∀ x, r ≤ x → t.sc_parent x = sc_parent x) ∧
      (∀ i2 q, i2 < r → t.sc_parent i2 = some q → i2 < q))
    (fun i t =>
      let op := t.sc_parent (t.lastcol i)
      let v : Option Nat := match op with | none => none | some p => some (t.map p)
      { t with sc_parent := upd t.sc_parent i v })
    (L.sc_num + 1)
    { L with sc_size := upd L.sc_size L.sc_num L.cscs, sc_num := L.sc_num + 1 }
    ⟨rfl, rfl, fun x _ => congrFun m1 x,
      fun i2 q hi2 _ => absurd hi2 (Nat.not_lt_zero i2)⟩
    ?_
  · obtain ⟨r1, r2, r3, r4⟩ := hrec
    intro i q hq
    rcases Nat.lt_or_ge i (L.sc_num + 1) with hlt | hge
    · exact r4 i q hlt hq
    · rw [r3 i hge] at hq
      exact (hpar i q hq).1
  · intro r t hr ht
    obtain ⟨c1, c2, c3, c4⟩ := ht
    have hlr : r ≤ L.lastcol r := by
      rcases Nat.lt_or_ge r L.sc_num with hlt | hge
      · exact (m4 r hlt).1
      · have hre : r = L.sc_num := by omega
        subst hre
        rcases Nat.eq_zero_or_pos fsc_num with h0 | h0
        · have hz : L.sc_num = 0 := by omega
          rw [hz]
          exact Nat.zero_le _
        · obtain ⟨hs1, hs2⟩ := hLlast h0
          rw [hs2]
          omega
    dsimp only
    rw [c1]
    have hopv : t.sc_parent (L.lastcol r) = sc_parent (L.lastcol r) := c3 _ hlr
    rw [hopv]
    cases hop : sc_parent (L.lastcol r) with
    | none =>
      refine ⟨rfl, c2, ?_, ?_⟩
      · intro x hx
        show upd t.sc_parent r none x = sc_parent x
        rw [upd_other _ _ _ (by omega : x ≠ r)]
        exact c3 x (by omega)
      · intro i2 q hi2 hq
        rcases Nat.lt_or_ge i2 r with hlt | hge
        · have hq' : upd t.sc_parent r none i2 = some q := hq
          rw [upd_other _ _ _ (Nat.ne_of_lt hlt)] at hq'
          exact c4 i2 q hlt hq'
        · have hij : i2 = r := by omega
          subst hij
          have hq' : upd t.sc_parent i2 none i2 = some q := hq
          rw [upd_self] at hq'
          exact Option.noConfusion hq'
    | some p =>
      obtain ⟨hp1, hp2⟩ := hpar _ p hop
      have hrmap : r < L.map p := by
        rcases Nat.lt_or_ge r L.sc_num with hlt | hge
        · exact (m4 r hlt).2.2 p hp1 hp2
        · have hre : r = L.sc_num := by omega
          subst hre
          rcases Nat.eq_zero_or_pos fsc_num with h0 | h0
          · exact absurd hp2 (by omega)
          · obtain ⟨hs1, hs2⟩ := hLlast h0
            rw [hs2] at hp1
            exact absurd hp2 (by omega)
      refine ⟨rfl, c2, ?_, ?_⟩
      · intro x hx
        show upd t.sc_parent r (some (t.map p)) x = sc_parent x
        rw [upd_other _ _ _ (by omega : x ≠ r)]
        exact c3 x (by omega)
      · intro i2 q hi2 hq
        rcases Nat.lt_or_ge i2 r with hlt | hge
        · have hq' : upd t.sc_parent r (some (t.map p)) i2 = some q := hq
          rw [upd_other _ _ _ (Nat.ne_of_lt hlt)] at hq'
          exact c4 i2 q hlt hq'
        · have hij : i2 = r := by omega
          subst hij
          have hq' : upd t.sc_parent i2 (some (t.map p)) i2 = some q := hq
          rw [upd_self] at hq'
          have hqe : q = t.map p := (Option.some.inj hq').symm
          rw [hqe, c2]
          exact hrmap

/-- Claim C7: the supercolumn elimination-tree parents produced by
`detect_supercol` strictly increase along the postorder indexing: for every
non-root supercolumn `s`, `parent[s] > s`.  The hypothesis `one_child 0 =
false` is what the symbolic driver guarantees (the first column in postorder
is a leaf of the column etree, so it does not have exactly one child). -/
theorem C7_supercolumn_parents_increase (A : CCS) (column_order : Nat → Nat)
    (one_child : Nat → Bool) (desc_count l_size u_size postorder : Nat → Nat)
    (h1c : one_child 0 = false) :
    ParentsIncreasing
      (detect_supercol A column_order one_child desc_count l_size u_size
        postorder) := by
  obtain ⟨ha, hb, hc, hd⟩ :=
    detectLoop_inv A column_order one_child l_size u_size postorder h1c
  have hok := correctParents_ok A.n
    (detectLoop A column_order one_child l_size u_size postorder).map_col_supercol
    (fscN (detectLoop A column_order one_child l_size u_size postorder).fsc)
    (detectLoop A column_order one_child l_size u_size postorder).sc_parent
    hb hc
  unfold ParentsIncreasing detect_supercol
  dsimp only
  intro i hi p hp
  exact relaxPass_parents desc_count
    (fscN (detectLoop A column_order one_child l_size u_size postorder).fsc)
    (detectLoop A column_order one_child l_size u_size postorder).sc_size
    (correctParents
      (detectLoop A column_order one_child l_size u_size postorder).map_col_supercol
      (fscN (detectLoop A column_order one_child l_size u_size postorder).fsc)
      (detectLoop A column_order one_child l_size u_size postorder).sc_parent)
    (detectLoop A column_order one_child l_size u_size postorder).map_col_supercol
    (detectLoop A column_order one_child l_size u_size postorder).lastcol
    hok i p hp

/-- Concrete instance of claim C7: the `diag(2,3,5,7)` inputs with no
one-child columns. -/
theorem C7_witness :
    (fun (_ : Nat) => false) 0 = false ∧
    ParentsIncreasing
      (detect_supercol diag4 (fun i => i) (fun _ => false) (listFn [0, 0, 0, 0])
        (listFn [1, 1, 1, 1]) (listFn [1, 1, 1, 1]) (fun i => i)) :=
  ⟨rfl,
   C7_supercolumn_parents_increase diag4 (fun i => i) (fun _ => false)
     (listFn [0, 0, 0, 0]) (listFn [1, 1, 1, 1]) (listFn [1, 1, 1, 1])
     (fun i => i) rfl⟩

/-! ## Claim C6: descendant index ranges in complete_symbolic -/

theorem parentIter_succ (parent : Nat → Option Nat) (k j : Nat) :
    parentIter parent (k + 1) j =
      match parent j with
      | none => none
      | some p => parentIter parent k p := rfl

/-- Splitting a parent chain after its first `m` steps. -/
theorem parentIter_add_some (parent : Nat → Option Nat) :
    ∀ m n j x, parentIter parent m j = some x →
      parentIter parent (m + n) j = parentIter parent n x := by
  intro m
  induction m with
  | zero =>
    intro n j x h
    have hx : j = x := Option.some.inj h
    rw [Nat.zero_add, hx]
  | succ m ih =>
    intro n j x h
    have hadd : m + 1 + n = (m + n) + 1 := by omega
    rw [hadd, parentIter_succ]
    rw [parentIter_succ] at h
    cases hj : parent j with
    | none =>
      rw [hj] at h
      exact Option.noConfusion h
    | some p =>
      rw [hj] at h
      exact ih n p x h

/-- Under strictly increasing parents, every strict ancestor lies above. -/
theorem parentIter_lt (parent : Nat → Option Nat)
    (hinc : ∀ a b, parent a = some b → a < b) :
    ∀ m j i, parentIter parent (m + 1) j = some i → j < i := by
  intro m
  induction m with
  | zero =>
    intro j i h
    rw [parentIter_succ] at h
    cases hj : parent j with
    | none =>
      rw [hj] at h
      exact Option.noConfusion h
    | some p =>
      rw [hj] at h
      have hpi : p = i := Option.some.inj h
      exact hpi ▸ hinc j p hj
  | succ m ih =>
    intro j i h
    rw [parentIter_succ] at h
    cases hj : parent j with
    | none =>
      rw [hj] at h
      exact Option.noConfusion h
    | some p =>
      rw [hj] at h
      exact Nat.lt_trans (hinc j p hj) (ih p i h)

/-- Under strictly increasing parents, descendants lie strictly below. -/
theorem isDesc_lt (parent : Nat → Option Nat)
    (hinc : ∀ a b, parent a = some b → a < b) (j i : Nat)
    (h : IsDesc parent j i) : j < i := by
  obtain ⟨m, hm⟩ := h
  exact parentIter_lt parent hinc m j i hm

/-- A child is a proper descendant. -/
theorem isDesc_step (parent : Nat → Option Nat) (c i : Nat)
    (h : parent c = some i) : IsDesc parent c i := by
  refine ⟨0, ?_⟩
  rw [parentIter_succ, h]
  rfl

/-- A descendant of a child is a descendant. -/
theorem isDesc_extend (parent : Nat → Option Nat) (c i j : Nat)
    (hc : parent c = some i) (h : IsDesc parent j c) : IsDesc parent j i := by
  obtain ⟨m, hm⟩ := h
  refine ⟨m + 1, ?_⟩
  rw [parentIter_add_some parent (m + 1) 1 j c hm, parentIter_succ, hc]
  rfl

/-- Prepending one parent step to a descendant chain. -/
theorem isDesc_prepend (parent : Nat → Option Nat) (j p c : Nat)
    (hj : parent j = some p) (h : IsDesc parent p c) : IsDesc parent j c := by
  obtain ⟨m, hm⟩ := h
  refine ⟨m + 1, ?_⟩
  rw [parentIter_succ, hj]
  exact hm

/-- Every proper descendant of `i` descends through some child of `i`. -/
theorem isDesc_child (parent : Nat → Option Nat) :
    ∀ m j i, parentIter parent (m + 1) j = some i →
      ∃ c, parent c = some i ∧ (j = c ∨ IsDesc parent j c) := by
  intro m
  induction m with
  | zero =>
    intro j i h
    rw [parentIter_succ] at h
    cases hj : parent j with
    | none =>
      rw [hj] at h
      exact Option.noConfusion h
    | some p =>
      rw [hj] at h
      have hpi : p = i := Option.some.inj h
      subst hpi
      exact ⟨j, hj, Or.inl rfl⟩
  | succ m ih =>
    intro j i h
    rw [parentIter_succ] at h
    cases hj : parent j with
    | none =>
      rw [hj] at h
      exact Option.noConfusion h
    | some p =>
      rw [hj] at h
      obtain ⟨c, hc1, hc2⟩ := ih p i h
      rcases hc2 with hpc | hdesc
      · subst hpc
        exact ⟨p, hc1, Or.inr (isDesc_step parent j p hj)⟩
      · exact ⟨c, hc1, Or.inr (isDesc_prepend parent j p c hj hdesc)⟩

/-- The first step of a descendant chain. -/
theorem isDesc_head (parent : Nat → Option Nat) (k c p : Nat)
    (h : IsDesc parent k c) (hk : parent k = some p) :
    p = c ∨ IsDesc parent p c := by
  obtain ⟨m, hm⟩ := h
  rw [parentIter_succ, hk] at hm
  cases m with
  | zero => exact Or.inl (Option.some.inj hm)
  | succ m2 => exact Or.inr ⟨m2, hm⟩

/-- A descendant `j < k` of the parent `p` of `k` either descends through a
child of `p` processed before `k`, or is a descendant of `k` itself (the
postorder-contiguity argument). -/
theorem desc_of_parent_split (parent : Nat → Option Nat) (s : Nat)
    (hp : ParentRange s parent) (hdc : DescContiguous parent)
    (k p j : Nat) (hk : parent k = some p)
    (hj : IsDesc parent j p) (hjk : j < k) :
    (∃ c, parent c = some p ∧ c < k) ∨ IsDesc parent j k := by
  have hinc : ∀ a b, parent a = some b → a < b := fun a b hab => (hp.1 a b hab).1
  obtain ⟨m, hm⟩ := hj
  obtain ⟨c, hc1, hc2⟩ := isDesc_child parent m j p hm
  rcases Nat.lt_trichotomy c k with hck | hck | hck
  · exact Or.inl ⟨c, hc1, hck⟩
  · subst hck
    rcases hc2 with hjc | hjc
    · exact absurd (hjc ▸ hjk) (Nat.lt_irrefl c)
    · exact Or.inr hjc
  · rcases hc2 with hjc | hjc
    · exact absurd hjk (by omega)
    · have hkc : IsDesc parent k c := hdc c j k hjc (Nat.le_of_lt hjk) hck
      rcases isDesc_head parent k c p hkc hk with hpc | hpc
      · have hcp := hinc c p hc1
        exact absurd (hpc ▸ hcp) (Nat.lt_irrefl c)
      · have h1 := isDesc_lt parent hinc p c hpc
        have h2 := hinc c p hc1
        exact absurd h1 (by omega)

/-- One step of the descendant-range pass preserves `DescInv`. -/
theorem descStep_inv (parent : Nat → Option Nat) (s : Nat)
    (hp : ParentRange s parent) (hdc : DescContiguous parent)
    (k : Nat) (st : (Nat → Option Nat) × (Nat → Option Nat))
    (h : DescInv parent k st) : DescInv parent (k + 1) (descStep parent k st) := by
  obtain ⟨h1, h2, h3, h4, h5⟩ := h
  have hinc : ∀ a b, parent a = some b → a < b := fun a b hab => (hp.1 a b hab).1
  have hL4 : ∀ i, i < k + 1 →
      ((∃ c, parent c = some i) →
        (if (st.1 k).isSome then upd st.2 k (some (k - 1)) else st.2) i
          = some (i - 1)) ∧
      ((∀ c, parent c = some i → False) →
        (if (st.1 k).isSome then upd st.2 k (some (k - 1)) else st.2) i
          = none) := by
    intro i hik
    by_cases hsk : (st.1 k).isSome
    · rw [if_pos hsk]
      rcases Nat.lt_or_ge i k with hlt | hge
      · rw [upd_other _ _ _ (Nat.ne_of_lt hlt)]
        exact h4 i hlt
      · have hie : i = k := by omega
        subst hie
        rw [upd_self]
        constructor
        · intro _
          rfl
        · intro hnone
          exfalso
          obtain ⟨v, hv⟩ := Option.isSome_iff_exists.mp hsk
          obtain ⟨d1, _, _⟩ := h1 i v hv
          obtain ⟨m, hm⟩ := d1
          obtain ⟨c, hc1, _⟩ := isDesc_child parent m v i hm
          exact hnone c hc1
    · rw [if_neg hsk]
      rcases Nat.lt_or_ge i k with hlt | hge
      · exact h4 i hlt
      · have hie : i = k := by omega
        subst hie
        constructor
        · rintro ⟨c, hc⟩
          exfalso
          have hci : c < i := hinc c i hc
          exact hsk (Option.ne_none_iff_isSome.mp (h2 i c hc hci))
        · intro _
          exact h5 i (Nat.le_refl i)
  have hL5 : ∀ x, k + 1 ≤ x →
      (if (st.1 k).isSome then upd st.2 k (some (k - 1)) else st.2) x = none := by
    intro x hx
    by_cases hsk : (st.1 k).isSome
    · rw [if_pos hsk, upd_other _ _ _ (by omega : x ≠ k)]
      exact h5 x (by omega)
    · rw [if_neg hsk]
      exact h5 x (by omega)
  unfold descStep
  dsimp only
  cases hpk : parent k with
  | none =>
    refine ⟨?_, ?_, ?_, hL4, hL5⟩
    · intro i v hv
      obtain ⟨d1, d2, d3⟩ := h1 i v hv
      exact ⟨d1, Nat.lt_succ_of_lt d2, d3⟩
    · intro i c hc hck
      rcases Nat.lt_or_ge c k with hlt | hge
      · exact h2 i c hc hlt
      · have hce : c = k := by omega
        subst hce
        rw [hpk] at hc
        exact Option.noConfusion hc
    · intro i hno
      exact h3 i (fun c hc hck => hno c hc (Nat.lt_succ_of_lt hck))
  | some p =>
    dsimp only
    by_cases hA : st.1 p = none ∧ st.1 k = none
    · rw [if_pos hA]
      have hg2 : ¬(upd st.1 p (some k) p = none ∧ upd st.1 p (some k) k ≠ none) := by
        rintro ⟨hgg, _⟩
        rw [upd_self] at hgg
        exact Option.noConfusion hgg
      rw [if_neg hg2]
      refine ⟨?_, ?_, ?_, hL4, hL5⟩
      · intro i v hv
        dsimp only at hv
        by_cases hip : i = p
        · subst hip
          rw [upd_self] at hv
          have hvk : v = k := (Option.some.inj hv).symm
          subst hvk
          refine ⟨isDesc_step parent v i hpk, Nat.lt_succ_self v, ?_⟩
          intro j hdj
          rcases Nat.lt_or_ge j v with hlt | hge
          · exfalso
            rcases desc_of_parent_split parent s hp hdc v i j hpk hdj hlt with
              ⟨c, hc1, hc2⟩ | hjdk
            · exact absurd hA.1 (h2 i c hc1 hc2)
            · obtain ⟨m, hm⟩ := hjdk
              obtain ⟨c2, hc21, _⟩ := isDesc_child parent m j v hm
              exact absurd hA.2 (h2 v c2 hc21 (hinc c2 v hc21))
          · exact hge
        · rw [upd_other _ _ _ hip] at hv
          obtain ⟨d1, d2, d3⟩ := h1 i v hv
          exact ⟨d1, Nat.lt_succ_of_lt d2, d3⟩
      · intro i c hc hck
        dsimp only
        by_cases hip : i = p
        · subst hip
          rw [upd_self]
          exact fun he => Option.noConfusion he
        · rw [upd_other _ _ _ hip]
          rcases Nat.lt_or_ge c k with hlt | hge
          · exact h2 i c hc hlt
          · have hce : c = k := by omega
            subst hce
            rw [hpk] at hc
            exact absurd (Option.some.inj hc) (fun hpe => hip hpe.symm)
      · intro i hno
        dsimp only
        by_cases hip : i = p
        · subst hip
          exact absurd (Nat.lt_succ_self k) (hno k hpk)
        · rw [upd_other _ _ _ hip]
          exact h3 i (fun c hc hck => hno c hc (Nat.lt_succ_of_lt hck))
    · rw [if_neg hA]
      by_cases hB : st.1 p = none ∧ st.1 k ≠ none
      · rw [if_pos hB]
        obtain ⟨v, hkv⟩ := Option.ne_none_iff_exists'.mp hB.2
        obtain ⟨e1, e2, e3⟩ := h1 k v hkv
        refine ⟨?_, ?_, ?_, hL4, hL5⟩
        · intro i w hw
          dsimp only at hw
          by_cases hip : i = p
          · subst hip
            rw [upd_self, hkv] at hw
            have hwv : w = v := (Option.some.inj hw).symm
            subst hwv
            refine ⟨isDesc_extend parent k i w hpk e1, Nat.lt_succ_of_lt e2, ?_⟩
            intro j hdj
            rcases Nat.lt_or_ge j k with hlt | hge
            · rcases desc_of_parent_split parent s hp hdc k i j hpk hdj hlt with
                ⟨c, hc1, hc2⟩ | hjdk
              · exact absurd hB.1 (h2 i c hc1 hc2)
              · exact e3 j hjdk
            · omega
          · rw [upd_other _ _ _ hip] at hw
            obtain ⟨d1, d2, d3⟩ := h1 i w hw
            exact ⟨d1, Nat.lt_succ_of_lt d2, d3⟩
        · intro i c hc hck
          dsimp only
          by_cases hip : i = p
          · subst hip
            rw [upd_self]
            exact hB.2
          · rw [upd_other _ _ _ hip]
            rcases Nat.lt_or_ge c k with hlt | hge
            · exact h2 i c hc hlt
            · have hce : c = k := by omega
              subst hce
              rw [hpk] at hc
              exact absurd (Option.some.inj hc) (fun hpe => hip hpe.symm)
        · intro i hno
          dsimp only
          by_cases hip : i = p
          · subst hip
            exact absurd (Nat.lt_succ_self k) (hno k hpk)
          · rw [upd_other _ _ _ hip]
            exact h3 i (fun c hc hck => hno c hc (Nat.lt_succ_of_lt hck))
      · rw [if_neg hB]
        have hpn : st.1 p ≠ none := by
          intro hpn
          by_cases hkn : st.1 k = none
          · exact hA ⟨hpn, hkn⟩
          · exact hB ⟨hpn, hkn⟩
        refine ⟨?_, ?_, ?_, hL4, hL5⟩
        · intro i v hv
          dsimp only at hv
          obtain ⟨d1, d2, d3⟩ := h1 i v hv
          exact ⟨d1, Nat.lt_succ_of_lt d2, d3⟩
        · intro i c hc hck
          dsimp only
          rcases Nat.lt_or_ge c k with hlt | hge
          · exact h2 i c hc hlt
          · have hce : c = k := by omega
            subst hce
            rw [hpk] at hc
            have hip : i = p := (Option.some.inj hc).symm
            subst hip
            exact hpn
        · intro i hno
          dsimp only
          exact h3 i (fun c hc hck => hno c hc (Nat.lt_succ_of_lt hck))

/-- The descendant-range pass satisfies `DescInv` at its end. -/
theorem descPass_inv (parent : Nat → Option Nat) (s : Nat)
    (hp : ParentRange s parent) (hdc : DescContiguous parent) :
    DescInv parent s (descPass parent s) := by
  unfold descPass
  refine loopN_inv (DescInv parent) (descStep parent) s
    ((fun _ => none), (fun _ => none)) ⟨?_, ?_, ?_, ?_, ?_⟩ ?_
  · intro i v hv
    exact Option.noConfusion hv
  · intro i c hc hck
    exact absurd hck (Nat.not_lt_zero c)
  · intro i hno
    rfl
  · intro i hik
    exact absurd hik (Nat.not_lt_zero i)
  · intro x hx
    rfl
  · intro k t hk ht
    exact descStep_inv parent s hp hdc k t ht

/-- Claim C6: in the symbolic structure completed by `complete_symbolic`,
for every supercolumn `i` (with postordered parents — `ParentRange` is what
claim C7 establishes, `DescContiguous` is the postorder contiguity):
every proper descendant of `i` has index strictly below `i`; if `i` has a
child then `last_desc_index[i] = i - 1` and the proper descendants of `i`
are exactly the contiguous range `[first_desc_index[i], i - 1]`; and a leaf
has `first_desc_index = NONE` (and `last_desc_index = NONE`). -/
theorem C6_descendant_ranges (sym : Symbolic)
    (hp : ParentRange sym.number_supercolumns sym.parent)
    (hdc : DescContiguous sym.parent) :
    ∀ i, i < sym.number_supercolumns →
      (∀ j, IsDesc sym.parent j i → j < i) ∧
      ((∃ c, sym.parent c = some i) →
        (complete_symbolic sym).last_desc_index i = some (i - 1) ∧
        ∃ f, (complete_symbolic sym).first_desc_index i = some f ∧
          ∀ j, IsDesc sym.parent j i ↔ (f ≤ j ∧ j ≤ i - 1)) ∧
      ((∀ c, sym.parent c = some i → False) →
        (complete_symbolic sym).first_desc_index i = none ∧
        (complete_symbolic sym).last_desc_index i = none) := by
  have hinc : ∀ a b, sym.parent a = some b → a < b :=
    fun a b hab => (hp.1 a b hab).1
  obtain ⟨q1, q2, q3, q4, q5⟩ :=
    descPass_inv sym.parent sym.number_supercolumns hp hdc
  have hfd : (complete_symbolic sym).first_desc_index
      = (descPass sym.parent sym.number_supercolumns).1 := rfl
  have hld : (complete_symbolic sym).last_desc_index
      = (descPass sym.parent sym.number_supercolumns).2 := rfl
  intro i hi
  refine ⟨?_, ?_, ?_⟩
  · intro j hj
    exact isDesc_lt sym.parent hinc j i hj
  · rintro ⟨c, hc⟩
    have hci : c < i := hinc c i hc
    have hcs : c < sym.number_supercolumns := by omega
    have hfne := q2 i c hc hcs
    obtain ⟨f, hf⟩ := Option.ne_none_iff_exists'.mp hfne
    obtain ⟨d1, d2, d3⟩ := q1 i f hf
    refine ⟨?_, f, ?_, ?_⟩
    · rw [hld]
      exact (q4 i hi).1 ⟨c, hc⟩
    · rw [hfd]
      exact hf
    · intro j
      constructor
      · intro hdj
        have hjlt : j < i := isDesc_lt sym.parent hinc j i hdj
        exact ⟨d3 j hdj, by omega⟩
      · rintro ⟨hfj, hji⟩
        exact hdc i f j d1 hfj (by omega)
  · intro hno
    constructor
    · rw [hfd]
      exact q3 i (fun c hc _ => hno c hc)
    · rw [hld]
      exact (q4 i hi).2 hno

theorem sym3c_parentRange : ParentRange sym3c.number_supercolumns sym3c.parent := by
  have hns : sym3c.number_supercolumns = 3 := rfl
  constructor
  · intro a b hab
    have hab2 : parent3 a = some b := hab
    unfold parent3 at hab2
    by_cases ha : a < 2
    · rw [if_pos ha] at hab2
      have hb : b = 2 := (Option.some.inj hab2).symm
      subst hb
      rw [hns]
      exact ⟨by omega, by omega⟩
    · rw [if_neg ha] at hab2
      exact Option.noConfusion hab2
  · intro j hj
    rw [hns] at hj
    have hj3 : ¬ j < 2 := by omega
    show parent3 j = none
    unfold parent3
    rw [if_neg hj3]

theorem sym3c_descContiguous : DescContiguous sym3c.parent := by
  intro i j k hd hjk hki
  obtain ⟨m, hm⟩ := hd
  have hj2 : j < 2 := by
    by_contra hj2
    rw [parentIter_succ] at hm
    have hpj : sym3c.parent j = none := by
      show parent3 j = none
      unfold parent3
      rw [if_neg hj2]
    rw [hpj] at hm
    exact Option.noConfusion hm
  have hpj : sym3c.parent j = some 2 := by
    show parent3 j = some 2
    unfold parent3
    rw [if_pos hj2]
  have hi2 : i = 2 := by
    rw [parentIter_succ, hpj] at hm
    cases m with
    | zero => exact (Option.some.inj hm).symm
    | succ m2 =>
      dsimp only at hm
      rw [parentIter_succ] at hm
      have hp2 : sym3c.parent 2 = none := by
        show parent3 2 = none
        unfold parent3
        rw [if_neg (by omega)]
      rw [hp2] at hm
      exact Option.noConfusion hm
  subst hi2
  refine ⟨0, ?_⟩
  have hpk : sym3c.parent k = some 2 := by
    show parent3 k = some 2
    unfold parent3
    rw [if_pos (by omega)]
  rw [parentIter_succ, hpk]
  rfl

/-- Concrete instance of claim C6: a three-supercolumn tree with root 2 and
leaf children 0 and 1. -/
theorem C6_witness :
    ParentRange sym3c.number_supercolumns sym3c.parent ∧
    DescContiguous sym3c.parent ∧
    (∀ i, i < sym3c.number_supercolumns →
      (∀ j, IsDesc sym3c.parent j i → j < i) ∧
      ((∃ c, sym3c.parent c = some i) →
        (complete_symbolic sym3c).last_desc_index i = some (i - 1) ∧
        ∃ f, (complete_symbolic sym3c).first_desc_index i = some f ∧
          ∀ j, IsDesc sym3c.parent j i ↔ (f ≤ j ∧ j ≤ i - 1)) ∧
      ((∀ c, sym3c.parent c = some i → False) →
        (complete_symbolic sym3c).first_desc_index i = none ∧
        (complete_symbolic sym3c).last_desc_index i = none)) :=
  ⟨sym3c_parentRange, sym3c_descContiguous,
   C6_descendant_ranges sym3c sym3c_parentRange sym3c_descContiguous⟩

/-! ## Claim C9: the column-map buffer is returned all clear -/

/-- `factorize_l_portion` never touches the column map. -/
theorem factorize_l_portion_mapcols (lu : LUKernelT) (ctx : MContext) (p : Nat) :
    (factorize_l_portion lu ctx p).map_cols = ctx.map_cols := by
  unfold factorize_l_portion
  split
  · rfl
  · split
    · rfl
    · dsimp only
      split
      · rfl
      · rfl

/-- `align_add_from` never touches the column map of the context. -/
theorem align_add_from_mapcols (ctx : MContext) (addto : ContribBlock)
    (desc : Nat) (mc : Nat → Option Nat) :
    (align_add_from ctx addto desc mc).1.map_cols = ctx.map_cols := by
  unfold align_add_from
  cases getBlock ctx desc with
  | none => rfl
  | some dfb =>
    dsimp only
    cases dfb.contrib_block with
    | none => rfl
    | some dcb =>
      dsimp only
      by_cases hb1 : (dcb.L_member && dcb.U_member) = true
      · rw [if_pos hb1]
        rfl
      · rw [if_neg hb1]
        by_cases hb2 : (dcb.L_member && !dcb.U_member) = true
        · rw [if_pos hb2]
          rfl
        · rw [if_neg hb2]
          by_cases hb3 : (!dcb.L_member && dcb.U_member) = true
          · rw [if_pos hb3]
            rfl
          · rw [if_neg hb3]
            rfl

/-- `align_add_subtree` never touches the column map of the context. -/
theorem align_add_subtree_mapcols :
    ∀ (fuel : Nat) (ctx : MContext) (addto : ContribBlock)
      (mc : Nat → Option Nat) (root : Nat),
      (align_add_subtree ctx addto mc fuel root).1.map_cols = ctx.map_cols := by
  intro fuel
  induction fuel with
  | zero =>
    intro ctx addto mc root
    rfl
  | succ fuel ih =>
    intro ctx addto mc root
    have hfold : ∀ (l : List Nat) (p : MContext × ContribBlock),
        ((l.foldl (fun (p : MContext × ContribBlock) child =>
          align_add_subtree p.1 p.2 mc fuel child) p).1).map_cols
          = p.1.map_cols := by
      intro l
      induction l with
      | nil =>
        intro p
        rfl
      | cons a t iht =>
        intro p
        rw [List.foldl_cons, iht]
        exact ih p.1 p.2 mc a
    show (align_add_subtree ctx addto mc (fuel + 1) root).1.map_cols = ctx.map_cols
    unfold align_add_subtree
    dsimp only
    have hrm := hfold
      (childList ctx.sym.first_child ctx.sym.next_child ctx.F.num_blocks root)
      (ctx, addto)
    cases hg : getBlock ((childList ctx.sym.first_child ctx.sym.next_child
        ctx.F.num_blocks root).foldl
        (fun (p : MContext × ContribBlock) child =>
          align_add_subtree p.1 p.2 mc fuel child) (ctx, addto)).1 root with
    | none => exact hrm
    | some fb =>
      dsimp only
      cases fb.contrib_block with
      | none => exact hrm
      | some dcb =>
        rw [align_add_from_mapcols]
        exact hrm

/-- A context loop whose body preserves the column map preserves it
globally. -/
theorem loopMapColsEq (f : Nat → MContext → MContext)
    (hf : ∀ i c, (f i c).map_cols = c.map_cols) (n : Nat) (c0 : MContext) :
    (loopN f n c0).map_cols = c0.map_cols :=
  loopN_inv (fun _ c => c.map_cols = c0.map_cols) f n c0 rfl
    (fun i t _ ht => (hf i t).trans ht)

/-- One `focus_rows` insertion step preserves `FRInv`. -/
theorem frinsert_inv (ind_off : Nat) (st : FocusRowsState) (column : Nat)
    (v : ℚ) (pos : Nat) (h : FRInv ind_off st) :
    FRInv ind_off { st with
      ind_base := upd st.ind_base (ind_off + st.size) column,
      values := upd st.values pos v,
      map_cols := upd st.map_cols column (some st.size),
      size := st.size + 1 } := by
  intro col w hw
  dsimp only at hw ⊢
  by_cases hcc : col = column
  · subst hcc
    rw [upd_self] at hw
    have hww : w = st.size := (Option.some.inj hw).symm
    subst hww
    exact ⟨Nat.lt_succ_self _, by rw [upd_self]⟩
  · rw [upd_other _ _ _ hcc] at hw
    obtain ⟨g1, g2⟩ := h col w hw
    refine ⟨Nat.lt_succ_of_lt g1, ?_⟩
    rw [upd_other _ _ _ (by omega : ind_off + w ≠ ind_off + st.size)]
    exact g2

/-- `focus_rows` started on an all-clear column map satisfies `FRInv`: its
live column-map keys are exactly the columns recorded in `ind[ind_off ..
ind_off + size)`. -/
theorem focus_rows_map (ctx : MContext) (rows : Nat → Nat)
    (number pivot_supercol : Nat) (ind_base : Nat → Nat) (ind_off : Nat)
    (values0 : Nat → ℚ) (max_size : Nat) (map_cols : Nat → Option Nat)
    (h0 : ∀ col, map_cols col = none) :
    FRInv ind_off (focus_rows ctx rows number pivot_supercol ind_base ind_off
      values0 max_size map_cols) := by
  unfold focus_rows
  dsimp only
  have base : FRInv ind_off
      { ctx := ctx, ind_base := ind_base,
        values := fun k => if k < max_size * number then 0 else values0 k,
        map_cols := map_cols, size := 0 } :=
    fun col w hw => by
      have hw2 : map_cols col = some w := hw
      rw [h0 col] at hw2
      exact Option.noConfusion hw2
  have hp1 : FRInv ind_off
      (loopN
        (fun row_ind (st : FocusRowsState) =>
          let row := rows row_ind
          let q :=
            loopN
              (fun ii (q : FocusRowsState) =>
                let i := q.ctx.At.colptr row + ii
                let column := q.ctx.At.rowind i
                if q.ctx.column_cleared column then q
                else
                  match q.map_cols column with
                  | some k =>
                    let v2 := upd q.values (row_ind * max_size + k)
                      (q.ctx.At.values i)
                    { q with values := v2 }
                  | none =>
                    { q with
                        ind_base := upd q.ind_base (ind_off + q.size) column,
                        values := upd q.values (row_ind * max_size + q.size)
                          (q.ctx.At.values i),
                        map_cols := upd q.map_cols column (some q.size),
                        size := q.size + 1 })
              (st.ctx.At.colptr (row + 1) - st.ctx.At.colptr row) st
          { q with ctx := { q.ctx with
              row_cleared := upd q.ctx.row_cleared row true } })
        number
        { ctx := ctx, ind_base := ind_base,
          values := fun k => if k < max_size * number then 0 else values0 k,
          map_cols := map_cols, size := 0 }) := by
    refine loopN_inv (fun _ st => FRInv ind_off st) _ number _ base ?_
    intro j st _ hst
    dsimp only
    have hq : FRInv ind_off
        (loopN
          (fun ii (q : FocusRowsState) =>
            let i := q.ctx.At.colptr (rows j) + ii
            let column := q.ctx.At.rowind i
            if q.ctx.column_cleared column then q
            else
              match q.map_cols column with
              | some k =>
                let v2 := upd q.values (j * max_size + k) (q.ctx.At.values i)
                { q with values := v2 }
              | none =>
                { q with
                    ind_base := upd q.ind_base (ind_off + q.size) column,
                    values := upd q.values (j * max_size + q.size)
                      (q.ctx.At.values i),
                    map_cols := upd q.map_cols column (some q.size),
                    size := q.size + 1 })
          (st.ctx.At.colptr (rows j + 1) - st.ctx.At.colptr (rows j)) st) := by
      refine loopN_inv (fun _ q => FRInv ind_off q) _ _ st hst ?_
      intro ii q _ hqq
      dsimp only
      by_cases hcl : q.ctx.column_cleared (q.ctx.At.rowind (q.ctx.At.colptr (rows j) + ii))
      · rw [if_pos hcl]
        exact hqq
      · rw [if_neg hcl]
        cases hm : q.map_cols (q.ctx.At.rowind (q.ctx.At.colptr (rows j) + ii)) with
        | some k =>
          intro col w hw
          exact hqq col w hw
        | none =>
          exact frinsert_inv ind_off q _ _ _ hqq
    intro col w hw
    exact hq col w hw
  cases hfd : ctx.sym.first_desc_index pivot_supercol with
  | none => exact hp1
  | some fd =>
    refine loopN_inv (fun _ st => FRInv ind_off st) _ _ _ hp1 ?_
    intro k st _ hst
    dsimp only
    cases hgb : getBlock st.ctx (fd + k) with
    | none => exact hst
    | some desc_fb =>
      dsimp only
      cases hcb : desc_fb.contrib_block with
      | none => exact hst
      | some dcb0 =>
        dsimp only
        have hr : ∀ (nn : Nat) (q0 : FocusRowsState × Option ContribBlock),
            FRInv ind_off q0.1 →
            FRInv ind_off ((loopN
              (fun row_ind (q : FocusRowsState × Option ContribBlock) =>
                match q.2 with
                | none => q
                | some dcb =>
                  let row := rows row_ind
                  match is_member row dcb.rows dcb.m with
                  | none => q
                  | some loc_arr =>
                    let loc_val := dcb.row_loc loc_arr
                    let st2 :=
                      loopN
                        (fun i (st3 : FocusRowsState) =>
                          let col := dcb.columns i
                          let i_loc := dcb.col_loc i
                          let val := dcb.values (i_loc * dcb.ld + loc_val)
                          match st3.map_cols col with
                          | some k2 =>
                            let v2 := upd st3.values (row_ind * max_size + k2)
                              (st3.values (row_ind * max_size + k2) + val)
                            { st3 with values := v2 }
                          | none =>
                            { st3 with
                                ind_base := upd st3.ind_base
                                  (ind_off + st3.size) col,
                                values := upd st3.values
                                  (row_ind * max_size + st3.size) val,
                                map_cols := upd st3.map_cols col (some st3.size),
                                size := st3.size + 1 })
                        dcb.n q.1
                    if dcb.m - 1 = 0 then (st2, none)
                    else
                      let m2 := dcb.m - 1
                      let dcb2 := { dcb with
                          m := m2,
                          rows := upd dcb.rows loc_arr (dcb.rows m2),
                          row_loc := upd dcb.row_loc loc_arr (dcb.row_loc m2),
                          L_member := true }
                      (st2, some dcb2))
              nn q0).1) := by
          intro nn q0 hq0
          refine loopN_inv (fun _ q => FRInv ind_off q.1) _ nn q0 hq0 ?_
          intro r2 q _ hq2
          dsimp only
          cases ho : q.2 with
          | none => exact hq2
          | some dcb =>
            dsimp only
            cases him : is_member (rows r2) dcb.rows dcb.m with
            | none => exact hq2
            | some loc_arr =>
              dsimp only
              have hin : FRInv ind_off
                  (loopN
                    (fun i (st3 : FocusRowsState) =>
                      let col := dcb.columns i
                      let i_loc := dcb.col_loc i
                      let val := dcb.values (i_loc * dcb.ld + dcb.row_loc loc_arr)
                      match st3.map_cols col with
                      | some k2 =>
                        let v2 := upd st3.values (r2 * max_size + k2)
                          (st3.values (r2 * max_size + k2) + val)
                        { st3 with values := v2 }
                      | none =>
                        { st3 with
                            ind_base := upd st3.ind_base (ind_off + st3.size) col,
                            values := upd st3.values
                              (r2 * max_size + st3.size) val,
                            map_cols := upd st3.map_cols col (some st3.size),
                            size := st3.size + 1 })
                    dcb.n q.1) := by
                refine loopN_inv (fun _ st3 => FRInv ind_off st3) _ dcb.n q.1 hq2 ?_
                intro i st3 _ hst3
                dsimp only
                cases hm2 : st3.map_cols (dcb.columns i) with
                | some k2 =>
                  intro col w hw
                  exact hst3 col w hw
                | none =>
                  exact frinsert_inv ind_off st3 _ _ _ hst3
              by_cases hm1 : dcb.m - 1 = 0
              · rw [if_pos hm1]
                exact hin
              · rw [if_neg hm1]
                exact hin
        have hmain := hr number (st, some dcb0) hst
        intro col w hw
        exact hmain col w hw

/-- `clearMembership` never touches the column map. -/
theorem clearMembership_mapcols (sc : Nat) (fb : FactorBlock) (ctx : MContext) :
    (clearMembership sc fb ctx).map_cols = ctx.map_cols := by
  unfold clearMembership
  split
  · cases hfd : ctx.sym.first_desc_index sc with
    | none => rfl
    | some fd =>
      refine loopMapColsEq _ ?_ _ _
      intro i c
      cases getBlock c (fd + i) with
      | none => rfl
      | some dfb =>
        dsimp only
        cases dfb.contrib_block with
        | none => rfl
        | some dcb => rfl
  · rfl

/-- `clearRowIndications` never touches the column map. -/
theorem clearRowIndications_mapcols (fb : FactorBlock) (ctx : MContext) :
    (clearRowIndications fb ctx).map_cols = ctx.map_cols := by
  unfold clearRowIndications
  dsimp only
  have h1 := loopMapColsEq
    (fun i c => { c with map_rows := upd c.map_rows (fb.pivot_rows i) none })
    (fun i c => rfl) fb.row_pivots_number ctx
  have h2 := loopMapColsEq
    (fun i c => { c with
        map_rows := upd c.map_rows (fb.pivot_rows (fb.np_rows_off + i)) none })
    (fun i c => rfl) fb.non_pivot_rows_number
    (loopN (fun i c => { c with map_rows := upd c.map_rows (fb.pivot_rows i) none })
      fb.row_pivots_number ctx)
  exact h2.trans h1

/-- The column-indication clearing loop erases every live `map_cols` key,
given that the live keys are exactly those recorded in the cleared `ind`
slots. -/
theorem clearColIndications_clear (fb : FactorBlock) (ctx : MContext)
    (hP : ∀ col v, ctx.map_cols col = some v →
      v < fb.non_pivot_cols_number ∧ fb.pivot_cols (fb.np_cols_off + v) = col) :
    MapColsClear (clearColIndications fb ctx) := by
  unfold clearColIndications
  have main := loopN_inv
    (fun t c => ∀ col, c.map_cols col = none ∨
      ∃ v, c.map_cols col = some v ∧ t ≤ v ∧ v < fb.non_pivot_cols_number ∧
        fb.pivot_cols (fb.np_cols_off + v) = col)
    (fun i c => { c with
        map_cols := upd c.map_cols (fb.pivot_cols (fb.np_cols_off + i)) none })
    fb.non_pivot_cols_number ctx
    ?_ ?_
  · intro col
    rcases main col with h1 | ⟨v, _, hv1, hv2, _⟩
    · exact h1
    · exact absurd hv2 (by omega)
  · intro col
    cases hm : ctx.map_cols col with
    | none => exact Or.inl rfl
    | some v =>
      obtain ⟨g1, g2⟩ := hP col v hm
      exact Or.inr ⟨v, rfl, Nat.zero_le v, g1, g2⟩
  · intro t c _ hc col
    dsimp only
    by_cases hk : col = fb.pivot_cols (fb.np_cols_off + t)
    · left
      rw [hk, upd_self]
    · rw [upd_other _ _ _ hk]
      rcases hc col with h1 | ⟨v, hv0, hv1, hv2, hv3⟩
      · exact Or.inl h1
      · refine Or.inr ⟨v, hv0, ?_, hv2, hv3⟩
        have hvt : v ≠ t := fun he => hk (by rw [← hv3, he])
        omega

/-- Storing a block does not change the column map. -/
theorem setBlock_mapclear (c : MContext) (i : Nat) (b : FactorBlock)
    (h : MapColsClear c) : MapColsClear (setBlock c i b) :=
  fun col => h col

/-- The epilogue of `factorize_supercolumn` returns an all-clear column map,
given that the incoming live keys are exactly the `ru_size` entries recorded
in `pivot_cols[np_cols_off ..]`. -/
theorem fscEpilogue_mapclear (cb rb ls sc : Nat) (t : MContext × FactorBlock × Nat)
    (hP : ∀ col v, t.1.map_cols col = some v →
      v < t.2.2 ∧ t.2.1.pivot_cols (t.2.1.np_cols_off + v) = col) :
    MapColsClear (fscEpilogue cb rb ls sc t) := by
  unfold fscEpilogue
  dsimp only
  apply setBlock_mapclear
  apply clearColIndications_clear
  intro col v hv
  rw [clearRowIndications_mapcols, clearMembership_mapcols] at hv
  exact hP col v hv

/-- Folding `align_add_subtree` over a child list never touches the column
map. -/
theorem foldl_subtree_mapcols (mc : Nat → Option Nat) (fuel : Nat)
    (l : List Nat) :
    ∀ (p : MContext × ContribBlock),
      ((l.foldl (fun (p : MContext × ContribBlock) desc =>
        align_add_subtree p.1 p.2 mc fuel desc) p).1).map_cols = p.1.map_cols := by
  induction l with
  | nil =>
    intro p
    rfl
  | cons a t iht =>
    intro p
    rw [List.foldl_cons, iht]
    exact align_add_subtree_mapcols fuel p.1 p.2 mc a

/-- A loop writing only `map_rows` never touches the column map
(unification-friendly form). -/
theorem loopMapRows_mapcols (g : Nat → MContext → (Nat → Option Nat)) (n : Nat)
    (c0 : MContext) :
    (loopN (fun i c => { c with map_rows := g i c }) n c0).map_cols
      = c0.map_cols :=
  loopMapColsEq (fun i c => { c with map_rows := g i c }) (fun _ _ => rfl) n c0

/-- Claim C9: the column-map contract of `factorize_supercolumn`.  Entered
with `map_cols` all clear (the all-−1 array the buffer pool hands out), the
routine returns with `map_cols` all clear again: every entry written while
assembling the supercolumn's U-rows is reset by the clearing loop at the
end, so the buffer released back for the next supercolumn is all −1. -/
theorem C9_map_cols_contract (lu : LUKernelT) (joc jphj : Bool)
    (ctx : MContext) (sc : Nat) (h : MapColsClear ctx) :
    MapColsClear (factorize_supercolumn lu joc jphj ctx sc) := by
  unfold factorize_supercolumn
  dsimp only
  have h1 : MapColsClear (factorize_l_portion lu ctx sc) := by
    intro c
    rw [factorize_l_portion_mapcols]
    exact h c
  cases hgb : getBlock (factorize_l_portion lu ctx sc) sc with
  | none => exact h1
  | some fb =>
    try dsimp only
    by_cases hv : (!fb.valid) = true
    · rw [if_pos hv]
      exact h1
    · rw [if_neg hv]
      apply fscEpilogue_mapclear
      by_cases hls : fb.l_size = 0
      · rw [if_pos hls]
        intro col v hv2
        try dsimp only at hv2
        rw [h1 col] at hv2
        exact Option.noConfusion hv2
      · rw [if_neg hls]
        try dsimp only
        have hFR := focus_rows_map (factorize_l_portion lu ctx sc) fb.pivot_rows
          (min fb.l_size
            ((factorize_l_portion lu ctx sc).sym.supercolumn_size sc)) sc
          fb.pivot_cols fb.np_cols_off fb.Ut2
          ((factorize_l_portion lu ctx sc).sym.u_size sc)
          (factorize_l_portion lu ctx sc).map_cols h1
        set fr := focus_rows (factorize_l_portion lu ctx sc) fb.pivot_rows
          (min fb.l_size
            ((factorize_l_portion lu ctx sc).sym.supercolumn_size sc)) sc
          fb.pivot_cols fb.np_cols_off fb.Ut2
          ((factorize_l_portion lu ctx sc).sym.u_size sc)
          (factorize_l_portion lu ctx sc).map_cols with hfrdef
        by_cases hru : fr.size = 0
        · rw [if_pos hru]
          intro col v hv2
          try dsimp only at hv2
          obtain ⟨g1, g2⟩ := hFR col v hv2
          rw [hru] at g1
          exact absurd g1 (Nat.not_lt_zero v)
        · rw [if_neg hru]
          try dsimp only
          by_cases hlr : fb.l_size - min fb.l_size
              ((factorize_l_portion lu ctx sc).sym.supercolumn_size sc) = 0
          · rw [if_pos hlr]
            intro col v hv2
            try dsimp only at hv2
            rw [loopMapRows_mapcols] at hv2
            exact hFR col v hv2
          · rw [if_neg hlr]
            intro col v hv2
            try dsimp only at hv2
            split at hv2
            · try dsimp only at hv2
              rw [loopMapRows_mapcols] at hv2
              exact hFR col v hv2
            · rw [foldl_subtree_mapcols] at hv2
              try dsimp only at hv2
              rw [loopMapRows_mapcols] at hv2
              exact hFR col v hv2

/-- Concrete instance of claim C9: a fresh context (all-clear column map) for
`diag(2,3,5,7)` stays all clear through one supercolumn factorization. -/
theorem C9_witness :
    MapColsClear (multilu_context_create diag4 diag4sym 1) ∧
    MapColsClear (factorize_supercolumn trivLU false false
      (multilu_context_create diag4 diag4sym 1) 0) :=
  ⟨fun _ => rfl,
   C9_map_cols_contract trivLU false false
     (multilu_context_create diag4 diag4sym 1) 0 (fun _ => rfl)⟩

/-! ## Claim C2: invalid blocks and the null return of the numeric driver -/

theorem getBlock_setBlock (c : MContext) (i : Nat) (b : FactorBlock) :
    getBlock (setBlock c i b) i = some b := by
  unfold getBlock setBlock
  dsimp only
  rw [upd_self]

/-- Claim C2: (1) a failed `Ut2` allocation marks the supercolumn's factor
block invalid (likewise for the other three buffers); (2) a supercolumn whose
factor block is invalid is skipped — `factorize_supercolumn` returns the
context unchanged, so the driver loop runs to completion over all
supercolumns; (3) the top-level numeric factorization returns `none` exactly
when some block is missing or invalid after the driver, and otherwise returns
the completed factor — never a partial one. -/
theorem C2_invalid_block_null_return :
    (∀ (ctx : MContext) (sc : Nat) (plan : AllocPlan),
      0 < ctx.sym.u_size sc → plan.Ut2_ok = false →
      ∃ b, getBlock (allocate_factor_block ctx sc plan) sc = some b ∧
        b.valid = false) ∧
    (∀ (lu : LUKernelT) (joc jph : Bool) (ctx : MContext) (sc : Nat)
      (fb : FactorBlock), getBlock ctx sc = some fb → fb.valid = false →
      factorize_supercolumn lu joc jph ctx sc = ctx) ∧
    (∀ (lu : LUKernelT) (plans : Nat → AllocPlan) (joc jph : Bool) (A : CCS)
      (sym : Symbolic) (thresh : ℚ),
      (ccs_factor_lu_numeric_maxdepth lu plans joc jph A (some sym) thresh
          = none ↔
        ¬ ∀ i, i < (numericDriverLoop lu plans joc jph
            (multilu_context_create A sym thresh)).F.num_blocks →
          ∃ b, (numericDriverLoop lu plans joc jph
            (multilu_context_create A sym thresh)).F.blocks i = some b ∧
            b.valid = true) ∧
      (ccs_factor_lu_numeric_maxdepth lu plans joc jph A (some sym) thresh
          = none ∨
       ccs_factor_lu_numeric_maxdepth lu plans joc jph A (some sym) thresh
          = some (numericDriverLoop lu plans joc jph
              (multilu_context_create A sym thresh)).F)) := by
  refine ⟨?_, ?_, ?_⟩
  · intro ctx sc plan hmu hUt
    refine ⟨_, getBlock_setBlock _ _ _, ?_⟩
    dsimp only
    apply decide_eq_false
    intro hn
    apply hn
    refine Or.inr (Or.inr (Or.inr ⟨hmu, ?_⟩))
    rw [hUt]
    exact Bool.false_ne_true
  · intro lu joc jph ctx sc fb hgb hval
    unfold factorize_supercolumn
    dsimp only
    have hlp : factorize_l_portion lu ctx sc = ctx := by
      unfold factorize_l_portion
      rw [hgb]
      dsimp only
      rw [hval]
      rw [if_pos Bool.not_false]
    rw [hlp, hgb]
    dsimp only
    rw [hval]
    rw [if_pos Bool.not_false]
  · intro lu plans joc jph A sym thresh
    unfold ccs_factor_lu_numeric_maxdepth
    dsimp only
    have hR : (List.range (numericDriverLoop lu plans joc jph
          (multilu_context_create A sym thresh)).F.num_blocks).all
        (fun i => match (numericDriverLoop lu plans joc jph
            (multilu_context_create A sym thresh)).F.blocks i with
          | none => false
          | some b => b.valid) = true ↔
        ∀ i, i < (numericDriverLoop lu plans joc jph
            (multilu_context_create A sym thresh)).F.num_blocks →
          ∃ b, (numericDriverLoop lu plans joc jph
            (multilu_context_create A sym thresh)).F.blocks i = some b ∧
            b.valid = true := by
      rw [List.all_eq_true]
      constructor
      · intro hA i hi
        have h2 := hA i (List.mem_range.mpr hi)
        cases hb : (numericDriverLoop lu plans joc jph
            (multilu_context_create A sym thresh)).F.blocks i with
        | none =>
          rw [hb] at h2
          exact absurd h2 (by simp)
        | some b =>
          rw [hb] at h2
          exact ⟨b, rfl, h2⟩
      · intro hA x hx
        obtain ⟨b, hb1, hb2⟩ := hA x (List.mem_range.mp hx)
        rw [hb1]
        exact hb2
    by_cases hRb : (List.range (numericDriverLoop lu plans joc jph
          (multilu_context_create A sym thresh)).F.num_blocks).all
        (fun i => match (numericDriverLoop lu plans joc jph
            (multilu_context_create A sym thresh)).F.blocks i with
          | none => false
          | some b => b.valid) = true
    · rw [if_pos hRb]
      constructor
      · constructor
        · intro hsome
          exact Option.noConfusion hsome
        · intro hng
          exact absurd (hR.mp hRb) hng
      · right
        rfl
    · rw [if_neg hRb]
      constructor
      · constructor
        · intro _
          exact fun hA => hRb (hR.mpr hA)
        · intro _
          rfl
      · left
        rfl

/-- Concrete instance of claim C2: a failed `Ut2` allocation for supercolumn
0 of `diag(2,3,5,7)` leaves an invalid block. -/
theorem C2_witness :
    0 < (multilu_context_create diag4 diag4sym 1).sym.u_size 0 ∧
    (allocUt2Fail0 0).Ut2_ok = false ∧
    (∃ b, getBlock (allocate_factor_block
        (multilu_context_create diag4 diag4sym 1) 0 (allocUt2Fail0 0)) 0
        = some b ∧ b.valid = false) :=
  ⟨by decide, rfl,
   C2_invalid_block_null_return.1 (multilu_context_create diag4 diag4sym 1) 0
     (allocUt2Fail0 0) (by decide) rfl⟩

/-! ## Claim C3: the multi-RHS solve is columnwise a single-RHS solve

The machinery: every dense stage of the blocked solve is an outer loop over
right-hand-side columns whose body touches only one column slab of the
threaded buffer.  `slab_extract` isolates one column of such a loop;
`loopN_rel` runs two instances (different column counts, leading dimensions
and column indices) in lockstep. -/

/-- Two loops in lockstep preserving a relation. -/
theorem loopN_rel {σ τ : Type} (Q : σ → τ → Prop) (f : Nat → σ → σ)
    (g : Nat → τ → τ) (k : Nat) (s : σ) (t : τ) (h0 : Q s t)
    (hstep : ∀ i a b, i < k → Q a b → Q (f i a) (g i b)) :
    Q (loopN f k s) (loopN g k t) := by
  induction k with
  | zero => exact h0
  | succ k ih =>
    exact hstep k _ _ (Nat.lt_succ_self k)
      (ih (fun i a b hi => hstep i a b (Nat.lt_succ_of_lt hi)))

/-- Extensionality of `List.foldl` in the folding function. -/
theorem foldl_ext {α β : Type} :
    ∀ (l : List β) (a : α) (f g : α → β → α),
      (∀ acc x, x ∈ l → f acc x = g acc x) → l.foldl f a = l.foldl g a := by
  intro l
  induction l with
  | nil =>
    intro a f g h
    rfl
  | cons b t ih =>
    intro a f g h
    rw [List.foldl_cons, List.foldl_cons, h a b (List.mem_cons_self b t)]
    exact ih _ f g (fun acc x hx => h acc x (List.mem_cons_of_mem b hx))

/-- Distinct column slabs of a flat buffer are disjoint. -/
theorem slab_ne (a b c t ld : Nat) (ha : a < ld) (hb : b < ld) (hne : c ≠ t) :
    a + c * ld ≠ b + t * ld := by
  intro he
  rcases Nat.lt_or_ge c t with hlt | hge
  · have h2 : (c + 1) * ld ≤ t * ld :=
      Nat.mul_le_mul_right ld (Nat.succ_le_of_lt hlt)
    rw [Nat.succ_mul] at h2
    omega
  · have ht : t < c := Nat.lt_of_le_of_ne hge (fun he2 => hne he2.symm)
    have h2 : (t + 1) * ld ≤ c * ld :=
      Nat.mul_le_mul_right ld (Nat.succ_le_of_lt ht)
    rw [Nat.succ_mul] at h2
    omega

/-- One column of a columnwise outer loop: on its write slab the result is a
single application of the body to the untouched buffer, and off the slab
(within the column) the buffer is untouched. -/
theorem slab_extract (step : Nat → (Nat → ℚ) → (Nat → ℚ)) (wkey : Nat → Nat)
    (mW ld : Nat) (hkey : ∀ j, j < mW → wkey j < ld)
    (hframe : ∀ cc b idx, (∀ j, j < mW → idx ≠ wkey j + cc * ld) →
      step cc b idx = b idx)
    (hread : ∀ cc b1 b2,
      (∀ j, j < mW → b1 (wkey j + cc * ld) = b2 (wkey j + cc * ld)) →
      ∀ j, j < mW → step cc b1 (wkey j + cc * ld) = step cc b2 (wkey j + cc * ld))
    (n : Nat) (buf : Nat → ℚ) (c : Nat) (hc : c < n) :
    (∀ j, j < mW →
      loopN step n buf (wkey j + c * ld) = step c buf (wkey j + c * ld)) ∧
    (∀ r, r < ld → (∀ j, j < mW → r ≠ wkey j) →
      loopN step n buf (r + c * ld) = buf (r + c * ld)) := by
  have main := loopN_inv
    (fun t b =>
      (∀ j, j < mW → b (wkey j + c * ld) =
        (if c < t then step c buf (wkey j + c * ld) else buf (wkey j + c * ld))) ∧
      (∀ r, r < ld → (∀ j, j < mW → r ≠ wkey j) →
        b (r + c * ld) = buf (r + c * ld)))
    step n buf
    ⟨fun j hj => by rw [if_neg (Nat.not_lt_zero c)], fun r _ _ => rfl⟩
    ?_
  · obtain ⟨m1, m2⟩ := main
    constructor
    · intro j hj
      have := m1 j hj
      rw [if_pos hc] at this
      exact this
    · exact m2
  · intro t b ht hb
    obtain ⟨b1, b2⟩ := hb
    rcases Nat.lt_trichotomy t c with htc | htc | htc
    · constructor
      · intro j hj
        rw [if_neg (by omega)]
        have hv := b1 j hj
        rw [if_neg (by omega)] at hv
        rw [hframe t b _ (fun j2 hj2 =>
          slab_ne (wkey j) (wkey j2) c t ld (hkey j hj) (hkey j2 hj2) (by omega))]
        exact hv
      · intro r hr hno
        rw [hframe t b _ (fun j2 hj2 =>
          slab_ne r (wkey j2) c t ld hr (hkey j2 hj2) (by omega))]
        exact b2 r hr hno
    · subst htc
      constructor
      · intro j hj
        rw [if_pos (Nat.lt_succ_self t)]
        refine hread t b buf ?_ j hj
        intro j2 hj2
        have hv := b1 j2 hj2
        rw [if_neg (Nat.lt_irrefl t)] at hv
        exact hv
      · intro r hr hno
        rw [hframe t b _ (fun j2 hj2 => by
          intro he
          exact hno j2 hj2 (Nat.add_right_cancel he))]
        exact b2 r hr hno
    · constructor
      · intro j hj
        rw [if_pos (by omega)]
        have hv := b1 j hj
        rw [if_pos htc] at hv
        rw [hframe t b _ (fun j2 hj2 =>
          slab_ne (wkey j) (wkey j2) c t ld (hkey j hj) (hkey j2 hj2) (by omega))]
        exact hv
      · intro r hr hno
        rw [hframe t b _ (fun j2 hj2 =>
          slab_ne r (wkey j2) c t ld hr (hkey j2 hj2) (by omega))]
        exact b2 r hr hno

/-- Master column-correspondence lemma for one dense stage of the blocked
solve: an outer loop over right-hand-side columns whose body writes, in
order, the slots `wkey r` of its own column slab, each with a value computed
from the current buffer (read only within the slab) and external data.  Two
runs with different column counts, leading dimensions and column indices
agree on the designated columns if their inputs do and the written values
correspond. -/
theorem colstage_pair (mW R ld1 ld2 n1 n2 c1 c2 : Nat) (wkey : Nat → Nat)
    (body1 body2 : Nat → Nat → (Nat → ℚ) → ℚ)
    (hkey : ∀ j, j < mW → wkey j < R) (hR1 : R ≤ ld1) (hR2 : R ≤ ld2)
    (hc1 : c1 < n1) (hc2 : c2 < n2)
    (hbodyR1 : ∀ cc r, r < mW → ∀ a b,
      (∀ j, j < mW → a (wkey j + cc * ld1) = b (wkey j + cc * ld1)) →
      body1 r cc a = body1 r cc b)
    (hbodyR2 : ∀ cc r, r < mW → ∀ a b,
      (∀ j, j < mW → a (wkey j + cc * ld2) = b (wkey j + cc * ld2)) →
      body2 r cc a = body2 r cc b)
    (hbody12 : ∀ r, r < mW → ∀ a b,
      (∀ j, j < mW → a (wkey j + c1 * ld1) = b (wkey j + c2 * ld2)) →
      body1 r c1 a = body2 r c2 b)
    (b1 b2 : Nat → ℚ) (h : ColAgree R ld1 ld2 c1 c2 b1 b2) :
    ColAgree R ld1 ld2 c1 c2
      (loopN (fun cc buf =>
        loopN (fun r buf => upd buf (wkey r + cc * ld1) (body1 r cc buf)) mW buf)
        n1 b1)
      (loopN (fun cc buf =>
        loopN (fun r buf => upd buf (wkey r + cc * ld2) (body2 r cc buf)) mW buf)
        n2 b2) := by
  have hkey1 : ∀ j, j < mW → wkey j < ld1 :=
    fun j hj => Nat.lt_of_lt_of_le (hkey j hj) hR1
  have hkey2 : ∀ j, j < mW → wkey j < ld2 :=
    fun j hj => Nat.lt_of_lt_of_le (hkey j hj) hR2
  have hframe1 : ∀ cc b idx, (∀ j, j < mW → idx ≠ wkey j + cc * ld1) →
      loopN (fun r buf => upd buf (wkey r + cc * ld1) (body1 r cc buf)) mW b idx
        = b idx := by
    intro cc b idx hno
    refine loopN_inv (fun _ x => x idx = b idx) _ mW b rfl ?_
    intro r t hr ht
    dsimp only
    rw [upd_other _ _ _ (hno r hr)]
    exact ht
  have hframe2 : ∀ cc b idx, (∀ j, j < mW → idx ≠ wkey j + cc * ld2) →
      loopN (fun r buf => upd buf (wkey r + cc * ld2) (body2 r cc buf)) mW b idx
        = b idx := by
    intro cc b idx hno
    refine loopN_inv (fun _ x => x idx = b idx) _ mW b rfl ?_
    intro r t hr ht
    dsimp only
    rw [upd_other _ _ _ (hno r hr)]
    exact ht
  have hread1 : ∀ cc a b,
      (∀ j, j < mW → a (wkey j + cc * ld1) = b (wkey j + cc * ld1)) →
      ∀ j, j < mW →
        loopN (fun r buf => upd buf (wkey r + cc * ld1) (body1 r cc buf)) mW a
          (wkey j + cc * ld1)
        = loopN (fun r buf => upd buf (wkey r + cc * ld1) (body1 r cc buf)) mW b
          (wkey j + cc * ld1) := by
    intro cc a b hab
    refine loopN_rel
      (fun x y => ∀ j, j < mW → x (wkey j + cc * ld1) = y (wkey j + cc * ld1))
      _ _ mW a b hab ?_
    intro r x y hr hxy j hj
    dsimp only
    rw [upd_read, upd_read]
    by_cases hk : wkey j + cc * ld1 = wkey r + cc * ld1
    · rw [if_pos hk, if_pos hk]
      exact hbodyR1 cc r hr x y (fun j2 hj2 => hxy j2 hj2)
    · rw [if_neg hk, if_neg hk]
      exact hxy j hj
  have hread2 : ∀ cc a b,
      (∀ j, j < mW → a (wkey j + cc * ld2) = b (wkey j + cc * ld2)) →
      ∀ j, j < mW →
        loopN (fun r buf => upd buf (wkey r + cc * ld2) (body2 r cc buf)) mW a
          (wkey j + cc * ld2)
        = loopN (fun r buf => upd buf (wkey r + cc * ld2) (body2 r cc buf)) mW b
          (wkey j + cc * ld2) := by
    intro cc a b hab
    refine loopN_rel
      (fun x y => ∀ j, j < mW → x (wkey j + cc * ld2) = y (wkey j + cc * ld2))
      _ _ mW a b hab ?_
    intro r x y hr hxy j hj
    dsimp only
    rw [upd_read, upd_read]
    by_cases hk : wkey j + cc * ld2 = wkey r + cc * ld2
    · rw [if_pos hk, if_pos hk]
      exact hbodyR2 cc r hr x y (fun j2 hj2 => hxy j2 hj2)
    · rw [if_neg hk, if_neg hk]
      exact hxy j hj
  have hA := slab_extract _ wkey mW ld1 hkey1 hframe1 hread1 n1 b1 c1 hc1
  have hB := slab_extract _ wkey mW ld2 hkey2 hframe2 hread2 n2 b2 c2 hc2
  have hcross :
      ∀ j, j < mW →
        loopN (fun r buf => upd buf (wkey r + c1 * ld1) (body1 r c1 buf)) mW b1
          (wkey j + c1 * ld1)
        = loopN (fun r buf => upd buf (wkey r + c2 * ld2) (body2 r c2 buf)) mW b2
          (wkey j + c2 * ld2) := by
    refine loopN_rel
      (fun x y => ∀ j, j < mW → x (wkey j + c1 * ld1) = y (wkey j + c2 * ld2))
      _ _ mW b1 b2 (fun j hj => h (wkey j) (hkey j hj)) ?_
    intro r x y hr hxy j hj
    dsimp only
    rw [upd_read, upd_read]
    by_cases hk : wkey j = wkey r
    · rw [if_pos (by rw [hk]), if_pos (by rw [hk])]
      exact hbody12 r hr x y (fun j2 hj2 => hxy j2 hj2)
    · rw [if_neg (fun he => hk (Nat.add_right_cancel he)),
        if_neg (fun he => hk (Nat.add_right_cancel he))]
      exact hxy j hj
  intro r hr
  by_cases hin : ∃ j, j < mW ∧ r = wkey j
  · obtain ⟨j, hj, hrj⟩ := hin
    subst hrj
    rw [hA.1 j hj, hB.1 j hj]
    exact hcross j hj
  · have hno : ∀ j, j < mW → r ≠ wkey j :=
      fun j hj he => hin ⟨j, hj, he⟩
    rw [hA.2 r (Nat.lt_of_lt_of_le hr hR1) hno,
      hB.2 r (Nat.lt_of_lt_of_le hr hR2) hno]
    exact h r hr

/-- One forward-substitution block acts columnwise: two runs (different
column counts, `B` leading dimensions and column indices) agree on the
designated columns of all three buffers afterwards if they do before. -/
theorem solveLBlock_pair (F : Factor) (block : FactorBlock)
    (hbwf : BlockWF F block) (hmn : F.m = F.n)
    (n1 n2 ld_B1 ld_B2 c1 c2 xoff : Nat)
    (hc1 : c1 < n1) (hc2 : c2 < n2)
    (hB1 : F.n ≤ ld_B1) (hB2 : F.n ≤ ld_B2)
    (hxoff : xoff + block.row_pivots_number ≤ F.n)
    (stA stB : (Nat → ℚ) × (Nat → ℚ) × (Nat → ℚ))
    (hX : ColAgree F.n F.n F.n c1 c2 stA.1 stB.1)
    (hBag : ColAgree F.n ld_B1 ld_B2 c1 c2 stA.2.1 stB.2.1)
    (hT : ColAgree F.n F.n F.n c1 c2 stA.2.2 stB.2.2) :
    ColAgree F.n F.n F.n c1 c2 (solveLBlock n1 ld_B1 F.n F.n block xoff stA).1
        (solveLBlock n2 ld_B2 F.n F.n block xoff stB).1 ∧
    ColAgree F.n ld_B1 ld_B2 c1 c2 (solveLBlock n1 ld_B1 F.n F.n block xoff stA).2.1
        (solveLBlock n2 ld_B2 F.n F.n block xoff stB).2.1 ∧
    ColAgree F.n F.n F.n c1 c2 (solveLBlock n1 ld_B1 F.n F.n block xoff stA).2.2
        (solveLBlock n2 ld_B2 F.n F.n block xoff stB).2.2 := by
  have hpr : ∀ j, j < block.row_pivots_number → block.pivot_rows j < F.n :=
    fun j hj => hmn ▸ hbwf.1 j hj
  have hnpr : ∀ j, j < block.non_pivot_rows_number → block.non_pivot_rows j < F.n :=
    fun j hj => hmn ▸ hbwf.2.1 j hj
  have hnprn : block.non_pivot_rows_number ≤ F.n := hbwf.2.2.2.2.1
  -- stage 1: gather the pivot rows of B into X
  have h1 : ColAgree F.n F.n F.n c1 c2
      (loopN (fun c X => loopN (fun j X => upd X (xoff + j + c * F.n)
          (stA.2.1 (block.pivot_rows j + c * ld_B1)))
        block.row_pivots_number X) n1 stA.1)
      (loopN (fun c X => loopN (fun j X => upd X (xoff + j + c * F.n)
          (stB.2.1 (block.pivot_rows j + c * ld_B2)))
        block.row_pivots_number X) n2 stB.1) := by
    refine colstage_pair block.row_pivots_number F.n F.n F.n n1 n2 c1 c2
      (fun j => xoff + j)
      (fun j cc _ => stA.2.1 (block.pivot_rows j + cc * ld_B1))
      (fun j cc _ => stB.2.1 (block.pivot_rows j + cc * ld_B2))
      (fun j hj => by
        show xoff + j < F.n
        omega) (Nat.le_refl _) (Nat.le_refl _) hc1 hc2
      (fun cc r hr a b hab => rfl) (fun cc r hr a b hab => rfl)
      (fun r hr a b hab => hBag (block.pivot_rows r) (hpr r hr))
      stA.1 stB.1 hX
  -- stage 2: the unit lower triangular solve on the gathered rows
  have h2 : ColAgree F.n F.n F.n c1 c2
      (unitLowerLeftTriSolve block.row_pivots_number n1 block.LU1
        (block.row_pivots_number + block.non_pivot_rows_number) xoff
        (loopN (fun c X => loopN (fun j X => upd X (xoff + j + c * F.n)
            (stA.2.1 (block.pivot_rows j + c * ld_B1)))
          block.row_pivots_number X) n1 stA.1) F.n)
      (unitLowerLeftTriSolve block.row_pivots_number n2 block.LU1
        (block.row_pivots_number + block.non_pivot_rows_number) xoff
        (loopN (fun c X => loopN (fun j X => upd X (xoff + j + c * F.n)
            (stB.2.1 (block.pivot_rows j + c * ld_B2)))
          block.row_pivots_number X) n2 stB.1) F.n) := by
    unfold unitLowerLeftTriSolve
    refine colstage_pair block.row_pivots_number F.n F.n F.n n1 n2 c1 c2
      (fun i => xoff + i)
      (fun i cc buf => buf (xoff + i + cc * F.n) - (List.range i).foldl
        (fun acc j => acc + block.LU1
          (i + j * (block.row_pivots_number + block.non_pivot_rows_number)) *
          buf (xoff + j + cc * F.n)) 0)
      (fun i cc buf => buf (xoff + i + cc * F.n) - (List.range i).foldl
        (fun acc j => acc + block.LU1
          (i + j * (block.row_pivots_number + block.non_pivot_rows_number)) *
          buf (xoff + j + cc * F.n)) 0)
      (fun j hj => by
        show xoff + j < F.n
        omega) (Nat.le_refl _) (Nat.le_refl _) hc1 hc2
      ?_ ?_ ?_ _ _ h1
    · intro cc r hr a b hab
      dsimp only at hab ⊢
      rw [hab r hr]
      have hf := foldl_ext (List.range r) (0 : ℚ)
        (fun acc j => acc + block.LU1
          (r + j * (block.row_pivots_number + block.non_pivot_rows_number)) *
          a (xoff + j + cc * F.n))
        (fun acc j => acc + block.LU1
          (r + j * (block.row_pivots_number + block.non_pivot_rows_number)) *
          b (xoff + j + cc * F.n))
        (fun acc x hx => by
          dsimp only
          rw [hab x (Nat.lt_trans (List.mem_range.mp hx) hr)])
      rw [hf]
    · intro cc r hr a b hab
      dsimp only at hab ⊢
      rw [hab r hr]
      have hf := foldl_ext (List.range r) (0 : ℚ)
        (fun acc j => acc + block.LU1
          (r + j * (block.row_pivots_number + block.non_pivot_rows_number)) *
          a (xoff + j + cc * F.n))
        (fun acc j => acc + block.LU1
          (r + j * (block.row_pivots_number + block.non_pivot_rows_number)) *
          b (xoff + j + cc * F.n))
        (fun acc x hx => by
          dsimp only
          rw [hab x (Nat.lt_trans (List.mem_range.mp hx) hr)])
      rw [hf]
    · intro r hr a b hab
      dsimp only at hab ⊢
      rw [hab r hr]
      have hf := foldl_ext (List.range r) (0 : ℚ)
        (fun acc j => acc + block.LU1
          (r + j * (block.row_pivots_number + block.non_pivot_rows_number)) *
          a (xoff + j + c1 * F.n))
        (fun acc j => acc + block.LU1
          (r + j * (block.row_pivots_number + block.non_pivot_rows_number)) *
          b (xoff + j + c2 * F.n))
        (fun acc x hx => by
          dsimp only
          rw [hab x (Nat.lt_trans (List.mem_range.mp hx) hr)])
      rw [hf]
  unfold solveLBlock
  dsimp only
  by_cases hz : block.non_pivot_rows_number = 0
  · rw [if_pos hz, if_pos hz]
    exact ⟨h2, hBag, hT⟩
  · rw [if_neg hz, if_neg hz]
    -- stage 4: gather the non-pivot rows of B into T
    have h4 : ColAgree F.n F.n F.n c1 c2
        (loopN (fun c T => loopN (fun j T => upd T (j + c * F.n)
            (stA.2.1 (block.non_pivot_rows j + c * ld_B1)))
          block.non_pivot_rows_number T) n1 stA.2.2)
        (loopN (fun c T => loopN (fun j T => upd T (j + c * F.n)
            (stB.2.1 (block.non_pivot_rows j + c * ld_B2)))
          block.non_pivot_rows_number T) n2 stB.2.2) := by
      refine colstage_pair block.non_pivot_rows_number F.n F.n F.n n1 n2 c1 c2
        (fun j => j)
        (fun j cc _ => stA.2.1 (block.non_pivot_rows j + cc * ld_B1))
        (fun j cc _ => stB.2.1 (block.non_pivot_rows j + cc * ld_B2))
        (fun j hj => by
          show j < F.n
          omega) (Nat.le_refl _) (Nat.le_refl _) hc1 hc2
        (fun cc r hr a b hab => rfl) (fun cc r hr a b hab => rfl)
        (fun r hr a b hab => hBag (block.non_pivot_rows r) (hnpr r hr))
        stA.2.2 stB.2.2 hT
    -- stage 5: T := T − L2·X
    have h5 : ColAgree F.n F.n F.n c1 c2
        (caddMAB block.non_pivot_rows_number n1 block.row_pivots_number
          (fun k => block.LU1 (block.L2_off + k))
          (block.row_pivots_number + block.non_pivot_rows_number) xoff
          (unitLowerLeftTriSolve block.row_pivots_number n1 block.LU1
            (block.row_pivots_number + block.non_pivot_rows_number) xoff
            (loopN (fun c X => loopN (fun j X => upd X (xoff + j + c * F.n)
                (stA.2.1 (block.pivot_rows j + c * ld_B1)))
              block.row_pivots_number X) n1 stA.1) F.n) F.n
          (loopN (fun c T => loopN (fun j T => upd T (j + c * F.n)
              (stA.2.1 (block.non_pivot_rows j + c * ld_B1)))
            block.non_pivot_rows_number T) n1 stA.2.2) F.n)
        (caddMAB block.non_pivot_rows_number n2 block.row_pivots_number
          (fun k => block.LU1 (block.L2_off + k))
          (block.row_pivots_number + block.non_pivot_rows_number) xoff
          (unitLowerLeftTriSolve block.row_pivots_number n2 block.LU1
            (block.row_pivots_number + block.non_pivot_rows_number) xoff
            (loopN (fun c X => loopN (fun j X => upd X (xoff + j + c * F.n)
                (stB.2.1 (block.pivot_rows j + c * ld_B2)))
              block.row_pivots_number X) n2 stB.1) F.n) F.n
          (loopN (fun c T => loopN (fun j T => upd T (j + c * F.n)
              (stB.2.1 (block.non_pivot_rows j + c * ld_B2)))
            block.non_pivot_rows_number T) n2 stB.2.2) F.n) := by
      unfold caddMAB
      refine colstage_pair block.non_pivot_rows_number F.n F.n F.n n1 n2 c1 c2
        (fun i => i)
        (fun i cc buf => buf (i + cc * F.n) - (List.range block.row_pivots_number).foldl
          (fun acc t => acc + block.LU1 (block.L2_off +
              (i + t * (block.row_pivots_number + block.non_pivot_rows_number))) *
            (unitLowerLeftTriSolve block.row_pivots_number n1 block.LU1
              (block.row_pivots_number + block.non_pivot_rows_number) xoff
              (loopN (fun c X => loopN (fun j X => upd X (xoff + j + c * F.n)
                  (stA.2.1 (block.pivot_rows j + c * ld_B1)))
                block.row_pivots_number X) n1 stA.1) F.n)
              (xoff + t + cc * F.n)) 0)
        (fun i cc buf => buf (i + cc * F.n) - (List.range block.row_pivots_number).foldl
          (fun acc t => acc + block.LU1 (block.L2_off +
              (i + t * (block.row_pivots_number + block.non_pivot_rows_number))) *
            (unitLowerLeftTriSolve block.row_pivots_number n2 block.LU1
              (block.row_pivots_number + block.non_pivot_rows_number) xoff
              (loopN (fun c X => loopN (fun j X => upd X (xoff + j + c * F.n)
                  (stB.2.1 (block.pivot_rows j + c * ld_B2)))
                block.row_pivots_number X) n2 stB.1) F.n)
              (xoff + t + cc * F.n)) 0)
        (fun j hj => by
          show j < F.n
          omega) (Nat.le_refl _) (Nat.le_refl _) hc1 hc2
        ?_ ?_ ?_ _ _ h4
      · intro cc r hr a b hab
        dsimp only at hab ⊢
        rw [hab r hr]
      · intro cc r hr a b hab
        dsimp only at hab ⊢
        rw [hab r hr]
      · intro r hr a b hab
        dsimp only at hab ⊢
        rw [hab r hr]
        have hf := foldl_ext (List.range block.row_pivots_number) (0 : ℚ)
          (fun acc t => acc + block.LU1 (block.L2_off +
              (r + t * (block.row_pivots_number + block.non_pivot_rows_number))) *
            (unitLowerLeftTriSolve block.row_pivots_number n1 block.LU1
              (block.row_pivots_number + block.non_pivot_rows_number) xoff
              (loopN (fun c X => loopN (fun j X => upd X (xoff + j + c * F.n)
                  (stA.2.1 (block.pivot_rows j + c * ld_B1)))
                block.row_pivots_number X) n1 stA.1) F.n)
              (xoff + t + c1 * F.n))
          (fun acc t => acc + block.LU1 (block.L2_off +
              (r + t * (block.row_pivots_number + block.non_pivot_rows_number))) *
            (unitLowerLeftTriSolve block.row_pivots_number n2 block.LU1
              (block.row_pivots_number + block.non_pivot_rows_number) xoff
              (loopN (fun c X => loopN (fun j X => upd X (xoff + j + c * F.n)
                  (stB.2.1 (block.pivot_rows j + c * ld_B2)))
                block.row_pivots_number X) n2 stB.1) F.n)
              (xoff + t + c2 * F.n))
          (fun acc x hx => by
            dsimp only
            rw [h2 (xoff + x) (by
              have := List.mem_range.mp hx
              omega)])
        rw [hf]
    -- stage 6: scatter T back into B
    have h6 : ColAgree F.n ld_B1 ld_B2 c1 c2
        (loopN (fun c B => loopN (fun j B => upd B (block.non_pivot_rows j + c * ld_B1)
            ((caddMAB block.non_pivot_rows_number n1 block.row_pivots_number
              (fun k => block.LU1 (block.L2_off + k))
              (block.row_pivots_number + block.non_pivot_rows_number) xoff
              (unitLowerLeftTriSolve block.row_pivots_number n1 block.LU1
                (block.row_pivots_number + block.non_pivot_rows_number) xoff
                (loopN (fun c X => loopN (fun j X => upd X (xoff + j + c * F.n)
                    (stA.2.1 (block.pivot_rows j + c * ld_B1)))
                  block.row_pivots_number X) n1 stA.1) F.n) F.n
              (loopN (fun c T => loopN (fun j T => upd T (j + c * F.n)
                  (stA.2.1 (block.non_pivot_rows j + c * ld_B1)))
                block.non_pivot_rows_number T) n1 stA.2.2) F.n) (j + c * F.n)))
          block.non_pivot_rows_number B) n1 stA.2.1)
        (loopN (fun c B => loopN (fun j B => upd B (block.non_pivot_rows j + c * ld_B2)
            ((caddMAB block.non_pivot_rows_number n2 block.row_pivots_number
              (fun k => block.LU1 (block.L2_off + k))
              (block.row_pivots_number + block.non_pivot_rows_number) xoff
              (unitLowerLeftTriSolve block.row_pivots_number n2 block.LU1
                (block.row_pivots_number + block.non_pivot_rows_number) xoff
                (loopN (fun c X => loopN (fun j X => upd X (xoff + j + c * F.n)
                    (stB.2.1 (block.pivot_rows j + c * ld_B2)))
                  block.row_pivots_number X) n2 stB.1) F.n) F.n
              (loopN (fun c T => loopN (fun j T => upd T (j + c * F.n)
                  (stB.2.1 (block.non_pivot_rows j + c * ld_B2)))
                block.non_pivot_rows_number T) n2 stB.2.2) F.n) (j + c * F.n)))
          block.non_pivot_rows_number B) n2 stB.2.1) := by
      refine colstage_pair block.non_pivot_rows_number F.n ld_B1 ld_B2 n1 n2 c1 c2
        block.non_pivot_rows
        (fun j cc _ => (caddMAB block.non_pivot_rows_number n1 block.row_pivots_number
          (fun k => block.LU1 (block.L2_off + k))
          (block.row_pivots_number + block.non_pivot_rows_number) xoff
          (unitLowerLeftTriSolve block.row_pivots_number n1 block.LU1
            (block.row_pivots_number + block.non_pivot_rows_number) xoff
            (loopN (fun c X => loopN (fun j X => upd X (xoff + j + c * F.n)
                (stA.2.1 (block.pivot_rows j + c * ld_B1)))
              block.row_pivots_number X) n1 stA.1) F.n) F.n
          (loopN (fun c T => loopN (fun j T => upd T (j + c * F.n)
              (stA.2.1 (block.non_pivot_rows j + c * ld_B1)))
            block.non_pivot_rows_number T) n1 stA.2.2) F.n) (j + cc * F.n))
        (fun j cc _ => (caddMAB block.non_pivot_rows_number n2 block.row_pivots_number
          (fun k => block.LU1 (block.L2_off + k))
          (block.row_pivots_number + block.non_pivot_rows_number) xoff
          (unitLowerLeftTriSolve block.row_pivots_number n2 block.LU1
            (block.row_pivots_number + block.non_pivot_rows_number) xoff
            (loopN (fun c X => loopN (fun j X => upd X (xoff + j + c * F.n)
                (stB.2.1 (block.pivot_rows j + c * ld_B2)))
              block.row_pivots_number X) n2 stB.1) F.n) F.n
          (loopN (fun c T => loopN (fun j T => upd T (j + c * F.n)
              (stB.2.1 (block.non_pivot_rows j + c * ld_B2)))
            block.non_pivot_rows_number T) n2 stB.2.2) F.n) (j + cc * F.n))
        hnpr hB1 hB2 hc1 hc2
        (fun cc r hr a b hab => rfl) (fun cc r hr a b hab => rfl)
        (fun r hr a b hab => h5 r (by omega))
        stA.2.1 stB.2.1 hBag
    exact ⟨h2, h6, h5⟩

/-- The tail of a back-substitution block (the back solve with `U1` and the
scatter of the block's solution rows into `X` at the pivot columns) acts
columnwise: two runs agree on the designated columns of the scattered `X`
and of the back-solved `B` buffer if their inputs do. -/
theorem solveUTail_pair (F : Factor) (block : FactorBlock)
    (hbwf : BlockWF F block)
    (n1 n2 ld_X1 ld_X2 c1 c2 boff : Nat)
    (hc1 : c1 < n1) (hc2 : c2 < n2)
    (hX1 : F.n ≤ ld_X1) (hX2 : F.n ≤ ld_X2)
    (hboff : boff + block.col_pivots_number ≤ F.n)
    (XA BA XB BB : Nat → ℚ)
    (hX : ColAgree F.n ld_X1 ld_X2 c1 c2 XA XB)
    (hB : ColAgree F.n F.n F.n c1 c2 BA BB) :
    ColAgree F.n ld_X1 ld_X2 c1 c2
      (loopN (fun c X => loopN (fun j X => upd X (block.pivot_cols j + c * ld_X1)
          ((upperLeftTriSolve block.col_pivots_number n1 block.LU1
            (block.row_pivots_number + block.non_pivot_rows_number) boff BA F.n)
            (boff + j + c * F.n)))
        block.col_pivots_number X) n1 XA)
      (loopN (fun c X => loopN (fun j X => upd X (block.pivot_cols j + c * ld_X2)
          ((upperLeftTriSolve block.col_pivots_number n2 block.LU1
            (block.row_pivots_number + block.non_pivot_rows_number) boff BB F.n)
            (boff + j + c * F.n)))
        block.col_pivots_number X) n2 XB) ∧
    ColAgree F.n F.n F.n c1 c2
      (upperLeftTriSolve block.col_pivots_number n1 block.LU1
        (block.row_pivots_number + block.non_pivot_rows_number) boff BA F.n)
      (upperLeftTriSolve block.col_pivots_number n2 block.LU1
        (block.row_pivots_number + block.non_pivot_rows_number) boff BB F.n) := by
  have hpc : ∀ j, j < block.col_pivots_number → block.pivot_cols j < F.n :=
    hbwf.2.2.1
  -- the back solve
  have hU : ColAgree F.n F.n F.n c1 c2
      (upperLeftTriSolve block.col_pivots_number n1 block.LU1
        (block.row_pivots_number + block.non_pivot_rows_number) boff BA F.n)
      (upperLeftTriSolve block.col_pivots_number n2 block.LU1
        (block.row_pivots_number + block.non_pivot_rows_number) boff BB F.n) := by
    unfold upperLeftTriSolve
    refine colstage_pair block.col_pivots_number F.n F.n F.n n1 n2 c1 c2
      (fun k => boff + (block.col_pivots_number - 1 - k))
      (fun k cc buf =>
        (buf (boff + (block.col_pivots_number - 1 - k) + cc * F.n) -
          (List.range k).foldl
            (fun acc t => acc + block.LU1 ((block.col_pivots_number - 1 - k) +
                (block.col_pivots_number - 1 - t) *
                (block.row_pivots_number + block.non_pivot_rows_number)) *
              buf (boff + (block.col_pivots_number - 1 - t) + cc * F.n)) 0) /
          block.LU1 ((block.col_pivots_number - 1 - k) +
            (block.col_pivots_number - 1 - k) *
            (block.row_pivots_number + block.non_pivot_rows_number)))
      (fun k cc buf =>
        (buf (boff + (block.col_pivots_number - 1 - k) + cc * F.n) -
          (List.range k).foldl
            (fun acc t => acc + block.LU1 ((block.col_pivots_number - 1 - k) +
                (block.col_pivots_number - 1 - t) *
                (block.row_pivots_number + block.non_pivot_rows_number)) *
              buf (boff + (block.col_pivots_number - 1 - t) + cc * F.n)) 0) /
          block.LU1 ((block.col_pivots_number - 1 - k) +
            (block.col_pivots_number - 1 - k) *
            (block.row_pivots_number + block.non_pivot_rows_number)))
      (fun j hj => by
        show boff + (block.col_pivots_number - 1 - j) < F.n
        omega)
      (Nat.le_refl _) (Nat.le_refl _) hc1 hc2
      ?_ ?_ ?_ _ _ hB
    · intro cc r hr a b hab
      dsimp only at hab ⊢
      rw [hab r hr]
      have hf := foldl_ext (List.range r) (0 : ℚ)
        (fun acc t => acc + block.LU1 ((block.col_pivots_number - 1 - r) +
            (block.col_pivots_number - 1 - t) *
            (block.row_pivots_number + block.non_pivot_rows_number)) *
          a (boff + (block.col_pivots_number - 1 - t) + cc * F.n))
        (fun acc t => acc + block.LU1 ((block.col_pivots_number - 1 - r) +
            (block.col_pivots_number - 1 - t) *
            (block.row_pivots_number + block.non_pivot_rows_number)) *
          b (boff + (block.col_pivots_number - 1 - t) + cc * F.n))
        (fun acc x hx => by
          dsimp only
          rw [hab x (Nat.lt_trans (List.mem_range.mp hx) hr)])
      rw [hf]
    · intro cc r hr a b hab
      dsimp only at hab ⊢
      rw [hab r hr]
      have hf := foldl_ext (List.range r) (0 : ℚ)
        (fun acc t => acc + block.LU1 ((block.col_pivots_number - 1 - r) +
            (block.col_pivots_number - 1 - t) *
            (block.row_pivots_number + block.non_pivot_rows_number)) *
          a (boff + (block.col_pivots_number - 1 - t) + cc * F.n))
        (fun acc t => acc + block.LU1 ((block.col_pivots_number - 1 - r) +
            (block.col_pivots_number - 1 - t) *
            (block.row_pivots_number + block.non_pivot_rows_number)) *
          b (boff + (block.col_pivots_number - 1 - t) + cc * F.n))
        (fun acc x hx => by
          dsimp only
          rw [hab x (Nat.lt_trans (List.mem_range.mp hx) hr)])
      rw [hf]
    · intro r hr a b hab
      dsimp only at hab ⊢
      rw [hab r hr]
      have hf := foldl_ext (List.range r) (0 : ℚ)
        (fun acc t => acc + block.LU1 ((block.col_pivots_number - 1 - r) +
            (block.col_pivots_number - 1 - t) *
            (block.row_pivots_number + block.non_pivot_rows_number)) *
          a (boff + (block.col_pivots_number - 1 - t) + c1 * F.n))
        (fun acc t => acc + block.LU1 ((block.col_pivots_number - 1 - r) +
            (block.col_pivots_number - 1 - t) *
            (block.row_pivots_number + block.non_pivot_rows_number)) *
          b (boff + (block.col_pivots_number - 1 - t) + c2 * F.n))
        (fun acc x hx => by
          dsimp only
          rw [hab x (Nat.lt_trans (List.mem_range.mp hx) hr)])
      rw [hf]
  -- the scatter of the solution into X at the pivot columns
  have hS : ColAgree F.n ld_X1 ld_X2 c1 c2
      (loopN (fun c X => loopN (fun j X => upd X (block.pivot_cols j + c * ld_X1)
          ((upperLeftTriSolve block.col_pivots_number n1 block.LU1
            (block.row_pivots_number + block.non_pivot_rows_number) boff BA F.n)
            (boff + j + c * F.n)))
        block.col_pivots_number X) n1 XA)
      (loopN (fun c X => loopN (fun j X => upd X (block.pivot_cols j + c * ld_X2)
          ((upperLeftTriSolve block.col_pivots_number n2 block.LU1
            (block.row_pivots_number + block.non_pivot_rows_number) boff BB F.n)
            (boff + j + c * F.n)))
        block.col_pivots_number X) n2 XB) := by
    refine colstage_pair block.col_pivots_number F.n ld_X1 ld_X2 n1 n2 c1 c2
      block.pivot_cols
      (fun j cc _ => (upperLeftTriSolve block.col_pivots_number n1 block.LU1
        (block.row_pivots_number + block.non_pivot_rows_number) boff BA F.n)
        (boff + j + cc * F.n))
      (fun j cc _ => (upperLeftTriSolve block.col_pivots_number n2 block.LU1
        (block.row_pivots_number + block.non_pivot_rows_number) boff BB F.n)
        (boff + j + cc * F.n))
      hpc hX1 hX2 hc1 hc2
      (fun cc r hr a b hab => rfl) (fun cc r hr a b hab => rfl)
      (fun r hr a b hab => hU (boff + r) (by omega))
      XA XB hX
  exact ⟨hS, hU⟩

/-- One back-substitution block acts columnwise (the `B` role is played by
the forward solution `Y`, leading dimension `F.n` in both runs; the `X` role
is the caller's output buffer with its own leading dimension). -/
theorem solveUBlock_pair (F : Factor) (block : FactorBlock)
    (hbwf : BlockWF F block)
    (n1 n2 ld_X1 ld_X2 c1 c2 boff : Nat)
    (hc1 : c1 < n1) (hc2 : c2 < n2)
    (hX1 : F.n ≤ ld_X1) (hX2 : F.n ≤ ld_X2)
    (hboff : boff + block.col_pivots_number ≤ F.n)
    (stA stB : (Nat → ℚ) × (Nat → ℚ) × (Nat → ℚ))
    (hX : ColAgree F.n ld_X1 ld_X2 c1 c2 stA.1 stB.1)
    (hBag : ColAgree F.n F.n F.n c1 c2 stA.2.1 stB.2.1)
    (hT : ColAgree F.n F.n F.n c1 c2 stA.2.2 stB.2.2) :
    ColAgree F.n ld_X1 ld_X2 c1 c2 (solveUBlock n1 F.n ld_X1 F.n block boff stA).1
        (solveUBlock n2 F.n ld_X2 F.n block boff stB).1 ∧
    ColAgree F.n F.n F.n c1 c2 (solveUBlock n1 F.n ld_X1 F.n block boff stA).2.1
        (solveUBlock n2 F.n ld_X2 F.n block boff stB).2.1 ∧
    ColAgree F.n F.n F.n c1 c2 (solveUBlock n1 F.n ld_X1 F.n block boff stA).2.2
        (solveUBlock n2 F.n ld_X2 F.n block boff stB).2.2 := by
  have hnpc : ∀ j, j < block.non_pivot_cols_number → block.non_pivot_cols j < F.n :=
    hbwf.2.2.2.1
  have hnpcn : block.non_pivot_cols_number ≤ F.n := hbwf.2.2.2.2.2
  unfold solveUBlock
  dsimp only
  by_cases hz : block.non_pivot_cols_number = 0
  · rw [if_pos hz, if_pos hz]
    dsimp only
    have h := solveUTail_pair F block hbwf n1 n2 ld_X1 ld_X2 c1 c2 boff
      hc1 hc2 hX1 hX2 hboff stA.1 stA.2.1 stB.1 stB.2.1 hX hBag
    exact ⟨h.1, h.2, hT⟩
  · rw [if_neg hz, if_neg hz]
    dsimp only
    -- the gather of the already-computed solution columns into T
    have hTg : ColAgree F.n F.n F.n c1 c2
        (loopN (fun c T => loopN (fun j T => upd T (j + c * F.n)
            (stA.1 (block.non_pivot_cols j + c * ld_X1)))
          block.non_pivot_cols_number T) n1 stA.2.2)
        (loopN (fun c T => loopN (fun j T => upd T (j + c * F.n)
            (stB.1 (block.non_pivot_cols j + c * ld_X2)))
          block.non_pivot_cols_number T) n2 stB.2.2) := by
      refine colstage_pair block.non_pivot_cols_number F.n F.n F.n n1 n2 c1 c2
        (fun j => j)
        (fun j cc _ => stA.1 (block.non_pivot_cols j + cc * ld_X1))
        (fun j cc _ => stB.1 (block.non_pivot_cols j + cc * ld_X2))
        (fun j hj => by
          show j < F.n
          omega)
        (Nat.le_refl _) (Nat.le_refl _) hc1 hc2
        (fun cc r hr a b hab => rfl) (fun cc r hr a b hab => rfl)
        (fun r hr a b hab => hX (block.non_pivot_cols r) (hnpc r hr))
        stA.2.2 stB.2.2 hT
    -- the update B := B − Ut2ᵀ·T
    have hcadd : ColAgree F.n F.n F.n c1 c2
        (caddMATB block.col_pivots_number n1 block.non_pivot_cols_number
          block.Ut2 block.non_pivot_cols_number
          (loopN (fun c T => loopN (fun j T => upd T (j + c * F.n)
              (stA.1 (block.non_pivot_cols j + c * ld_X1)))
            block.non_pivot_cols_number T) n1 stA.2.2) F.n boff stA.2.1 F.n)
        (caddMATB block.col_pivots_number n2 block.non_pivot_cols_number
          block.Ut2 block.non_pivot_cols_number
          (loopN (fun c T => loopN (fun j T => upd T (j + c * F.n)
              (stB.1 (block.non_pivot_cols j + c * ld_X2)))
            block.non_pivot_cols_number T) n2 stB.2.2) F.n boff stB.2.1 F.n) := by
      unfold caddMATB
      refine colstage_pair block.col_pivots_number F.n F.n F.n n1 n2 c1 c2
        (fun i => boff + i)
        (fun i cc buf => buf (boff + i + cc * F.n) -
          (List.range block.non_pivot_cols_number).foldl
            (fun acc t => acc + block.Ut2 (t + i * block.non_pivot_cols_number) *
              (loopN (fun c T => loopN (fun j T => upd T (j + c * F.n)
                  (stA.1 (block.non_pivot_cols j + c * ld_X1)))
                block.non_pivot_cols_number T) n1 stA.2.2) (t + cc * F.n)) 0)
        (fun i cc buf => buf (boff + i + cc * F.n) -
          (List.range block.non_pivot_cols_number).foldl
            (fun acc t => acc + block.Ut2 (t + i * block.non_pivot_cols_number) *
              (loopN (fun c T => loopN (fun j T => upd T (j + c * F.n)
                  (stB.1 (block.non_pivot_cols j + c * ld_X2)))
                block.non_pivot_cols_number T) n2 stB.2.2) (t + cc * F.n)) 0)
        (fun j hj => by
          show boff + j < F.n
          omega)
        (Nat.le_refl _) (Nat.le_refl _) hc1 hc2
        ?_ ?_ ?_ _ _ hBag
      · intro cc r hr a b hab
        dsimp only at hab ⊢
        rw [hab r hr]
      · intro cc r hr a b hab
        dsimp only at hab ⊢
        rw [hab r hr]
      · intro r hr a b hab
        dsimp only at hab ⊢
        rw [hab r hr]
        have hf := foldl_ext (List.range block.non_pivot_cols_number) (0 : ℚ)
          (fun acc t => acc + block.Ut2 (t + r * block.non_pivot_cols_number) *
            (loopN (fun c T => loopN (fun j T => upd T (j + c * F.n)
                (stA.1 (block.non_pivot_cols j + c * ld_X1)))
              block.non_pivot_cols_number T) n1 stA.2.2) (t + c1 * F.n))
          (fun acc t => acc + block.Ut2 (t + r * block.non_pivot_cols_number) *
            (loopN (fun c T => loopN (fun j T => upd T (j + c * F.n)
                (stB.1 (block.non_pivot_cols j + c * ld_X2)))
              block.non_pivot_cols_number T) n2 stB.2.2) (t + c2 * F.n))
          (fun acc x hx => by
            dsimp only
            rw [hTg x (by
              have := List.mem_range.mp hx
              omega)])
        rw [hf]
    have h := solveUTail_pair F block hbwf n1 n2 ld_X1 ld_X2 c1 c2 boff
      hc1 hc2 hX1 hX2 hboff stA.1
      (caddMATB block.col_pivots_number n1 block.non_pivot_cols_number
        block.Ut2 block.non_pivot_cols_number
        (loopN (fun c T => loopN (fun j T => upd T (j + c * F.n)
            (stA.1 (block.non_pivot_cols j + c * ld_X1)))
          block.non_pivot_cols_number T) n1 stA.2.2) F.n boff stA.2.1 F.n)
      stB.1
      (caddMATB block.col_pivots_number n2 block.non_pivot_cols_number
        block.Ut2 block.non_pivot_cols_number
        (loopN (fun c T => loopN (fun j T => upd T (j + c * F.n)
            (stB.1 (block.non_pivot_cols j + c * ld_X2)))
          block.non_pivot_cols_number T) n2 stB.2.2) F.n boff stB.2.1 F.n)
      hX hcadd
    exact ⟨h.1, h.2, hTg⟩

/-- Index-aware lockstep correspondence of two `loopN` runs. -/
theorem loopN_rel_idx {σ τ : Type} (Q : Nat → σ → τ → Prop) (f : Nat → σ → σ)
    (g : Nat → τ → τ) (k : Nat) (s : σ) (t : τ) (h0 : Q 0 s t)
    (hstep : ∀ i a b, i < k → Q i a b → Q (i + 1) (f i a) (g i b)) :
    Q k (loopN f k s) (loopN g k t) := by
  induction k with
  | zero => exact h0
  | succ k ih =>
    exact hstep k _ _ (Nat.lt_succ_self k)
      (ih (fun i a b hi => hstep i a b (Nat.lt_succ_of_lt hi)))

/-- Unfolding one step of the forward solve's running `X` offset. -/
theorem sumRp_succ (F : Factor) (k : Nat) :
    sumRp F (k + 1) = match F.blocks k with
      | none => sumRp F k
      | some b => sumRp F k + b.row_pivots_number := by
  unfold sumRp
  rw [List.range_succ, List.foldl_append]
  rfl

theorem sumRp_succ_some (F : Factor) (k : Nat) (b : FactorBlock)
    (hb : F.blocks k = some b) :
    sumRp F (k + 1) = sumRp F k + b.row_pivots_number := by
  rw [sumRp_succ, hb]

theorem sumRp_le_succ (F : Factor) (k : Nat) : sumRp F k ≤ sumRp F (k + 1) := by
  rw [sumRp_succ]
  cases hb : F.blocks k
  · exact Nat.le_refl _
  · exact Nat.le_add_right _ _

theorem sumRp_mono (F : Factor) (k1 k2 : Nat) (h : k1 ≤ k2) :
    sumRp F k1 ≤ sumRp F k2 := by
  induction k2 with
  | zero => rw [Nat.le_zero.mp h]
  | succ k ih =>
    rcases Nat.lt_or_ge k1 (k + 1) with hlt | hge
    · exact Nat.le_trans (ih (by omega)) (sumRp_le_succ F k)
    · rw [Nat.le_antisymm h hge]

/-- Unfolding one step of the back solve's running `B`-pointer decrement. -/
theorem sumCpTop_succ (F : Factor) (k : Nat) :
    sumCpTop F (k + 1) = match F.blocks (F.num_blocks - 1 - k) with
      | none => sumCpTop F k
      | some b => sumCpTop F k + b.col_pivots_number := by
  unfold sumCpTop
  rw [List.range_succ, List.foldl_append]
  rfl

theorem sumCpTop_succ_some (F : Factor) (k : Nat) (b : FactorBlock)
    (hb : F.blocks (F.num_blocks - 1 - k) = some b) :
    sumCpTop F (k + 1) = sumCpTop F k + b.col_pivots_number := by
  rw [sumCpTop_succ, hb]

theorem sumCpTop_le_succ (F : Factor) (k : Nat) :
    sumCpTop F k ≤ sumCpTop F (k + 1) := by
  rw [sumCpTop_succ]
  cases hb : F.blocks (F.num_blocks - 1 - k)
  · exact Nat.le_refl _
  · exact Nat.le_add_right _ _

theorem sumCpTop_mono (F : Factor) (k1 k2 : Nat) (h : k1 ≤ k2) :
    sumCpTop F k1 ≤ sumCpTop F k2 := by
  induction k2 with
  | zero => rw [Nat.le_zero.mp h]
  | succ k ih =>
    rcases Nat.lt_or_ge k1 (k + 1) with hlt | hge
    · exact Nat.le_trans (ih (by omega)) (sumCpTop_le_succ F k)
    · rw [Nat.le_antisymm h hge]

/-- After all `num_blocks` iterations the back solve's decrement equals the
total `col_pivots_number` of all blocks. -/
theorem sumCpTop_top (F : Factor) : sumCpTop F F.num_blocks = sumCpFrom F 0 :=
  rfl

/-- The whole forward substitution acts columnwise: the three buffers of two
runs with different column counts and `B` leading dimensions agree on the
designated columns afterwards if they do before. -/
theorem solve_blocked_L_pair (F : Factor) (hmn : F.m = F.n)
    (hblocks : ∀ i, i < F.num_blocks →
      match F.blocks i with
      | none => False
      | some b => BlockWF F b)
    (hsum : sumRp F F.num_blocks ≤ F.n)
    (n1 n2 ld_B1 ld_B2 c1 c2 : Nat) (hc1 : c1 < n1) (hc2 : c2 < n2)
    (hB1 : F.n ≤ ld_B1) (hB2 : F.n ≤ ld_B2)
    (XA BA TA XB BB TB : Nat → ℚ)
    (hX : ColAgree F.n F.n F.n c1 c2 XA XB)
    (hB : ColAgree F.n ld_B1 ld_B2 c1 c2 BA BB)
    (hT : ColAgree F.n F.n F.n c1 c2 TA TB) :
    ColAgree F.n F.n F.n c1 c2 (solve_blocked_L F XA BA TA n1 ld_B1 F.n).1
        (solve_blocked_L F XB BB TB n2 ld_B2 F.n).1 ∧
    ColAgree F.n ld_B1 ld_B2 c1 c2 (solve_blocked_L F XA BA TA n1 ld_B1 F.n).2.1
        (solve_blocked_L F XB BB TB n2 ld_B2 F.n).2.1 ∧
    ColAgree F.n F.n F.n c1 c2 (solve_blocked_L F XA BA TA n1 ld_B1 F.n).2.2
        (solve_blocked_L F XB BB TB n2 ld_B2 F.n).2.2 := by
  unfold solve_blocked_L
  have main := loopN_rel_idx
    (fun i (p q : ((Nat → ℚ) × (Nat → ℚ) × (Nat → ℚ)) × Nat) =>
      p.2 = sumRp F i ∧ q.2 = sumRp F i ∧
      ColAgree F.n F.n F.n c1 c2 p.1.1 q.1.1 ∧
      ColAgree F.n ld_B1 ld_B2 c1 c2 p.1.2.1 q.1.2.1 ∧
      ColAgree F.n F.n F.n c1 c2 p.1.2.2 q.1.2.2)
    (fun i (st : ((Nat → ℚ) × (Nat → ℚ) × (Nat → ℚ)) × Nat) =>
      match F.blocks i with
      | none => st
      | some block =>
        (solveLBlock n1 ld_B1 F.n F.n block st.2 st.1,
         st.2 + block.row_pivots_number))
    (fun i (st : ((Nat → ℚ) × (Nat → ℚ) × (Nat → ℚ)) × Nat) =>
      match F.blocks i with
      | none => st
      | some block =>
        (solveLBlock n2 ld_B2 F.n F.n block st.2 st.1,
         st.2 + block.row_pivots_number))
    F.num_blocks ((XA, BA, TA), 0) ((XB, BB, TB), 0)
    ⟨rfl, rfl, hX, hB, hT⟩ ?_
  · exact ⟨main.2.2.1, main.2.2.2.1, main.2.2.2.2⟩
  · intro i p q hi hQ
    obtain ⟨hp2, hq2, hXa, hBa, hTa⟩ := hQ
    have hbi := hblocks i hi
    cases hb : F.blocks i with
    | none =>
      rw [hb] at hbi
      exact hbi.elim
    | some block =>
      rw [hb] at hbi
      have hbwf : BlockWF F block := hbi
      dsimp only
      rw [hb]
      dsimp only
      rw [hp2, hq2]
      have hstep : sumRp F (i + 1) = sumRp F i + block.row_pivots_number :=
        sumRp_succ_some F i block hb
      have hmono : sumRp F (i + 1) ≤ sumRp F F.num_blocks :=
        sumRp_mono F (i + 1) F.num_blocks hi
      have hoff : sumRp F i + block.row_pivots_number ≤ F.n := by omega
      have hblk := solveLBlock_pair F block hbwf hmn n1 n2 ld_B1 ld_B2 c1 c2
        (sumRp F i) hc1 hc2 hB1 hB2 hoff p.1 q.1 hXa hBa hTa
      exact ⟨hstep.symm, hstep.symm, hblk.1, hblk.2.1, hblk.2.2⟩

/-- The whole back substitution acts columnwise: the three buffers of two
runs with different column counts and `X` leading dimensions agree on the
designated columns afterwards if they do before. -/
theorem solve_blocked_U_pair (F : Factor)
    (hblocks : ∀ i, i < F.num_blocks →
      match F.blocks i with
      | none => False
      | some b => BlockWF F b)
    (hsum : sumCpFrom F 0 ≤ F.n)
    (n1 n2 ld_X1 ld_X2 c1 c2 : Nat) (hc1 : c1 < n1) (hc2 : c2 < n2)
    (hX1 : F.n ≤ ld_X1) (hX2 : F.n ≤ ld_X2)
    (XA BA TA XB BB TB : Nat → ℚ)
    (hX : ColAgree F.n ld_X1 ld_X2 c1 c2 XA XB)
    (hB : ColAgree F.n F.n F.n c1 c2 BA BB)
    (hT : ColAgree F.n F.n F.n c1 c2 TA TB) :
    ColAgree F.n ld_X1 ld_X2 c1 c2 (solve_blocked_U F XA BA TA n1 F.n ld_X1).1
        (solve_blocked_U F XB BB TB n2 F.n ld_X2).1 ∧
    ColAgree F.n F.n F.n c1 c2 (solve_blocked_U F XA BA TA n1 F.n ld_X1).2.1
        (solve_blocked_U F XB BB TB n2 F.n ld_X2).2.1 ∧
    ColAgree F.n F.n F.n c1 c2 (solve_blocked_U F XA BA TA n1 F.n ld_X1).2.2
        (solve_blocked_U F XB BB TB n2 F.n ld_X2).2.2 := by
  unfold solve_blocked_U
  have main := loopN_rel_idx
    (fun k (p q : ((Nat → ℚ) × (Nat → ℚ) × (Nat → ℚ)) × Nat) =>
      p.2 = F.n - sumCpTop F k ∧ q.2 = F.n - sumCpTop F k ∧
      ColAgree F.n ld_X1 ld_X2 c1 c2 p.1.1 q.1.1 ∧
      ColAgree F.n F.n F.n c1 c2 p.1.2.1 q.1.2.1 ∧
      ColAgree F.n F.n F.n c1 c2 p.1.2.2 q.1.2.2)
    (fun k (st : ((Nat → ℚ) × (Nat → ℚ) × (Nat → ℚ)) × Nat) =>
      match F.blocks (F.num_blocks - 1 - k) with
      | none => st
      | some block =>
        (solveUBlock n1 F.n ld_X1 F.n block (st.2 - block.col_pivots_number) st.1,
         st.2 - block.col_pivots_number))
    (fun k (st : ((Nat → ℚ) × (Nat → ℚ) × (Nat → ℚ)) × Nat) =>
      match F.blocks (F.num_blocks - 1 - k) with
      | none => st
      | some block =>
        (solveUBlock n2 F.n ld_X2 F.n block (st.2 - block.col_pivots_number) st.1,
         st.2 - block.col_pivots_number))
    F.num_blocks ((XA, BA, TA), F.n) ((XB, BB, TB), F.n)
    ⟨rfl, rfl, hX, hB, hT⟩ ?_
  · exact ⟨main.2.2.1, main.2.2.2.1, main.2.2.2.2⟩
  · intro k p q hk hQ
    obtain ⟨hp2, hq2, hXa, hBa, hTa⟩ := hQ
    have hik : F.num_blocks - 1 - k < F.num_blocks := by omega
    have hbi := hblocks (F.num_blocks - 1 - k) hik
    cases hb : F.blocks (F.num_blocks - 1 - k) with
    | none =>
      rw [hb] at hbi
      exact hbi.elim
    | some block =>
      rw [hb] at hbi
      have hbwf : BlockWF F block := hbi
      dsimp only
      rw [hb]
      dsimp only
      rw [hp2, hq2]
      have hstep : sumCpTop F (k + 1) = sumCpTop F k + block.col_pivots_number :=
        sumCpTop_succ_some F k block hb
      have hmono : sumCpTop F (k + 1) ≤ sumCpTop F F.num_blocks :=
        sumCpTop_mono F (k + 1) F.num_blocks hk
      have htot : sumCpTop F F.num_blocks = sumCpFrom F 0 := sumCpTop_top F
      have hboff : (F.n - sumCpTop F k - block.col_pivots_number) +
          block.col_pivots_number ≤ F.n := by omega
      have hblk := solveUBlock_pair F block hbwf n1 n2 ld_X1 ld_X2 c1 c2
        (F.n - sumCpTop F k - block.col_pivots_number) hc1 hc2 hX1 hX2 hboff
        p.1 q.1 hXa hBa hTa
      have hco : F.n - sumCpTop F k - block.col_pivots_number =
          F.n - sumCpTop F (k + 1) := by omega
      exact ⟨hco, hco, hblk.1, hblk.2.1, hblk.2.2⟩

/-- The concrete one-block factor is well-formed for the blocked solve. -/
theorem solve1Factor_wf : SolveWF solve1Factor 1 1 := by
  refine ⟨rfl, Nat.le_refl 1, Nat.le_refl 1, ?_, ?_, ?_⟩
  · intro i hi
    have hnb : solve1Factor.num_blocks = 1 := rfl
    have h0 : i = 0 := by omega
    subst h0
    show BlockWF solve1Factor solve1Block
    unfold BlockWF
    decide
  · show sumRp solve1Factor 1 ≤ 1
    decide
  · show sumCpFrom solve1Factor 0 ≤ 1
    decide

/-- Claim C3: the multi-RHS solve is columnwise the single-RHS solve.  For a
well-formed factor, every column `c < k` of the output of
`multilu_solve_many` with `nrhs = k` equals (on the `n` solution rows) the
output of `multilu_solve` run on column `c` of `B` — with the single call's
buffers taken as the column-`c` views of the multi call's buffers, and its
`B_Copy` junk tail arbitrary. -/
theorem C3_solve_many_columnwise (F : Factor) (kN ld_X ld_B : Nat)
    (hwf : SolveWF F ld_X ld_B)
    (X B junkBC junkY junkT junkBC2 : Nat → ℚ)
    (c : Nat) (hc : c < kN) :
    ∀ r, r < F.n →
      (multilu_solve_many F kN X ld_X B ld_B junkBC junkY junkT).1
        (r + c * ld_X) =
      (multilu_solve F (colView ld_X c X) (colView ld_B c B) junkBC2
        (colView F.n c junkY) (colView F.n c junkT)).1 r := by
  obtain ⟨hmn, hldX, hldB, hblocks, hsumR, hsumC⟩ := hwf
  have hnB : F.n ≤ ld_B := by omega
  have hnm : F.n ≤ F.m := by omega
  -- initial columnwise agreements of the forward-solve inputs
  have hY0 : ColAgree F.n F.n F.n c 0 junkY (colView F.n c junkY) := by
    intro r hr
    show junkY (r + c * F.n) = junkY (r + 0 * F.n + c * F.n)
    exact congrArg junkY (by omega)
  have hT0 : ColAgree F.n F.n F.n c 0 junkT (colView F.n c junkT) := by
    intro r hr
    show junkT (r + c * F.n) = junkT (r + 0 * F.n + c * F.n)
    exact congrArg junkT (by omega)
  have hB0 : ColAgree F.n ld_B F.m c 0
      (fun k => if k < kN * ld_B then B k else junkBC k)
      (fun k => if k < 1 * F.m then colView ld_B c B k else junkBC2 k) := by
    intro r hr
    have hcb : (c + 1) * ld_B ≤ kN * ld_B :=
      Nat.mul_le_mul_right _ (by omega)
    rw [Nat.succ_mul] at hcb
    have h1 : r + c * ld_B < kN * ld_B := by omega
    have h2 : r + 0 * F.m < 1 * F.m := by omega
    dsimp only
    rw [if_pos h1, if_pos h2]
    show B (r + c * ld_B) = B (r + 0 * F.m + c * ld_B)
    exact congrArg B (by omega)
  -- the two forward solves agree columnwise
  have hL := solve_blocked_L_pair F hmn hblocks hsumR kN 1 ld_B F.m c 0
    hc Nat.one_pos hnB hnm
    junkY (fun k => if k < kN * ld_B then B k else junkBC k) junkT
    (colView F.n c junkY)
    (fun k => if k < 1 * F.m then colView ld_B c B k else junkBC2 k)
    (colView F.n c junkT)
    hY0 hB0 hT0
  -- initial agreement of the output buffers
  have hX0 : ColAgree F.n ld_X F.m c 0 X (colView ld_X c X) := by
    intro r hr
    show X (r + c * ld_X) = X (r + 0 * F.m + c * ld_X)
    exact congrArg X (by omega)
  -- the two back solves agree columnwise
  have hU := solve_blocked_U_pair F hblocks hsumC kN 1 ld_X F.m c 0
    hc Nat.one_pos hldX hnm
    X
    (solve_blocked_L F junkY (fun k => if k < kN * ld_B then B k else junkBC k)
      junkT kN ld_B F.n).1
    (solve_blocked_L F junkY (fun k => if k < kN * ld_B then B k else junkBC k)
      junkT kN ld_B F.n).2.2
    (colView ld_X c X)
    (solve_blocked_L F (colView F.n c junkY)
      (fun k => if k < 1 * F.m then colView ld_B c B k else junkBC2 k)
      (colView F.n c junkT) 1 F.m F.n).1
    (solve_blocked_L F (colView F.n c junkY)
      (fun k => if k < 1 * F.m then colView ld_B c B k else junkBC2 k)
      (colView F.n c junkT) 1 F.m F.n).2.2
    hX0 hL.1 hL.2.2
  intro r hr
  have hfin := hU.1 r hr
  have hidx : r + 0 * F.m = r := by omega
  rw [hidx] at hfin
  exact hfin

/-- Claim C3 at a concrete instance: the one-block 1x1 factor with unit
leading dimensions, one right-hand side, column 0. -/
theorem C3_witness :
    SolveWF solve1Factor 1 1 ∧ 0 < 1 ∧
    ∀ r, r < solve1Factor.n →
      (multilu_solve_many solve1Factor 1 (fun _ => 3) 1 (fun _ => 4) 1
        (fun _ => 5) (fun _ => 6) (fun _ => 7)).1 (r + 0 * 1) =
      (multilu_solve solve1Factor (colView 1 0 (fun _ => 3))
        (colView 1 0 (fun _ => 4)) (fun _ => 8)
        (colView solve1Factor.n 0 (fun _ => 6))
        (colView solve1Factor.n 0 (fun _ => 7))).1 r :=
  ⟨solve1Factor_wf, Nat.one_pos,
    C3_solve_many_columnwise solve1Factor 1 1 1 solve1Factor_wf
      (fun _ => 3) (fun _ => 4) (fun _ => 5) (fun _ => 6) (fun _ => 7)
      (fun _ => 8) 0 Nat.one_pos⟩

end Multilu
